import Mathlib

/-!
# FastBDT stream codec (`inc/IO.h`)

A shallow embedding of the stream insertion / extraction operators of `inc/IO.h`
and of the part of the C++ stream library they rest on.

* An output stream is the list of characters written to it; `std::cerr` is a second
  such list, so that the warnings of the floating-point sequence writer are visible.
* An input stream is the list of unread characters together with the fail flag.
  A formatted extraction on a stream whose fail flag is set, or that reaches the end of
  input while skipping white space, sets the fail flag and leaves its operand untouched.
  An extraction that finds a field which does not convert sets the fail flag and stores
  the value the conversion yields (zero, or the largest value on overflow), as the
  language does from C++11 on. The end-of-file flag is not kept apart: whether it is
  set or not, an extraction on a stream that has no non-blank character left fails the
  same way.
* Integers are read and written in decimal, `bool` as `0` and `1`, and the formatting
  state of the streams is the default one.
* `IO.h` never tests the stream state and never throws. The extraction of a freshly
  declared local (`unsigned int size; stream >> size;`) that leaves the local unwritten
  makes the later use of that local undefined behaviour; the reading functions return
  `none` in exactly that case, and `some (stream, value)` whenever the C++ behaviour is
  defined.
-/

namespace FastBDT

/-! ## Characters -/

/-- Line feed, the character `std::endl` writes. -/
def endl : Char := Char.ofNat 10

/-- White space of the classic locale: space, `\t`, `\n`, `\v`, `\f`, `\r`. -/
def isspace (c : Char) : Bool :=
  c == ' ' || (9 ≤ c.toNat && c.toNat ≤ 13)

/-- Decimal digit character test. -/
def isdigit (c : Char) : Bool :=
  48 ≤ c.toNat && c.toNat ≤ 57

/-- The character of a decimal digit `d < 10`. -/
def digitChar (d : Nat) : Char := Char.ofNat (48 + d)

/-- The value of a decimal digit character. -/
def digitVal (c : Char) : Nat := c.toNat - 48

/-- Decimal digits of `n`, most significant first; `fuel` bounds the number of digits. -/
def natDigits : Nat → Nat → List Char
  | 0, _ => []
  | fuel + 1, n =>
    if n < 10 then [digitChar n] else natDigits fuel (n / 10) ++ [digitChar (n % 10)]

/-- Textual form of an unsigned integer (`stream << n` for `unsigned int`, `size_t`). -/
def putNat (n : Nat) : List Char := natDigits (n + 1) n

/-- Textual form of a `bool` without `boolalpha`: `1` or `0`. -/
def putBool (b : Bool) : List Char := if b then ['1'] else ['0']

/-- Value of a run of decimal digits. -/
def digitsVal (ds : List Char) : Nat := ds.foldl (fun a c => 10 * a + digitVal c) 0

/-- Largest value of `unsigned int`. -/
def UINT_MAX : Nat := 2 ^ 32 - 1

/-- Splits an optional leading sign off an integer field: `(negative, remainder)`. -/
def takeSign : List Char → Bool × List Char
  | c :: cs => if c = '-' then (true, cs) else if c = '+' then (false, cs) else (false, c :: cs)
  | [] => (false, [])

/-- Integer extraction `num_get` for `unsigned int`, entered at a non-blank character:
an optional sign and the longest run of digits are consumed. No digit: failure, zero is
stored. Magnitude above `UINT_MAX`: failure, `UINT_MAX` is stored. A minus sign negates
modulo `2 ^ 32`. Result: `(ok, stored value, unread characters)`. -/
def getUnsigned (cs : List Char) : Bool × Nat × List Char :=
  let sg := takeSign cs
  let ds := sg.2.takeWhile isdigit
  let rest := sg.2.dropWhile isdigit
  if ds = [] then (false, 0, rest)
  else if UINT_MAX < digitsVal ds then (false, UINT_MAX, rest)
  else (true, if sg.1 then (2 ^ 32 - digitsVal ds) % 2 ^ 32 else digitsVal ds, rest)

/-- Extraction of a `bool` without `boolalpha`: the field is read as a `long`; `0` gives
`false`, `1` gives `true`, any other value stores `true` and fails; no digit stores
`false` and fails. -/
def getBool (cs : List Char) : Bool × Bool × List Char :=
  let sg := takeSign cs
  let ds := sg.2.takeWhile isdigit
  let rest := sg.2.dropWhile isdigit
  if ds = [] then (false, false, rest)
  else if digitsVal ds = 0 then (true, false, rest)
  else if digitsVal ds = 1 ∧ sg.1 = false then (true, true, rest)
  else (false, true, rest)

/-- Accumulation of a floating-point field after the optional sign. `fm`: a mantissa
digit was seen; `fd`: the decimal point was seen; `fs`: the exponent letter was seen;
`es`: the previous character was the exponent letter, so a sign may follow.
Result: `(field, unread characters)`. -/
def scanFloatBody : Bool → Bool → Bool → Bool → List Char → List Char × List Char
  | _, _, _, _, [] => ([], [])
  | fm, fd, fs, es, c :: cs =>
    if isdigit c then
      let r := scanFloatBody true fd fs false cs
      (c :: r.1, r.2)
    else if c = '.' ∧ fd = false ∧ fs = false then
      let r := scanFloatBody fm true fs false cs
      (c :: r.1, r.2)
    else if (c = 'e' ∨ c = 'E') ∧ fs = false ∧ fm = true then
      let r := scanFloatBody fm fd true true cs
      (c :: r.1, r.2)
    else if (c = '+' ∨ c = '-') ∧ es = true then
      let r := scanFloatBody fm fd fs false cs
      (c :: r.1, r.2)
    else ([], c :: cs)

/-- Accumulation of a floating-point field: optional sign, digits with at most one
decimal point, optional exponent with optional sign. -/
def scanFloat : List Char → List Char × List Char
  | [] => ([], [])
  | c :: cs =>
    if c = '+' ∨ c = '-' then
      let r := scanFloatBody false false false false cs
      (c :: r.1, r.2)
    else scanFloatBody false false false false (c :: cs)

/-! ## Primitive element types -/

/-- What the templates of `IO.h` need of an element type `T`: the value-initialised
`T()`, the text `stream << value` writes, and the extraction `stream >> value` once the
stream is positioned at a non-blank character: `(ok, stored value, unread)`. -/
structure Elem (α : Type) where
  dflt : α
  put : α → List Char
  get : List Char → Bool × α × List Char

/-- The element type `unsigned int`. -/
def uintElem : Elem Nat := ⟨0, putNat, getUnsigned⟩

/-- The element type `bool`. -/
def boolElem : Elem Bool := ⟨false, putBool, getBool⟩

/-- A floating-point type of the host (`float` or `double`): its zero, `std::isfinite`,
its textual form under the default stream formatting, and the conversion of an
accumulated field (`ok`, stored value). The textual form is a single token. -/
structure Floating where
  α : Type
  zero : α
  isfinite : α → Bool
  put : α → List Char
  conv : List Char → Bool × α
  put_ne_nil : ∀ x, put x ≠ []
  put_nospace : ∀ x, ∀ c ∈ put x, isspace c = false

/-- The element type of a floating-point type: the field is accumulated by `scanFloat`
and then converted. -/
def floatElem (W : Floating) : Elem W.α :=
  ⟨W.zero, W.put, fun cs => ((W.conv (scanFloat cs).1).1, (W.conv (scanFloat cs).1).2, (scanFloat cs).2)⟩

/-! ## Streams -/

/-- The data stream written to and `std::cerr`. -/
structure OStreams where
  stream : List Char
  cerr : List Char

/-- Write characters to the data stream. -/
def OStreams.write (o : OStreams) (cs : List Char) : OStreams :=
  { o with stream := o.stream ++ cs }

/-- Write characters to `std::cerr`. -/
def OStreams.warn (o : OStreams) (cs : List Char) : OStreams :=
  { o with cerr := o.cerr ++ cs }

/-- An input stream: the unread characters and the fail flag. -/
structure IStream where
  rest : List Char
  fail : Bool
  deriving DecidableEq

/-- Formatted extraction `stream >> x` into an object that holds `cur`: nothing happens
on a failed stream; leading white space is skipped; at the end of input the fail flag is
set and `x` keeps `cur`; otherwise the field is read and the value it yields is stored,
the fail flag being set when the field does not convert. -/
def extract {α : Type} (E : Elem α) (s : IStream) (cur : α) : IStream × α :=
  if s.fail then (s, cur)
  else
    match s.rest.dropWhile isspace with
    | [] => (⟨[], true⟩, cur)
    | c :: cs => (⟨(E.get (c :: cs)).2.2, !(E.get (c :: cs)).1⟩, (E.get (c :: cs)).2.1)

/-- Formatted extraction `T x; stream >> x;` into an uninitialised local. When the
extraction does not write `x` the local stays indeterminate: `none`. -/
def extractFresh {α : Type} (E : Elem α) (s : IStream) : Option (IStream × α) :=
  if s.fail then none
  else
    match s.rest.dropWhile isspace with
    | [] => none
    | c :: cs => some (⟨(E.get (c :: cs)).2.2, !(E.get (c :: cs)).1⟩, (E.get (c :: cs)).2.1)

/-! ## Sequences (`IO.h` lines 20-72) -/

/-- Generic `operator<<(std::ostream&, const std::vector<T>&)`, lines 20-28. -/
def operatorOut_vector {α : Type} (E : Elem α) (o : OStreams) (vector : List α) : OStreams :=
  let o := o.write (putNat vector.length)
  let o := vector.foldl (fun o value => (o.write [' ']).write (E.put value)) o
  o.write [endl]

/-- The line written to `std::cerr` for a non-finite value. -/
def nonfiniteWarning : List Char :=
  "Writing a nonfinite value, it won't be possible to read the created weightfile!".toList ++ [endl]

/-- The specialisations of `operator<<` for `std::vector<float>` (lines 35-45) and
`std::vector<double>` (lines 47-57); the two bodies are the same text. -/
def operatorOut_vectorFloating (W : Floating) (o : OStreams) (vector : List W.α) : OStreams :=
  let o := o.write (putNat vector.length)
  let o := vector.foldl
    (fun o value =>
      let o := if W.isfinite value = false then o.warn nonfiniteWarning else o
      (o.write [' ']).write (W.put value)) o
  o.write [endl]

/-- The call `vector.resize(size)`. -/
def resize {α : Type} (dflt : α) (vector : List α) (size : Nat) : List α :=
  vector.take size ++ List.replicate (size - vector.length) dflt

/-- The loop `for (i = 0; i < size; ++i) stream >> vector[i];` with `k` iterations
left; `step` is the extraction applied to the element at index `i`. -/
def indexLoop {β : Type} (step : IStream → β → IStream × β) (d : β) :
    Nat → Nat → IStream → List β → IStream × List β
  | 0, _, s, v => (s, v)
  | k + 1, i, s, v =>
    indexLoop step d k (i + 1) (step s (v.getD i d)).1 (v.set i (step s (v.getD i d)).2)

/-- Generic `operator>>(std::istream&, std::vector<T>&)`, lines 64-72. -/
def operatorIn_vector {α : Type} (E : Elem α) (stream : IStream) (vector : List α) :
    Option (IStream × List α) :=
  match extractFresh uintElem stream with
  | none => none
  | some (stream, size) => some (indexLoop (extract E) E.dflt size 0 stream (resize E.dflt vector size))

/-! ## Data model (`FBDT.h`) -/

/-- Modelled from the spec: `struct Cut` of `FBDT.h`, which is not part of the sources
at hand. Fields `feature` and `index` are `unsigned int`, `valid` is `bool`, `gain` is a
floating-point value of the type `G`. -/
structure Cut (G : Floating) where
  feature : Nat
  index : Nat
  valid : Bool
  gain : G.α

/-- Modelled from the spec: `class Tree` of `FBDT.h`. The constructor is called as
`Tree(cuts, purities, boost_weights)`; the fields are listed in that order. -/
structure Tree (G W : Floating) where
  cuts : List (Cut G)
  purities : List W.α
  boostWeights : List W.α

/-- Modelled from the spec: the accessor `Tree::GetCuts`. -/
def Tree.GetCuts {G W : Floating} (t : Tree G W) : List (Cut G) := t.cuts

/-- Modelled from the spec: the accessor `Tree::GetBoostWeights`. -/
def Tree.GetBoostWeights {G W : Floating} (t : Tree G W) : List W.α := t.boostWeights

/-- Modelled from the spec: the accessor `Tree::GetPurities`. -/
def Tree.GetPurities {G W : Floating} (t : Tree G W) : List W.α := t.purities

/-- Modelled from the spec: `class Forest` of `FBDT.h`: the two scalars and the trees
in the order they were added. -/
structure Forest (D G W : Floating) where
  shrinkage : D.α
  F0 : D.α
  forest : List (Tree G W)

/-- Modelled from the spec: the constructor `Forest(shrinkage, F0)` builds a forest
without trees. -/
def Forest.new {D G W : Floating} (shrinkage F0 : D.α) : Forest D G W := ⟨shrinkage, F0, []⟩

/-- Modelled from the spec: `Forest::AddTree` appends the tree to the sequence. -/
def Forest.AddTree {D G W : Floating} (f : Forest D G W) (t : Tree G W) : Forest D G W :=
  { f with forest := f.forest ++ [t] }

/-- Modelled from the spec: the accessor `Forest::GetF0`. -/
def Forest.GetF0 {D G W : Floating} (f : Forest D G W) : D.α := f.F0

/-- Modelled from the spec: the accessor `Forest::GetShrinkage`. -/
def Forest.GetShrinkage {D G W : Floating} (f : Forest D G W) : D.α := f.shrinkage

/-- Modelled from the spec: the accessor `Forest::GetForest`. -/
def Forest.GetForest {D G W : Floating} (f : Forest D G W) : List (Tree G W) := f.forest

/-! ## Cut, Tree and Forest (`IO.h` lines 79-184) -/

/-- The function `operator<<(std::ostream&, const Cut&)`, lines 79-86. -/
def operatorOut_Cut (G : Floating) (o : OStreams) (cut : Cut G) : OStreams :=
  let o := (o.write (putNat cut.feature)).write [' ']
  let o := (o.write (putNat cut.index)).write [' ']
  let o := (o.write (putBool cut.valid)).write [' ']
  let o := o.write (G.put cut.gain)
  o.write [endl]

/-- The function `operator>>(std::istream&, Cut&)`, lines 93-99. -/
def operatorIn_Cut (G : Floating) (stream : IStream) (cut : Cut G) : IStream × Cut G :=
  let r1 := extract uintElem stream cut.feature
  let r2 := extract uintElem r1.1 cut.index
  let r3 := extract boolElem r2.1 cut.valid
  let r4 := extract (floatElem G) r3.1 cut.gain
  (r4.1, ⟨r1.2, r2.2, r3.2, r4.2⟩)

/-- The function `operator<<(std::ostream&, const Tree&)`, lines 106-115. The two
sequences are `std::vector<float>`, so the floating-point specialisation writes them. -/
def operatorOut_Tree (G W : Floating) (o : OStreams) (tree : Tree G W) : OStreams :=
  let cuts := tree.GetCuts
  let o := (o.write (putNat cuts.length)).write [endl]
  let o := cuts.foldl (fun o cut => (operatorOut_Cut G o cut).write [endl]) o
  let o := (operatorOut_vectorFloating W o tree.GetBoostWeights).write [endl]
  (operatorOut_vectorFloating W o tree.GetPurities).write [endl]

/-- The function `readTreeFromStream`, lines 122-139. `cut0` is the value-initialised
`Cut` the vector `cuts(size)` is filled with. -/
def readTreeFromStream (G W : Floating) (cut0 : Cut G) (stream : IStream) :
    Option (IStream × Tree G W) :=
  match extractFresh uintElem stream with
  | none => none
  | some (stream, size) =>
    let rc := indexLoop (operatorIn_Cut G) cut0 size 0 stream (List.replicate size cut0)
    match operatorIn_vector (floatElem W) rc.1 [] with
    | none => none
    | some (stream, boost_weights) =>
      match operatorIn_vector (floatElem W) stream [] with
      | none => none
      | some (stream, purities) => some (stream, Tree.mk rc.2 purities boost_weights)

/-- The function `operator<<(std::ostream&, const Forest&)`, lines 146-158. -/
def operatorOut_Forest (D G W : Floating) (o : OStreams) (forest : Forest D G W) : OStreams :=
  let o := (o.write (D.put forest.GetF0)).write [endl]
  let o := (o.write (D.put forest.GetShrinkage)).write [endl]
  let trees := forest.GetForest
  let o := (o.write (putNat trees.length)).write [endl]
  trees.foldl (fun o tree => (operatorOut_Tree G W o tree).write [endl]) o

/-- The loop `for (i = 0; i < size; ++i) forest.AddTree(readTreeFromStream(stream));`
of `readForestFromStream`, with `k` iterations left. -/
def forestLoop (D G W : Floating) (cut0 : Cut G) :
    Nat → IStream → Forest D G W → Option (IStream × Forest D G W)
  | 0, s, f => some (s, f)
  | k + 1, s, f =>
    match readTreeFromStream G W cut0 s with
    | none => none
    | some (s1, t) => forestLoop D G W cut0 k s1 (f.AddTree t)

/-- The function `readForestFromStream`, lines 165-184. -/
def readForestFromStream (D G W : Floating) (cut0 : Cut G) (stream : IStream) :
    Option (IStream × Forest D G W) :=
  match extractFresh (floatElem D) stream with
  | none => none
  | some (stream, F0) =>
    match extractFresh (floatElem D) stream with
    | none => none
    | some (stream, shrinkage) =>
      match extractFresh uintElem stream with
      | none => none
      | some (stream, size) => forestLoop D G W cut0 size stream (Forest.new shrinkage F0)

/-! ## A decimal floating-point type

An instance of `Floating` in which a finite value is a signed decimal
`mant * 10 ^ (-scale)` of unbounded precision and range. Its textual form is that of the
default stream formatting (the `%g` conversion with precision 6): six significant
digits, trailing zeros removed, scientific notation when the decimal exponent is below
`-4` or at least `6`. -/

/-- A value of the decimal floating-point type. -/
inductive Dec where
  | fin (neg : Bool) (mant : Nat) (scale : Nat)
  | inf (neg : Bool)
  | nan
  deriving DecidableEq

/-- Removes trailing zeros of a digit string, keeping one digit at least. -/
def stripZeros (cs : List Char) : List Char :=
  match (cs.reverse.dropWhile (fun c => c == '0')).reverse with
  | [] => ['0']
  | c :: l => c :: l

/-- Rounds `m` to six significant digits, ties to even: `(digits value, dropped digits)`. -/
def round6 (m : Nat) : Nat × Nat :=
  let len := (putNat m).length
  if len ≤ 6 then (m, 0)
  else
    let p := 10 ^ (len - 6)
    let q := m / p
    let r := m % p
    (if p < 2 * r ∨ (2 * r = p ∧ q % 2 = 1) then q + 1 else q, len - 6)

/-- Exponent part of the scientific notation: sign and two digits at least. -/
def putExp (x : Int) : List Char :=
  (if x < 0 then '-' else '+') :: (if x.natAbs < 10 then '0' :: putNat x.natAbs else putNat x.natAbs)

/-- Textual form of a positive finite decimal with digits value `m` and scale `k`. -/
def putMagnitude (m k : Nat) : List Char :=
  let r := round6 m
  let sig := stripZeros (putNat r.1)
  let x : Int := ((putNat r.1).length : Int) - 1 + (r.2 : Int) - (k : Int)
  if x < -4 ∨ 6 ≤ x then
    sig.headD '0' :: ((if sig.tail = [] then [] else '.' :: sig.tail) ++ 'e' :: putExp x)
  else if x < 0 then
    '0' :: '.' :: (List.replicate (x.natAbs - 1) '0' ++ sig)
  else if sig.length ≤ x.natAbs + 1 then
    sig.headD '0' :: (sig.tail ++ List.replicate (x.natAbs + 1 - sig.length) '0')
  else
    sig.headD '0' :: ((sig.tail.take x.natAbs) ++ '.' :: sig.tail.drop x.natAbs)

/-- Textual form of a decimal floating-point value. -/
def Dec.put : Dec → List Char
  | .fin neg m k =>
    let body := if m = 0 then ['0'] else putMagnitude m k
    if neg then '-' :: body else body
  | .inf neg => if neg then ['-', 'i', 'n', 'f'] else ['i', 'n', 'f']
  | .nan => ['n', 'a', 'n']

/-- Normal form of a finite decimal: no trailing zero in a fractional mantissa. -/
def normDec : Nat → Nat → Nat → Nat × Nat
  | 0, m, k => (m, k)
  | fuel + 1, m, k =>
    if k = 0 then (m, 0)
    else if m = 0 then (0, 0)
    else if m % 10 = 0 then normDec fuel (m / 10) (k - 1)
    else (m, k)

/-- Conversion of an accumulated field `[sign] digits [. digits] [e [sign] digits]`.
A field without mantissa digit, or with an exponent letter without exponent digit, does
not convert: zero is stored. -/
def Dec.conv (field : List Char) : Bool × Dec :=
  let sg := takeSign field
  let ip := sg.2.takeWhile isdigit
  let r1 := sg.2.dropWhile isdigit
  let fp := match r1 with
    | c :: cs => if c = '.' then cs.takeWhile isdigit else []
    | [] => []
  let r2 := match r1 with
    | c :: cs => if c = '.' then cs.dropWhile isdigit else c :: cs
    | [] => []
  if ip ++ fp = [] then (false, .fin false 0 0)
  else
    let m := digitsVal (ip ++ fp)
    match r2 with
    | [] => let n := normDec fp.length m fp.length; (true, .fin sg.1 n.1 n.2)
    | c :: cs =>
      if c = 'e' ∨ c = 'E' then
        let es := takeSign cs
        if es.2 = [] ∨ es.2.all isdigit = false then (false, .fin false 0 0)
        else
          let e := digitsVal es.2
          if es.1 then
            let n := normDec (fp.length + e) m (fp.length + e)
            (true, .fin sg.1 n.1 n.2)
          else if fp.length ≤ e then (true, .fin sg.1 (m * 10 ^ (e - fp.length)) 0)
          else
            let n := normDec (fp.length - e) m (fp.length - e)
            (true, .fin sg.1 n.1 n.2)
      else (false, .fin false 0 0)

/-! ## White space and tokens -/

/-- Every character of the list is white space. -/
def Blank (ws : List Char) : Prop := ∀ a ∈ ws, isspace a = true

/-- The list starts with a white-space character. -/
def StartsBlank (r : List Char) : Prop := ∃ c r', r = c :: r' ∧ isspace c = true


/-- The white-space delimited tokens of a text; `cur` is the token being read. -/
def tokensAux : List Char → List Char → List (List Char)
  | cur, [] => if cur = [] then [] else [cur]
  | cur, c :: cs =>
    if isspace c then (if cur = [] then tokensAux [] cs else cur :: tokensAux [] cs)
    else tokensAux (cur ++ [c]) cs

/-- The white-space delimited tokens of a text. -/
def tokens (cs : List Char) : List (List Char) := tokensAux [] cs

/-! ## Values that survive the text -/

/-- The text written for `x` is accepted whole as a floating-point field and converts. -/
def Floating.Readable (W : Floating) (x : W.α) : Prop :=
  scanFloat (W.put x) = (W.put x, []) ∧ (W.conv (W.put x)).1 = true

/-- The value the text written for `x` converts to. -/
def Floating.reread (W : Floating) (x : W.α) : W.α := (W.conv (W.put x)).2

/-- The value `x` is representable at the textual precision of the encoder: the text
written for `x` is accepted whole as a floating-point field and converts back to `x`. -/
def Floating.Representable (W : Floating) (x : W.α) : Prop :=
  scanFloat (W.put x) = (W.put x, []) ∧ W.conv (W.put x) = (true, x)

/-- The extraction of element type `E` reads the text of `x` as `y` whenever the text is
followed by white space. -/
def Reads {α : Type} (E : Elem α) (x y : α) : Prop :=
  E.put x ≠ [] ∧ (∀ c ∈ E.put x, isspace c = false) ∧
    ∀ r, StartsBlank r → E.get (E.put x ++ r) = (true, y, r)

/-! ## Wire layouts stated by the specification -/

/-- Layout of a sequence: the count, each element after one space, a line break. -/
def vectorLayout {α : Type} (put : α → List Char) (v : List α) : List Char :=
  putNat v.length ++ (v.flatMap (fun x => ' ' :: put x) ++ [endl])

/-- Tokens of a sequence: the count, then the elements. -/
def vectorTokens {α : Type} (put : α → List Char) (v : List α) : List (List Char) :=
  putNat v.length :: v.map put

/-- Layout of a Cut: `feature index valid gain` and a line break. -/
def cutLayout (G : Floating) (c : Cut G) : List Char :=
  putNat c.feature ++ ' ' :: (putNat c.index ++ ' ' :: (putBool c.valid ++ ' ' ::
    (G.put c.gain ++ [endl])))

/-- Tokens of a Cut: feature, index, valid, gain. -/
def cutTokens (G : Floating) (c : Cut G) : List (List Char) :=
  [putNat c.feature, putNat c.index, putBool c.valid, G.put c.gain]

/-- Layout of a Tree: the number of cuts on a line, every Cut on a line of its own
followed by an empty line, the boost weights, an empty line, the purities, an empty
line. -/
def treeLayout (G W : Floating) (t : Tree G W) : List Char :=
  putNat t.cuts.length ++ endl :: (t.cuts.flatMap (fun c => cutLayout G c ++ [endl]) ++
    (vectorLayout W.put t.boostWeights ++ endl :: (vectorLayout W.put t.purities ++ [endl])))

/-- Tokens of a Tree: cut count, the four tokens of each Cut, boost-weight count and
values, purity count and values. -/
def treeTokens (G W : Floating) (t : Tree G W) : List (List Char) :=
  putNat t.cuts.length :: (t.cuts.flatMap (cutTokens G) ++
    (vectorTokens W.put t.boostWeights ++ vectorTokens W.put t.purities))

/-- Layout of a Forest: `F0`, `shrinkage` and the number of trees on a line each, then
every Tree followed by an empty line. -/
def forestLayout (D G W : Floating) (f : Forest D G W) : List Char :=
  D.put f.F0 ++ endl :: (D.put f.shrinkage ++ endl :: (putNat f.forest.length ++ endl ::
    f.forest.flatMap (fun t => treeLayout G W t ++ [endl])))

/-- The warnings a floating-point sequence causes, in element order. -/
def vectorWarnings (W : Floating) (v : List W.α) : List Char :=
  v.flatMap (fun x => if W.isfinite x = false then nonfiniteWarning else [])

/-- The warnings the two sequences of a Tree cause. -/
def treeWarnings (G W : Floating) (t : Tree G W) : List Char :=
  vectorWarnings W t.boostWeights ++ vectorWarnings W t.purities

/-- The Cut read back from the text of `c`: the gain is the reread one. -/
def Cut.reread {G : Floating} (c : Cut G) : Cut G := { c with gain := G.reread c.gain }

/-- The Tree read back from the text of `t`. -/
def Tree.reread {G W : Floating} (t : Tree G W) : Tree G W :=
  ⟨t.cuts.map Cut.reread, t.purities.map W.reread, t.boostWeights.map W.reread⟩

/-- The Forest read back from the text of `f`. -/
def Forest.reread {D G W : Floating} (f : Forest D G W) : Forest D G W :=
  ⟨D.reread f.shrinkage, D.reread f.F0, f.forest.map Tree.reread⟩

/-- The text of the Cut can be read: both unsigned fields are within `unsigned int`
and the text of the gain is accepted and converts. -/
def Cut.Readable {G : Floating} (c : Cut G) : Prop :=
  c.feature ≤ UINT_MAX ∧ c.index ≤ UINT_MAX ∧ G.Readable c.gain

/-- The text of the Tree can be read: the three counts are within `unsigned int`, the
decoder's count type, and every Cut and value can be read. -/
def Tree.Readable {G W : Floating} (t : Tree G W) : Prop :=
  t.cuts.length ≤ UINT_MAX ∧ t.boostWeights.length ≤ UINT_MAX ∧ t.purities.length ≤ UINT_MAX ∧
    (∀ c ∈ t.cuts, c.Readable) ∧ (∀ x ∈ t.boostWeights, W.Readable x) ∧
    (∀ x ∈ t.purities, W.Readable x)

/-- The text of the Forest can be read. -/
def Forest.Readable {D G W : Floating} (f : Forest D G W) : Prop :=
  D.Readable f.F0 ∧ D.Readable f.shrinkage ∧ f.forest.length ≤ UINT_MAX ∧
    ∀ t ∈ f.forest, t.Readable

/-- Both unsigned fields of the Cut are values of `unsigned int`. -/
def Cut.InRange {G : Floating} (c : Cut G) : Prop :=
  c.feature ≤ UINT_MAX ∧ c.index ≤ UINT_MAX

/-- The three element counts of the Tree are within `unsigned int`, the type in which
the decoder holds a count, and the cuts are in range. -/
def Tree.InRange {G W : Floating} (t : Tree G W) : Prop :=
  t.cuts.length ≤ UINT_MAX ∧ t.boostWeights.length ≤ UINT_MAX ∧
    t.purities.length ≤ UINT_MAX ∧ ∀ c ∈ t.cuts, c.InRange

/-- The number of trees is within `unsigned int` and every Tree is in range. -/
def Forest.InRange {D G W : Floating} (f : Forest D G W) : Prop :=
  f.forest.length ≤ UINT_MAX ∧ ∀ t ∈ f.forest, t.InRange

/-- Every gain, boost weight and purity of the Tree is representable at the textual
precision of the encoder. -/
def Tree.Representable {G W : Floating} (t : Tree G W) : Prop :=
  (∀ c ∈ t.cuts, G.Representable c.gain) ∧ (∀ x ∈ t.boostWeights, W.Representable x) ∧
    (∀ x ∈ t.purities, W.Representable x)

/-- Both scalars of the Forest and every gain, boost weight and purity of its trees are
representable at the textual precision of the encoder. -/
def Forest.Representable {D G W : Floating} (f : Forest D G W) : Prop :=
  D.Representable f.F0 ∧ D.Representable f.shrinkage ∧ ∀ t ∈ f.forest, t.Representable

/-- The input stream that holds what the Forest writer wrote to an empty stream. -/
def encoded (D G W : Floating) (f : Forest D G W) : IStream :=
  ⟨(operatorOut_Forest D G W ⟨[], []⟩ f).stream, false⟩

/-! ## Notions the claims are stated with -/

/-- The number of elements of type `E` that can be extracted one after another from
the stream, at most `k`: how many of the next `k` extractions succeed before the first
one that fails. An element is the field an extraction reads, which need not be a whole
white-space delimited token. -/
def countReadable {α : Type} (E : Elem α) : Nat → IStream → Nat
  | 0, _ => 0
  | k + 1, s =>
    if (extract E s E.dflt).1.fail then 0 else countReadable E k (extract E s E.dflt).1 + 1

/-- The decoding of Tree block `i` (counted from zero) of a stream positioned at the
first Tree block: the blocks before it are read and passed over. -/
def blockAt (G W : Floating) (cut0 : Cut G) : Nat → IStream → Option (IStream × Tree G W)
  | 0, s => readTreeFromStream G W cut0 s
  | i + 1, s =>
    match readTreeFromStream G W cut0 s with
    | none => none
    | some (s1, _) => blockAt G W cut0 i s1

/-- The text written for `x` is accepted by the decoder, and the value read back is
written as the same text. -/
def Floating.Stable (W : Floating) (x : W.α) : Prop :=
  W.Readable x ∧ W.put (W.reread x) = W.put x

/-- Every gain, boost weight and purity of the Tree has a stable text. -/
def Tree.Stable {G W : Floating} (t : Tree G W) : Prop :=
  (∀ c ∈ t.cuts, G.Stable c.gain) ∧ (∀ x ∈ t.boostWeights, W.Stable x) ∧
    (∀ x ∈ t.purities, W.Stable x)

/-- Both scalars and every gain, boost weight and purity of the Forest have a stable
text. -/
def Forest.Stable {D G W : Floating} (f : Forest D G W) : Prop :=
  D.Stable f.F0 ∧ D.Stable f.shrinkage ∧ ∀ t ∈ f.forest, t.Stable

/-! ## All-or-nothing decoding, as the specification states it

The decoders below follow sections 4.1 to 4.5 of the specification: they return the
decoded value and the unread characters, or `none` for `MalformedInput`. They are the
reference the readers of `IO.h` are compared with. What they read as one token is the
field of a typed extraction: the characters the extraction of the type accepts after
leading white space. White-space delimited tokens are defined further down. -/

/-- One field is read and converted: `none` when it is missing or does not parse. -/
def strictExtract {α : Type} (E : Elem α) (cs : List Char) : Option (α × List Char) :=
  match cs.dropWhile isspace with
  | [] => none
  | c :: t =>
    if (E.get (c :: t)).1 then some ((E.get (c :: t)).2.1, (E.get (c :: t)).2.2) else none

/-- Exactly `k` items are decoded one after another. -/
def strictRepeat {β : Type} (item : List Char → Option (β × List Char)) :
    Nat → List Char → Option (List β × List Char)
  | 0, cs => some ([], cs)
  | k + 1, cs =>
    match item cs with
    | none => none
    | some (x, r) =>
      match strictRepeat item k r with
      | none => none
      | some (xs, r') => some (x :: xs, r')

/-- Section 4.1: one count token, then exactly that many element tokens. -/
def strictVector {α : Type} (E : Elem α) (cs : List Char) : Option (List α × List Char) :=
  match strictExtract uintElem cs with
  | none => none
  | some (n, r) => strictRepeat (strictExtract E) n r

/-- Section 4.3: the four fields of a Cut in the order feature, index, valid, gain. -/
def strictCut (G : Floating) (cs : List Char) : Option (Cut G × List Char) :=
  match strictExtract uintElem cs with
  | none => none
  | some (feature, r1) =>
    match strictExtract uintElem r1 with
    | none => none
    | some (index, r2) =>
      match strictExtract boolElem r2 with
      | none => none
      | some (valid, r3) =>
        match strictExtract (floatElem G) r3 with
        | none => none
        | some (gain, r4) => some (⟨feature, index, valid, gain⟩, r4)

/-- Section 4.4: the count, that many Cuts, the boost weights, the purities. -/
def strictTree (G W : Floating) (cs : List Char) : Option (Tree G W × List Char) :=
  match strictExtract uintElem cs with
  | none => none
  | some (n, r) =>
    match strictRepeat (strictCut G) n r with
    | none => none
    | some (cuts, r1) =>
      match strictVector (floatElem W) r1 with
      | none => none
      | some (boostWeights, r2) =>
        match strictVector (floatElem W) r2 with
        | none => none
        | some (purities, r3) => some (⟨cuts, purities, boostWeights⟩, r3)

/-- Section 4.5: `F0`, `shrinkage`, the tree count, that many Trees in decode order. -/
def strictForest (D G W : Floating) (cs : List Char) : Option (Forest D G W × List Char) :=
  match strictExtract (floatElem D) cs with
  | none => none
  | some (F0, r1) =>
    match strictExtract (floatElem D) r1 with
    | none => none
    | some (shrinkage, r2) =>
      match strictExtract uintElem r2 with
      | none => none
      | some (n, r3) =>
        match strictRepeat (strictTree G W) n r3 with
        | none => none
        | some (trees, r4) => some (⟨shrinkage, F0, trees⟩, r4)

/-- How a reader of `IO.h` relates to the all-or-nothing decoder on one input: without
a defined result the input is malformed; with a result, either the stream is good, the
input is well formed and the result is the decoded value with the same unread
characters, or the fail flag is set and the input is malformed. -/
def Refines {β : Type} (res : Option (IStream × β)) (strict : Option (β × List Char)) : Prop :=
  match res with
  | none => strict = none
  | some (s', v) =>
    (s'.fail = false ∧ strict = some (v, s'.rest)) ∨ (s'.fail = true ∧ strict = none)

/-- The textual form of every value of the element type is a token: it is not empty
and holds no white space, as the textual forms of the primitive types are. -/
def Elem.TokenText {α : Type} (E : Elem α) : Prop :=
  ∀ x, E.put x ≠ [] ∧ ∀ c ∈ E.put x, isspace c = false

/-! ## FeatureBinning (`IO.h` lines 191-228) -/

/-- Modelled from the spec: `class FeatureBinning<T>` of `FBDT.h`, which is not part of
the sources at hand: the type of its values, the accessors `GetNLevels` (an `unsigned
int`) and `GetBinning` (the boundary sequence), and the constructor
`FeatureBinning(nLevels, first, last)`, the factory, as a function of `nLevels` and of
the sequence that lies between the two iterators. -/
structure FeatureBinningClass (α : Type) where
  carrier : Type
  GetNLevels : carrier → Nat
  GetBinning : carrier → List α
  make : Nat → List α → carrier

/-- The template `operator<<(std::ostream&, const FeatureBinning<T>&)`, lines 191-198.
`writeBinning` is the `operator<<` that the call `stream << featureBinning.GetBinning()`
resolves to for `std::vector<T>`: the generic writer `operatorOut_vector`, or the
specialisation `operatorOut_vectorFloating` when `T` is `float` or `double`. -/
def operatorOut_FeatureBinning {α : Type} (B : FeatureBinningClass α)
    (writeBinning : OStreams → List α → OStreams) (o : OStreams)
    (featureBinning : B.carrier) : OStreams :=
  let o := (o.write (putNat (B.GetNLevels featureBinning))).write [endl]
  (writeBinning o (B.GetBinning featureBinning)).write [endl]

/-- The template `readFeatureBinningFromStream`, lines 205-216. -/
def readFeatureBinningFromStream {α : Type} (E : Elem α) (B : FeatureBinningClass α)
    (stream : IStream) : Option (IStream × B.carrier) :=
  match extractFresh uintElem stream with
  | none => none
  | some (stream, nLevels) =>
    match operatorIn_vector E stream [] with
    | none => none
    | some (stream, bins) => some (stream, B.make nLevels bins)

/-- The loop `for (i = 0; i < size; ++i)
vector.push_back(readFeatureBinningFromStream<T>(stream));` with `k` iterations left. -/
def pushBackLoop {α : Type} (E : Elem α) (B : FeatureBinningClass α) :
    Nat → IStream → List B.carrier → Option (IStream × List B.carrier)
  | 0, s, v => some (s, v)
  | k + 1, s, v =>
    match readFeatureBinningFromStream E B s with
    | none => none
    | some (s1, fb) => pushBackLoop E B k s1 (v ++ [fb])

/-- The overload `operator>>(std::istream&, std::vector<FeatureBinning<T>>&)`, lines
221-228. -/
def operatorIn_vectorFeatureBinning {α : Type} (E : Elem α) (B : FeatureBinningClass α)
    (stream : IStream) (vector : List B.carrier) : Option (IStream × List B.carrier) :=
  match extractFresh uintElem stream with
  | none => none
  | some (stream, size) => pushBackLoop E B size stream vector

/-- The generic template `operator<<(std::ostream&, const std::vector<T>&)`, lines
20-28, at the element type `FeatureBinning<T>`: the call `stream << " " << value`
writes the space and then runs the FeatureBinning writer. -/
def operatorOut_vectorFeatureBinning {α : Type} (B : FeatureBinningClass α)
    (writeBinning : OStreams → List α → OStreams) (o : OStreams)
    (vector : List B.carrier) : OStreams :=
  let o := o.write (putNat vector.length)
  let o := vector.foldl
    (fun o value => operatorOut_FeatureBinning B writeBinning (o.write [' ']) value) o
  o.write [endl]

/-- Section 4.6: `nLevels`, then the boundary sequence; the FeatureBinning is built by
the factory from `nLevels` and the whole sequence. -/
def strictFeatureBinning {α : Type} (E : Elem α) (B : FeatureBinningClass α)
    (cs : List Char) : Option (B.carrier × List Char) :=
  match strictExtract uintElem cs with
  | none => none
  | some (nLevels, r1) =>
    match strictVector E r1 with
    | none => none
    | some (bins, r2) => some (B.make nLevels bins, r2)

/-- Layout of a FeatureBinning block: `nLevels` on a line, the boundary sequence on a
line, an empty line. -/
def binningLayout {α : Type} (B : FeatureBinningClass α) (put : α → List Char)
    (fb : B.carrier) : List Char :=
  putNat (B.GetNLevels fb) ++ endl :: (vectorLayout put (B.GetBinning fb) ++ [endl])

/-- Tokens of a FeatureBinning block: `nLevels`, the count, the boundaries in order. -/
def binningTokens {α : Type} (B : FeatureBinningClass α) (put : α → List Char)
    (fb : B.carrier) : List (List Char) :=
  putNat (B.GetNLevels fb) :: vectorTokens put (B.GetBinning fb)

/-- The decoding of FeatureBinning block `i` (counted from zero) of a stream positioned
at the first block: the blocks before it are read and passed over. -/
def binningAt {α : Type} (E : Elem α) (B : FeatureBinningClass α) :
    Nat → IStream → Option (IStream × B.carrier)
  | 0, s => readFeatureBinningFromStream E B s
  | i + 1, s =>
    match readFeatureBinningFromStream E B s with
    | none => none
    | some (s1, _) => binningAt E B i s1

/-! ## White-space delimited tokens, as the specification words the wire format

Sections 3 and 4 of the specification speak of white-space delimited tokens that parse
as a value of a type. The definitions below follow these words; the readers of `IO.h`
are compared with them. -/

/-- The token parses as a value of the element type: entered at the first character of
the token, the extraction succeeds and uses up the whole token. -/
def parseToken {α : Type} (E : Elem α) (tok : List Char) : Option α :=
  if (E.get tok).1 = true ∧ (E.get tok).2.2 = [] then some (E.get tok).2.1 else none

/-- Section 4.3 over white-space delimited tokens: the next four tokens exist and parse
as unsigned integer, unsigned integer, `bool` and floating-point value. -/
def tokenCut (G : Floating) (cs : List Char) : Option (Cut G) :=
  match tokens cs with
  | t1 :: t2 :: t3 :: t4 :: _ =>
    match parseToken uintElem t1, parseToken uintElem t2, parseToken boolElem t3,
        parseToken (floatElem G) t4 with
    | some feature, some index, some valid, some gain => some ⟨feature, index, valid, gain⟩
    | _, _, _, _ => none
  | _ => none

/-- The extraction of the element type stops at white space: a field that it accepts
and reads up to the end of the input is read the same way when white space follows. -/
def Elem.StopsAtBlank {α : Type} (E : Elem α) : Prop :=
  ∀ tok r, (E.get tok).1 = true → (E.get tok).2.2 = [] → StartsBlank r →
    E.get (tok ++ r) = (true, (E.get tok).2.1, r)

/-! ## The streams on which the readers have a defined result -/

/-- The stream holds a Tree block up to the count of its last sequence: the cut count,
that many Cuts and the boost weights decode, and a non-blank character follows, so that
the extraction of the purity count writes its variable. -/
def ReturnsTree (G W : Floating) (cs : List Char) : Prop :=
  ∃ n r cuts r1 bw r2, strictExtract uintElem cs = some (n, r) ∧
    strictRepeat (strictCut G) n r = some (cuts, r1) ∧
    strictVector (floatElem W) r1 = some (bw, r2) ∧ ¬ Blank r2

/-- The stream holds a Forest up to the count of the last sequence of its last Tree:
`F0` and `shrinkage` decode, a non-blank character follows them, and the tree count is
either stored as zero or read as a positive `n`, the first `n - 1` Tree blocks decode
and the last one is a Tree block up to the count of its last sequence. -/
def ReturnsForest (D G W : Floating) (cs : List Char) : Prop :=
  ∃ F0 r1 shrinkage r2 s3 n, strictExtract (floatElem D) cs = some (F0, r1) ∧
    strictExtract (floatElem D) r1 = some (shrinkage, r2) ∧
    extractFresh uintElem ⟨r2, false⟩ = some (s3, n) ∧
    (n = 0 ∨ (s3.fail = false ∧ ∃ ts r, strictRepeat (strictTree G W) (n - 1) s3.rest =
      some (ts, r) ∧ ReturnsTree G W r))

/-! ## Facts about characters, digits and fields -/

theorem blank_nil : Blank [] := by
  intro a h; cases h

theorem blank_cons {c : Char} {ws : List Char} (hc : isspace c = true) (h : Blank ws) :
    Blank (c :: ws) := by
  intro a ha
  rcases List.mem_cons.1 ha with rfl | ha
  · exact hc
  · exact h a ha

theorem blank_append {u v : List Char} (hu : Blank u) (hv : Blank v) : Blank (u ++ v) := by
  intro a ha
  rcases List.mem_append.1 ha with ha | ha
  · exact hu a ha
  · exact hv a ha

theorem isspace_endl : isspace endl = true := by decide

theorem isspace_space : isspace ' ' = true := by decide

theorem startsBlank_cons {c : Char} (r : List Char) (hc : isspace c = true) :
    StartsBlank (c :: r) := ⟨c, r, rfl, hc⟩

theorem isspace_not_digit {c : Char} (h : isspace c = true) : isdigit c = false := by
  simp only [isspace, isdigit, Bool.or_eq_true, Bool.and_eq_true, beq_iff_eq,
    decide_eq_true_eq] at h
  rcases h with h | h
  · subst h; decide
  · simp only [isdigit, Bool.and_eq_false_imp, decide_eq_true_eq, decide_eq_false_iff_not]
    omega

theorem isdigit_not_space {c : Char} (h : isdigit c = true) : isspace c = false := by
  cases hs : isspace c with
  | false => rfl
  | true => rw [isspace_not_digit hs] at h; cases h

theorem isspace_toNat {c : Char} (h : isspace c = true) : c.toNat ≤ 32 := by
  simp only [isspace, Bool.or_eq_true, Bool.and_eq_true, beq_iff_eq, decide_eq_true_eq] at h
  rcases h with h | h
  · subst h; decide
  · omega

theorem isspace_ne {c d : Char} (h : isspace c = true) (hd : 32 < d.toNat) : c ≠ d := by
  intro e
  subst e
  have := isspace_toNat h
  omega

theorem digitChar_spec {d : Nat} (h : d < 10) :
    isdigit (digitChar d) = true ∧ digitVal (digitChar d) = d := by
  interval_cases d <;> decide

theorem natDigits_digit (fuel n : Nat) : ∀ c ∈ natDigits fuel n, isdigit c = true := by
  induction fuel generalizing n with
  | zero => intro c h; cases h
  | succ fuel ih =>
    intro c h
    unfold natDigits at h
    split at h
    · rename_i hn
      rw [List.mem_singleton] at h
      subst h
      exact (digitChar_spec hn).1
    · rcases List.mem_append.1 h with h | h
      · exact ih _ c h
      · rw [List.mem_singleton] at h
        subst h
        exact (digitChar_spec (Nat.mod_lt n (by decide))).1

theorem natDigits_ne_nil (fuel n : Nat) : natDigits (fuel + 1) n ≠ [] := by
  unfold natDigits
  split
  · simp
  · simp

theorem digitsVal_append (l : List Char) (c : Char) :
    digitsVal (l ++ [c]) = 10 * digitsVal l + digitVal c := by
  simp [digitsVal, List.foldl_append]

theorem digitsVal_natDigits (fuel n : Nat) (h : n < fuel) : digitsVal (natDigits fuel n) = n := by
  induction fuel generalizing n with
  | zero => omega
  | succ fuel ih =>
    unfold natDigits
    split
    · rename_i hn
      simp [digitsVal, (digitChar_spec hn).2]
    · rename_i hn
      rw [digitsVal_append, ih (n / 10) (by omega), (digitChar_spec (Nat.mod_lt n (by decide))).2]
      omega

theorem putNat_digit (n : Nat) : ∀ c ∈ putNat n, isdigit c = true := natDigits_digit _ _

theorem putNat_ne_nil (n : Nat) : putNat n ≠ [] := natDigits_ne_nil _ _

theorem putNat_nospace (n : Nat) : ∀ c ∈ putNat n, isspace c = false :=
  fun c h => isdigit_not_space (putNat_digit n c h)

theorem digitsVal_putNat (n : Nat) : digitsVal (putNat n) = n :=
  digitsVal_natDigits _ _ (Nat.lt_succ_self n)

theorem isdigit_ne_sign {c : Char} (h : isdigit c = true) : c ≠ '-' ∧ c ≠ '+' := by
  constructor <;> (intro e; subst e; revert h; decide)

/-- A run of digits followed by a character that is no digit: `takeWhile` and
`dropWhile` split exactly there. -/
theorem digits_split (ds : List Char) (c : Char) (r : List Char)
    (hds : ∀ a ∈ ds, isdigit a = true) (hc : isdigit c = false) :
    (ds ++ c :: r).takeWhile isdigit = ds ∧ (ds ++ c :: r).dropWhile isdigit = c :: r := by
  constructor
  · rw [List.takeWhile_append_of_pos hds]
    simp [List.takeWhile_cons, hc]
  · rw [List.dropWhile_append_of_pos hds]
    simp [List.dropWhile_cons, hc]

theorem takeSign_digits (ds : List Char) (r : List Char) (hne : ds ≠ [])
    (hds : ∀ a ∈ ds, isdigit a = true) : takeSign (ds ++ r) = (false, ds ++ r) := by
  cases ds with
  | nil => exact absurd rfl hne
  | cons a t =>
    have ha := isdigit_ne_sign (hds a (List.mem_cons_self a t))
    simp [takeSign, ha.1, ha.2]

theorem getUnsigned_putNat (n : Nat) (c : Char) (r : List Char) (hn : n ≤ UINT_MAX)
    (hc : isspace c = true) : getUnsigned (putNat n ++ c :: r) = (true, n, c :: r) := by
  have hsp := digits_split (putNat n) c r (putNat_digit n) (isspace_not_digit hc)
  unfold getUnsigned
  rw [takeSign_digits _ _ (putNat_ne_nil n) (putNat_digit n)]
  simp only [hsp.1, hsp.2, digitsVal_putNat, putNat_ne_nil, if_false]
  rw [if_neg (by omega)]
  simp

theorem putBool_digit (b : Bool) : ∀ c ∈ putBool b, isdigit c = true := by
  cases b <;> (intro c h; simp [putBool] at h; subst h; decide)

theorem putBool_ne_nil (b : Bool) : putBool b ≠ [] := by
  cases b <;> simp [putBool]

theorem getBool_putBool (b : Bool) (c : Char) (r : List Char) (hc : isspace c = true) :
    getBool (putBool b ++ c :: r) = (true, b, c :: r) := by
  have hsp := digits_split (putBool b) c r (putBool_digit b) (isspace_not_digit hc)
  unfold getBool
  rw [takeSign_digits _ _ (putBool_ne_nil b) (putBool_digit b)]
  simp only [hsp.1, hsp.2]
  cases b <;> simp [putBool, digitsVal, digitVal]

theorem scanFloatBody_token (tok : List Char) (c : Char) (r : List Char)
    (hc : isspace c = true) :
    ∀ fm fd fs es, scanFloatBody fm fd fs es tok = (tok, []) →
      scanFloatBody fm fd fs es (tok ++ c :: r) = (tok, c :: r) := by
  induction tok with
  | nil =>
    intro fm fd fs es _
    have h1 := isspace_not_digit hc
    have h2 : c ≠ '.' := isspace_ne hc (by decide)
    have h3 : c ≠ 'e' := isspace_ne hc (by decide)
    have h4 : c ≠ 'E' := isspace_ne hc (by decide)
    have h5 : c ≠ '+' := isspace_ne hc (by decide)
    have h6 : c ≠ '-' := isspace_ne hc (by decide)
    simp [scanFloatBody, h1, h2, h3, h4, h5, h6]
  | cons a t ih =>
    intro fm fd fs es h
    simp only [List.cons_append]
    unfold scanFloatBody at h ⊢
    split
    · rename_i h1
      rw [if_pos h1] at h
      simp only [Prod.mk.injEq, List.cons.injEq, true_and] at h
      rw [ih true fd fs false (Prod.ext h.1 h.2)]
    · rename_i h1
      rw [if_neg h1] at h
      split
      · rename_i h2
        rw [if_pos h2] at h
        simp only [Prod.mk.injEq, List.cons.injEq, true_and] at h
        rw [ih fm true fs false (Prod.ext h.1 h.2)]
      · rename_i h2
        rw [if_neg h2] at h
        split
        · rename_i h3
          rw [if_pos h3] at h
          simp only [Prod.mk.injEq, List.cons.injEq, true_and] at h
          rw [ih fm fd true true (Prod.ext h.1 h.2)]
        · rename_i h3
          rw [if_neg h3] at h
          split
          · rename_i h4
            rw [if_pos h4] at h
            simp only [Prod.mk.injEq, List.cons.injEq, true_and] at h
            rw [ih fm fd fs false (Prod.ext h.1 h.2)]
          · rename_i h4
            rw [if_neg h4] at h
            simp at h

theorem scanFloat_token (tok : List Char) (r : List Char) (hr : StartsBlank r)
    (h : scanFloat tok = (tok, [])) : scanFloat (tok ++ r) = (tok, r) := by
  obtain ⟨c, r', rfl, hc⟩ := hr
  cases tok with
  | nil =>
    have h5 : c ≠ '+' := isspace_ne hc (by decide)
    have h6 : c ≠ '-' := isspace_ne hc (by decide)
    simp only [List.nil_append, scanFloat, h5, h6, or_self, if_false]
    exact scanFloatBody_token [] c r' hc _ _ _ _ rfl
  | cons a t =>
    simp only [List.cons_append, scanFloat] at h ⊢
    by_cases h1 : a = '+' ∨ a = '-'
    · rw [if_pos h1] at h ⊢
      simp only [Prod.mk.injEq, List.cons.injEq, true_and] at h
      rw [scanFloatBody_token t c r' hc _ _ _ _ (Prod.ext h.1 h.2)]
    · rw [if_neg h1] at h ⊢
      exact scanFloatBody_token (a :: t) c r' hc _ _ _ _ h

/-! ## Extraction of a token -/

theorem dropWhile_blank_token (ws tok r : List Char) (hws : Blank ws) (hne : tok ≠ [])
    (hns : ∀ c ∈ tok, isspace c = false) :
    (ws ++ tok ++ r).dropWhile isspace = tok ++ r := by
  rw [List.append_assoc, List.dropWhile_append_of_pos hws]
  cases tok with
  | nil => exact absurd rfl hne
  | cons a t => simp [List.dropWhile_cons, hns a (List.mem_cons_self a t)]

theorem extract_token {α : Type} (E : Elem α) (ws tok r : List Char) (cur : α)
    (hws : Blank ws) (hne : tok ≠ []) (hns : ∀ c ∈ tok, isspace c = false) :
    extract E ⟨ws ++ tok ++ r, false⟩ cur =
      (⟨(E.get (tok ++ r)).2.2, !(E.get (tok ++ r)).1⟩, (E.get (tok ++ r)).2.1) := by
  unfold extract
  simp only [Bool.false_eq_true, if_false, dropWhile_blank_token ws tok r hws hne hns]
  cases tok with
  | nil => exact absurd rfl hne
  | cons a t => rfl

theorem extractFresh_token {α : Type} (E : Elem α) (ws tok r : List Char)
    (hws : Blank ws) (hne : tok ≠ []) (hns : ∀ c ∈ tok, isspace c = false) :
    extractFresh E ⟨ws ++ tok ++ r, false⟩ =
      some (⟨(E.get (tok ++ r)).2.2, !(E.get (tok ++ r)).1⟩, (E.get (tok ++ r)).2.1) := by
  unfold extractFresh
  simp only [Bool.false_eq_true, if_false, dropWhile_blank_token ws tok r hws hne hns]
  cases tok with
  | nil => exact absurd rfl hne
  | cons a t => rfl

theorem extract_reads {α : Type} {E : Elem α} {x y : α} (h : Reads E x y)
    (ws r : List Char) (cur : α) (hws : Blank ws) (hr : StartsBlank r) :
    extract E ⟨ws ++ E.put x ++ r, false⟩ cur = (⟨r, false⟩, y) := by
  rw [extract_token E ws (E.put x) r cur hws h.1 h.2.1, h.2.2 r hr]
  rfl

theorem extractFresh_reads {α : Type} {E : Elem α} {x y : α} (h : Reads E x y)
    (ws r : List Char) (hws : Blank ws) (hr : StartsBlank r) :
    extractFresh E ⟨ws ++ E.put x ++ r, false⟩ = some (⟨r, false⟩, y) := by
  rw [extractFresh_token E ws (E.put x) r hws h.1 h.2.1, h.2.2 r hr]
  rfl

theorem reads_uint (n : Nat) (hn : n ≤ UINT_MAX) : Reads uintElem n n := by
  refine ⟨putNat_ne_nil n, putNat_nospace n, ?_⟩
  rintro r ⟨c, r', rfl, hc⟩
  exact getUnsigned_putNat n c r' hn hc

theorem reads_bool (b : Bool) : Reads boolElem b b := by
  refine ⟨putBool_ne_nil b, fun c h => isdigit_not_space (putBool_digit b c h), ?_⟩
  rintro r ⟨c, r', rfl, hc⟩
  exact getBool_putBool b c r' hc

theorem reads_float (W : Floating) (x : W.α) (h : W.Readable x) :
    Reads (floatElem W) x (W.reread x) := by
  refine ⟨W.put_ne_nil x, W.put_nospace x, ?_⟩
  intro r hr
  show ((W.conv (scanFloat (W.put x ++ r)).1).1, (W.conv (scanFloat (W.put x ++ r)).1).2,
    (scanFloat (W.put x ++ r)).2) = (true, W.reread x, r)
  rw [scanFloat_token (W.put x) r hr h.1, h.2]
  rfl

theorem readable_of_representable (W : Floating) (x : W.α) (h : W.Representable x) :
    W.Readable x ∧ W.reread x = x := by
  refine ⟨⟨h.1, ?_⟩, ?_⟩
  · rw [h.2]
  · unfold Floating.reread
    rw [h.2]

/-! ## The writers as text -/

theorem foldl_out {β : Type} (w : OStreams → β → OStreams) (txt diag : β → List Char)
    (hw : ∀ o x, w o x = ⟨o.stream ++ txt x, o.cerr ++ diag x⟩) (xs : List β) (o : OStreams) :
    xs.foldl w o = ⟨o.stream ++ xs.flatMap txt, o.cerr ++ xs.flatMap diag⟩ := by
  induction xs generalizing o with
  | nil => simp
  | cons x xs ih => simp [List.foldl_cons, ih, hw, List.append_assoc]

theorem operatorOut_vector_eq {α : Type} (E : Elem α) (o : OStreams) (v : List α) :
    operatorOut_vector E o v = ⟨o.stream ++ vectorLayout E.put v, o.cerr⟩ := by
  unfold operatorOut_vector
  simp only []
  rw [foldl_out _ (fun x => ' ' :: E.put x) (fun _ => [])
    (by intro o x; simp [OStreams.write, List.append_assoc])]
  simp [OStreams.write, vectorLayout, List.append_assoc]

theorem operatorOut_vectorFloating_eq (W : Floating) (o : OStreams) (v : List W.α) :
    operatorOut_vectorFloating W o v =
      ⟨o.stream ++ vectorLayout W.put v, o.cerr ++ vectorWarnings W v⟩ := by
  unfold operatorOut_vectorFloating
  simp only []
  rw [foldl_out _ (fun x => ' ' :: W.put x)
    (fun x => if W.isfinite x = false then nonfiniteWarning else [])
    (by intro o x; by_cases h : W.isfinite x = false <;>
          simp [OStreams.write, OStreams.warn, List.append_assoc, h])]
  simp [OStreams.write, vectorLayout, vectorWarnings, List.append_assoc]

theorem operatorOut_Cut_eq (G : Floating) (o : OStreams) (c : Cut G) :
    operatorOut_Cut G o c = ⟨o.stream ++ cutLayout G c, o.cerr⟩ := by
  simp [operatorOut_Cut, OStreams.write, cutLayout, List.append_assoc]

theorem operatorOut_Tree_eq (G W : Floating) (o : OStreams) (t : Tree G W) :
    operatorOut_Tree G W o t = ⟨o.stream ++ treeLayout G W t, o.cerr ++ treeWarnings G W t⟩ := by
  unfold operatorOut_Tree
  simp only []
  rw [foldl_out _ (fun c => cutLayout G c ++ [endl]) (fun _ => [])
    (by intro o x; simp [operatorOut_Cut_eq, OStreams.write, List.append_assoc])]
  simp [operatorOut_vectorFloating_eq, OStreams.write, treeLayout, treeWarnings,
    Tree.GetCuts, Tree.GetBoostWeights, Tree.GetPurities, List.append_assoc]

theorem operatorOut_Forest_eq (D G W : Floating) (o : OStreams) (f : Forest D G W) :
    operatorOut_Forest D G W o f =
      ⟨o.stream ++ forestLayout D G W f, o.cerr ++ f.forest.flatMap (treeWarnings G W)⟩ := by
  unfold operatorOut_Forest
  simp only []
  rw [foldl_out _ (fun t => treeLayout G W t ++ [endl]) (treeWarnings G W)
    (by intro o x; simp [operatorOut_Tree_eq, OStreams.write, List.append_assoc])]
  simp [OStreams.write, forestLayout, Forest.GetF0, Forest.GetShrinkage, Forest.GetForest,
    List.append_assoc]

/-! ## Tokens of a text -/

theorem tokensAux_token (tok : List Char) (hns : ∀ c ∈ tok, isspace c = false) :
    ∀ cur rest, tokensAux cur (tok ++ rest) = tokensAux (cur ++ tok) rest := by
  induction tok with
  | nil => intro cur rest; simp
  | cons a t ih =>
    intro cur rest
    have ha := hns a (List.mem_cons_self a t)
    have e : tokensAux cur (a :: (t ++ rest)) = tokensAux (cur ++ [a]) (t ++ rest) := by
      simp [tokensAux, ha]
    rw [List.cons_append, e, ih (fun c h => hns c (List.mem_cons_of_mem a h))]
    simp

theorem tokens_blank (c : Char) (rest : List Char) (hc : isspace c = true) :
    tokens (c :: rest) = tokens rest := by
  simp [tokens, tokensAux, hc]

theorem tokens_token (tok r : List Char) (hne : tok ≠ [])
    (hns : ∀ c ∈ tok, isspace c = false) (hr : StartsBlank r) :
    tokens (tok ++ r) = tok :: tokens r := by
  obtain ⟨c, r', rfl, hc⟩ := hr
  unfold tokens
  rw [tokensAux_token tok hns]
  simp [tokensAux, hc, hne, tokens_blank]

theorem tokens_elements {α : Type} (put : α → List Char) (hne : ∀ x, put x ≠ [])
    (hns : ∀ x, ∀ c ∈ put x, isspace c = false) (v : List α) (r : List Char)
    (hr : StartsBlank r) :
    tokens (v.flatMap (fun x => ' ' :: put x) ++ r) = v.map put ++ tokens r := by
  induction v with
  | nil => simp
  | cons x v ih =>
    simp only [List.flatMap_cons, List.cons_append, List.append_assoc, List.map_cons]
    rw [tokens_blank _ _ isspace_space, tokens_token _ _ (hne x) (hns x), ih]
    cases v with
    | nil => simpa using hr
    | cons y v => exact startsBlank_cons _ isspace_space

theorem tokens_vectorLayout {α : Type} (put : α → List Char) (hne : ∀ x, put x ≠ [])
    (hns : ∀ x, ∀ c ∈ put x, isspace c = false) (v : List α) (r : List Char) :
    tokens (vectorLayout put v ++ r) = vectorTokens put v ++ tokens r := by
  unfold vectorLayout vectorTokens
  simp only [List.append_assoc, List.cons_append, List.nil_append]
  rw [tokens_token _ _ (putNat_ne_nil _) (putNat_nospace _),
    tokens_elements put hne hns v _ (startsBlank_cons _ isspace_endl),
    tokens_blank _ _ isspace_endl]
  cases v with
  | nil => exact startsBlank_cons _ isspace_endl
  | cons y v => exact startsBlank_cons _ isspace_space

theorem tokens_cutLayout (G : Floating) (c : Cut G) (r : List Char) :
    tokens (cutLayout G c ++ r) = cutTokens G c ++ tokens r := by
  unfold cutLayout cutTokens
  simp only [List.append_assoc, List.cons_append, List.nil_append]
  rw [tokens_token _ _ (putNat_ne_nil _) (putNat_nospace _) (startsBlank_cons _ isspace_space),
    tokens_blank _ _ isspace_space,
    tokens_token _ _ (putNat_ne_nil _) (putNat_nospace _) (startsBlank_cons _ isspace_space),
    tokens_blank _ _ isspace_space,
    tokens_token _ _ (putBool_ne_nil _) (fun c h => isdigit_not_space (putBool_digit _ c h))
      (startsBlank_cons _ isspace_space),
    tokens_blank _ _ isspace_space,
    tokens_token _ _ (G.put_ne_nil _) (G.put_nospace _) (startsBlank_cons _ isspace_endl),
    tokens_blank _ _ isspace_endl]

theorem tokens_cuts (G : Floating) (cs : List (Cut G)) (r : List Char) :
    tokens (cs.flatMap (fun c => cutLayout G c ++ [endl]) ++ r) =
      cs.flatMap (cutTokens G) ++ tokens r := by
  induction cs with
  | nil => simp
  | cons c cs ih =>
    simp only [List.flatMap_cons, List.append_assoc, List.cons_append, List.nil_append]
    rw [tokens_cutLayout, tokens_blank _ _ isspace_endl, ih]

theorem tokens_treeLayout (G W : Floating) (t : Tree G W) (r : List Char) :
    tokens (treeLayout G W t ++ r) = treeTokens G W t ++ tokens r := by
  unfold treeLayout treeTokens
  simp only [List.append_assoc, List.cons_append, List.nil_append]
  rw [tokens_token _ _ (putNat_ne_nil _) (putNat_nospace _) (startsBlank_cons _ isspace_endl),
    tokens_blank _ _ isspace_endl, tokens_cuts,
    tokens_vectorLayout W.put W.put_ne_nil W.put_nospace,
    tokens_blank _ _ isspace_endl,
    tokens_vectorLayout W.put W.put_ne_nil W.put_nospace,
    tokens_blank _ _ isspace_endl]

theorem tokens_trees (G W : Floating) (ts : List (Tree G W)) (r : List Char) :
    tokens (ts.flatMap (fun t => treeLayout G W t ++ [endl]) ++ r) =
      ts.flatMap (treeTokens G W) ++ tokens r := by
  induction ts with
  | nil => simp
  | cons t ts ih =>
    simp only [List.flatMap_cons, List.append_assoc, List.cons_append, List.nil_append]
    rw [tokens_treeLayout, tokens_blank _ _ isspace_endl, ih]

theorem tokens_nil : tokens [] = [] := rfl

/-! ## The decimal floating-point type is a `Floating` -/

/-- No character of the list is white space. -/
def NoSpace (l : List Char) : Prop := ∀ c ∈ l, isspace c = false

theorem noSpace_nil : NoSpace [] := by
  intro c h; cases h

theorem noSpace_cons {c : Char} {l : List Char} (hc : isspace c = false) (hl : NoSpace l) :
    NoSpace (c :: l) := by
  intro a ha
  rcases List.mem_cons.1 ha with rfl | ha
  · exact hc
  · exact hl a ha

theorem noSpace_append {u v : List Char} (hu : NoSpace u) (hv : NoSpace v) :
    NoSpace (u ++ v) := by
  intro a ha
  rcases List.mem_append.1 ha with ha | ha
  · exact hu a ha
  · exact hv a ha

theorem noSpace_sub {u v : List Char} (hv : NoSpace v) (h : ∀ c ∈ u, c ∈ v) : NoSpace u :=
  fun c hc => hv c (h c hc)

theorem noSpace_replicate (n : Nat) {c : Char} (hc : isspace c = false) :
    NoSpace (List.replicate n c) := by
  intro a ha
  rw [List.eq_of_mem_replicate ha]
  exact hc

theorem noSpace_stripZeros {cs : List Char} (h : NoSpace cs) : NoSpace (stripZeros cs) := by
  unfold stripZeros
  split
  · exact noSpace_cons (by decide) noSpace_nil
  · rename_i c l e
    apply noSpace_sub h
    intro a ha
    have h1 : a ∈ (cs.reverse.dropWhile (fun c => c == '0')).reverse := by rw [e]; exact ha
    rw [List.mem_reverse] at h1
    exact List.mem_reverse.1 ((List.dropWhile_sublist _).subset h1)

theorem noSpace_headD {l : List Char} (h : NoSpace l) : isspace (l.headD '0') = false := by
  cases l with
  | nil => decide
  | cons a t => exact h a (List.mem_cons_self a t)

theorem noSpace_tail {l : List Char} (h : NoSpace l) : NoSpace l.tail :=
  noSpace_sub h (fun _ hc => List.mem_of_mem_tail hc)

theorem noSpace_putExp (x : Int) : NoSpace (putExp x) := by
  unfold putExp
  apply noSpace_cons
  · split <;> decide
  · split
    · exact noSpace_cons (by decide) (putNat_nospace _)
    · exact putNat_nospace _

theorem putMagnitude_token (m k : Nat) :
    putMagnitude m k ≠ [] ∧ NoSpace (putMagnitude m k) := by
  have hsig : NoSpace (stripZeros (putNat (round6 m).1)) := noSpace_stripZeros (putNat_nospace _)
  unfold putMagnitude
  simp only []
  split
  · refine ⟨by simp, noSpace_cons (noSpace_headD hsig) (noSpace_append ?_ ?_)⟩
    · split
      · exact noSpace_nil
      · exact noSpace_cons (by decide) (noSpace_tail hsig)
    · exact noSpace_cons (by decide) (noSpace_putExp _)
  · split
    · exact ⟨by simp, noSpace_cons (by decide) (noSpace_cons (by decide)
        (noSpace_append (noSpace_replicate _ (by decide)) hsig))⟩
    · split
      · exact ⟨by simp, noSpace_cons (noSpace_headD hsig)
          (noSpace_append (noSpace_tail hsig) (noSpace_replicate _ (by decide)))⟩
      · exact ⟨by simp, noSpace_cons (noSpace_headD hsig)
          (noSpace_append (noSpace_sub (noSpace_tail hsig) (fun _ h => List.mem_of_mem_take h))
            (noSpace_cons (by decide)
              (noSpace_sub (noSpace_tail hsig) (fun _ h => List.mem_of_mem_drop h))))⟩

theorem decPut_token (x : Dec) : Dec.put x ≠ [] ∧ NoSpace (Dec.put x) := by
  cases x with
  | fin neg m k =>
    have hbody : (if m = 0 then ['0'] else putMagnitude m k) ≠ [] ∧
        NoSpace (if m = 0 then ['0'] else putMagnitude m k) := by
      split
      · exact ⟨by simp, noSpace_cons (by decide) noSpace_nil⟩
      · exact putMagnitude_token m k
    unfold Dec.put
    simp only []
    split
    · exact ⟨by simp, noSpace_cons (by decide) hbody.2⟩
    · exact hbody
  | inf neg =>
    cases neg
    · exact ⟨by simp [Dec.put], noSpace_cons (by decide) (noSpace_cons (by decide)
        (noSpace_cons (by decide) noSpace_nil))⟩
    · exact ⟨by simp [Dec.put], noSpace_cons (by decide) (noSpace_cons (by decide)
        (noSpace_cons (by decide) (noSpace_cons (by decide) noSpace_nil)))⟩
  | nan =>
    exact ⟨by simp [Dec.put], noSpace_cons (by decide) (noSpace_cons (by decide)
      (noSpace_cons (by decide) noSpace_nil))⟩

/-- The decimal floating-point type as a `Floating`: a value is finite unless it is an
infinity or a NaN. -/
def decFloating : Floating where
  α := Dec
  zero := .fin false 0 0
  isfinite := fun x => match x with
    | .fin _ _ _ => true
    | _ => false
  put := Dec.put
  conv := Dec.conv
  put_ne_nil := fun x => (decPut_token x).1
  put_nospace := fun x => (decPut_token x).2

/-! ## Worked example of the specification -/

/-- A value-initialised Cut of the decimal instance. -/
def zeroCut : Cut decFloating := ⟨0, 0, false, .fin false 0 0⟩

/-- The Cut `feature = 2, index = 7, valid = true, gain = 1.25`. -/
def exampleCut : Cut decFloating := ⟨2, 7, true, .fin false 125 2⟩

/-- The Tree with that Cut, boost weights `[0.3]` and purities `[0.9]`. -/
def exampleTree : Tree decFloating decFloating :=
  ⟨[exampleCut], [.fin false 9 1], [.fin false 3 1]⟩

/-- The Forest `F0 = 0.5`, `shrinkage = 0.1` with that one Tree. -/
def exampleForest : Forest decFloating decFloating decFloating :=
  ⟨.fin false 1 1, .fin false 5 1, [exampleTree]⟩

/-- A Forest without trees whose `F0` is a NaN. -/
def nanForest : Forest decFloating decFloating decFloating :=
  ⟨.fin false 1 1, .nan, []⟩

/-- A Forest without trees whose `F0 = 0.1234567` has seven significant digits. -/
def longForest : Forest decFloating decFloating decFloating :=
  ⟨.fin false 1 1, .fin false 1234567 7, []⟩

/-- The Forest `F0 = 0.5`, `shrinkage = 0.1` whose one Tree has no Cut, no boost weight
and the single purity NaN. -/
def nanPurityForest : Forest decFloating decFloating decFloating :=
  ⟨.fin false 1 1, .fin false 5 1, [⟨[], [.nan], []⟩]⟩

/-- The Forest `F0 = 0.1234567`, `shrinkage = 0.1` with the example Tree. -/
def longExampleForest : Forest decFloating decFloating decFloating :=
  ⟨.fin false 1 1, .fin false 1234567 7, [exampleTree]⟩

/-- Three different Trees and the Forest that holds them in the order 1, 2, 3. -/
def tree1 : Tree decFloating decFloating :=
  ⟨[⟨1, 1, true, .fin false 1 0⟩], [.fin false 1 1], [.fin false 1 0]⟩

/-- The second Tree: no Cut, no boost weight, two purities. -/
def tree2 : Tree decFloating decFloating :=
  ⟨[], [.fin false 2 1, .fin false 22 2], []⟩

/-- The third Tree: two cuts. -/
def tree3 : Tree decFloating decFloating :=
  ⟨[⟨3, 3, false, .fin false 3 0⟩, ⟨4, 5, true, .fin true 35 1⟩], [.fin false 3 1], [.fin false 3 0]⟩

/-- The Forest with the trees 1, 2, 3. -/
def threeForest : Forest decFloating decFloating decFloating :=
  ⟨.fin false 1 1, .fin false 5 1, [tree1, tree2, tree3]⟩

/-- A FeatureBinning class over the decimal type whose factory keeps `nLevels` and the
sequence it is given. -/
def plainBinning : FeatureBinningClass Dec where
  carrier := Nat × List Dec
  GetNLevels := fun fb => fb.1
  GetBinning := fun fb => fb.2
  make := fun nLevels bins => (nLevels, bins)

/-! ## The encoders (claims C7 to C10) -/

theorem vectorWarnings_count (W : Floating) (v : List W.α) :
    vectorWarnings W v =
      (List.replicate (v.countP (fun x => !W.isfinite x)) nonfiniteWarning).flatten := by
  induction v with
  | nil => simp [vectorWarnings]
  | cons x v ih =>
    unfold vectorWarnings at ih ⊢
    rw [List.flatMap_cons, ih, List.countP_cons]
    cases h : W.isfinite x
    · simp [List.replicate_succ]
    · simp

theorem cutLine_no_endl (G : Floating) (c : Cut G) :
    ∃ line, cutLayout G c = line ++ [endl] ∧ endl ∉ line := by
  refine ⟨putNat c.feature ++ ' ' :: (putNat c.index ++ ' ' :: (putBool c.valid ++ ' ' ::
    G.put c.gain)), by simp [cutLayout, List.append_assoc], ?_⟩
  intro h
  have hn : ∀ l : List Char, (∀ a ∈ l, isspace a = false) → endl ∉ l := by
    intro l hl hm
    have := hl endl hm
    rw [isspace_endl] at this
    cases this
  have hb : ∀ b, ∀ a ∈ putBool b, isspace a = false :=
    fun b a ha => isdigit_not_space (putBool_digit b a ha)
  have hsp : endl ≠ ' ' := by decide
  simp only [List.mem_append, List.mem_cons] at h
  rcases h with h | h | h | h | h | h | h
  · exact hn _ (putNat_nospace _) h
  · exact hsp h
  · exact hn _ (putNat_nospace _) h
  · exact hsp h
  · exact hn _ (hb _) h
  · exact hsp h
  · exact hn _ (G.put_nospace _) h

/-- C7: the floating-point specialisation of the sequence writer (`float` or `double`)
puts on the data stream exactly the characters the generic sequence writer puts there
for the same values, finite or not; the written text holds the count and one token for
every position, the textual form of the value at that position. -/
theorem finiteness_check_keeps_data_stream (W : Floating) (o : OStreams) (v : List W.α) :
    (operatorOut_vectorFloating W o v).stream = (operatorOut_vector (floatElem W) o v).stream ∧
    tokens (operatorOut_vectorFloating W ⟨[], []⟩ v).stream = putNat v.length :: v.map W.put := by
  constructor
  · rw [operatorOut_vectorFloating_eq, operatorOut_vector_eq]
    rfl
  · rw [operatorOut_vectorFloating_eq]
    have h := tokens_vectorLayout W.put W.put_ne_nil W.put_nospace v []
    simpa [vectorTokens, tokens_nil] using h

/-- C8: the floating-point sequence writer appends to `std::cerr` one warning line for
every element that is not finite, and nothing else: as many warnings as there are
non-finite elements. -/
theorem nonfinite_warning_count (W : Floating) (o : OStreams) (v : List W.α) :
    (operatorOut_vectorFloating W o v).cerr =
      o.cerr ++ (List.replicate (v.countP (fun x => !W.isfinite x)) nonfiniteWarning).flatten := by
  rw [operatorOut_vectorFloating_eq, vectorWarnings_count]

theorem tokens_tree_out (G W : Floating) (t : Tree G W) :
    tokens (operatorOut_Tree G W ⟨[], []⟩ t).stream = treeTokens G W t := by
  rw [operatorOut_Tree_eq]
  have h := tokens_treeLayout G W t []
  simpa [tokens_nil] using h

theorem forest_tokens_core (D G W : Floating) (f : Forest D G W) :
    tokens (operatorOut_Forest D G W ⟨[], []⟩ f).stream =
      D.put f.F0 :: D.put f.shrinkage :: putNat f.forest.length ::
        f.forest.flatMap (treeTokens G W) := by
  simp only [operatorOut_Forest_eq, List.nil_append, forestLayout]
  rw [tokens_token _ _ (D.put_ne_nil _) (D.put_nospace _) (startsBlank_cons _ isspace_endl),
    tokens_blank _ _ isspace_endl,
    tokens_token _ _ (D.put_ne_nil _) (D.put_nospace _) (startsBlank_cons _ isspace_endl),
    tokens_blank _ _ isspace_endl,
    tokens_token _ _ (putNat_ne_nil _) (putNat_nospace _) (startsBlank_cons _ isspace_endl),
    tokens_blank _ _ isspace_endl]
  have h := tokens_trees G W f.forest []
  simp only [List.append_nil, tokens_nil] at h
  rw [h]

/-- C9: the Forest writer appends to the stream a text whose tokens are `F0`, then
`shrinkage`, then the number of trees, then the tokens of the encodings of the trees in
sequence order, and nothing else. -/
theorem forest_wire_layout (D G W : Floating) (o : OStreams) (f : Forest D G W) :
    (operatorOut_Forest D G W o f).stream =
      o.stream ++ (operatorOut_Forest D G W ⟨[], []⟩ f).stream ∧
    tokens (operatorOut_Forest D G W ⟨[], []⟩ f).stream =
      D.put f.F0 :: D.put f.shrinkage :: putNat f.forest.length ::
        f.forest.flatMap (fun t => tokens (operatorOut_Tree G W ⟨[], []⟩ t).stream) := by
  constructor
  · simp [operatorOut_Forest_eq]
  · simp only [tokens_tree_out]
    exact forest_tokens_core D G W f

/-- C10: the Tree writer appends the number of cuts and a line break, then every Cut in
sequence order as a line `feature index valid gain` of its own followed by an empty
line, then the count-prefixed boost weights and the count-prefixed purities, each
followed by an empty line; the tokens are the cut count, the four tokens of each Cut,
the boost-weight count and values, the purity count and values. -/
theorem tree_wire_layout (G W : Floating) (o : OStreams) (t : Tree G W) :
    (operatorOut_Tree G W o t).stream = o.stream ++ treeLayout G W t ∧
    (∀ c ∈ t.cuts, ∃ line, cutLayout G c = line ++ [endl] ∧ endl ∉ line) ∧
    tokens (treeLayout G W t) = treeTokens G W t := by
  refine ⟨by rw [operatorOut_Tree_eq], fun c _ => cutLine_no_endl G c, ?_⟩
  have h := tokens_treeLayout G W t []
  simpa [tokens_nil] using h

/-! ## Reading back what the writers wrote -/

theorem indexLoop_reads {β : Type} (step : IStream → β → IStream × β) (d : β)
    (item : β → List Char) (f : β → β) (Follow : List Char → Prop)
    (hitem : ∀ x rest, Follow (item x ++ rest)) (xs : List β)
    (hstep : ∀ x ∈ xs, ∀ ws r cur, Blank ws → Follow r →
      ∃ ws', Blank ws' ∧ step ⟨ws ++ item x ++ r, false⟩ cur = (⟨ws' ++ r, false⟩, f x)) :
    ∀ (done stale : List β) (ws r : List Char), stale.length = xs.length → Blank ws → Follow r →
      ∃ ws', Blank ws' ∧
        indexLoop step d xs.length done.length ⟨ws ++ xs.flatMap item ++ r, false⟩ (done ++ stale) =
          (⟨ws' ++ r, false⟩, done ++ xs.map f) := by
  induction xs with
  | nil =>
    intro done stale ws r hlen hws _
    have : stale = [] := List.length_eq_zero.1 hlen
    subst this
    exact ⟨ws, hws, by simp [indexLoop]⟩
  | cons x xs ih =>
    intro done stale ws r hlen hws hr
    cases stale with
    | nil => simp at hlen
    | cons y st =>
      have hfol : Follow (xs.flatMap item ++ r) := by
        cases xs with
        | nil => simpa using hr
        | cons x' xs' => simpa [List.append_assoc] using hitem x' (xs'.flatMap item ++ r)
      obtain ⟨w1, hw1, e1⟩ := hstep x (List.mem_cons_self x xs) ws (xs.flatMap item ++ r) y hws hfol
      obtain ⟨w2, hw2, e2⟩ := ih (fun x' hx' => hstep x' (List.mem_cons_of_mem x hx'))
        (done ++ [f x]) st w1 r (by simpa using hlen) hw1 hr
      refine ⟨w2, hw2, ?_⟩
      have hget : (done ++ y :: st).getD done.length d = y := by
        rw [List.getD_append_right _ _ _ _ (Nat.le_refl _)]
        simp
      have hset : (done ++ y :: st).set done.length (f x) = (done ++ [f x]) ++ st := by
        simp [List.set_append]
      have hrest : ws ++ (x :: xs).flatMap item ++ r = ws ++ item x ++ (xs.flatMap item ++ r) := by
        simp [List.append_assoc]
      simp only [List.length_cons, indexLoop]
      rw [hget, hrest, e1, hset]
      simp only [List.length_append, List.length_singleton, List.append_assoc, List.map_cons,
        List.singleton_append] at e2
      simpa [List.append_assoc] using e2

theorem read_vectorLayout {α : Type} (E : Elem α) (f : α → α) (v : List α)
    (hlen : v.length ≤ UINT_MAX) (hv : ∀ x ∈ v, Reads E x (f x)) (d : List α)
    (ws r : List Char) (hws : Blank ws) :
    ∃ ws', Blank ws' ∧
      operatorIn_vector E ⟨ws ++ vectorLayout E.put v ++ r, false⟩ d =
        some (⟨ws' ++ r, false⟩, v.map f) := by
  have hfol : StartsBlank (v.flatMap (fun x => ' ' :: E.put x) ++ ([endl] ++ r)) := by
    cases v with
    | nil => exact startsBlank_cons _ isspace_endl
    | cons y v => exact startsBlank_cons _ isspace_space
  have h1 := extractFresh_reads (reads_uint v.length hlen) ws _ hws hfol
  have hsz : (resize E.dflt d v.length).length = v.length := by
    simp only [resize, List.length_append, List.length_take, List.length_replicate]
    omega
  obtain ⟨w, hw, e⟩ := indexLoop_reads (extract E) E.dflt (fun x => ' ' :: E.put x) f StartsBlank
    (fun x rest => startsBlank_cons _ isspace_space) v
    (by
      intro x hx ws r cur hws hr
      refine ⟨[], blank_nil, ?_⟩
      have := extract_reads (hv x hx) (ws ++ [' ']) r cur
        (blank_append hws (blank_cons isspace_space blank_nil)) hr
      simpa [List.append_assoc] using this)
    [] (resize E.dflt d v.length) [] ([endl] ++ r) hsz blank_nil (startsBlank_cons _ isspace_endl)
  refine ⟨w ++ [endl], blank_append hw (blank_cons isspace_endl blank_nil), ?_⟩
  unfold operatorIn_vector
  have hrest : ws ++ vectorLayout E.put v ++ r =
      ws ++ uintElem.put v.length ++ (v.flatMap (fun x => ' ' :: E.put x) ++ ([endl] ++ r)) := by
    simp [vectorLayout, uintElem, List.append_assoc]
  rw [hrest, h1]
  simp only [List.nil_append, List.length_nil] at e
  simp only [e, List.append_assoc]

theorem read_cutLayout (G : Floating) (c : Cut G) (hc : c.Readable) (cur : Cut G)
    (ws r : List Char) (hws : Blank ws) :
    operatorIn_Cut G ⟨ws ++ cutLayout G c ++ r, false⟩ cur = (⟨endl :: r, false⟩, c.reread) := by
  obtain ⟨h1, h2, h3⟩ := hc
  have hsp : ∀ l : List Char, StartsBlank (' ' :: l) := fun l => startsBlank_cons l isspace_space
  have e1 := extract_reads (reads_uint c.feature h1) ws
    (' ' :: (putNat c.index ++ ' ' :: (putBool c.valid ++ ' ' :: (G.put c.gain ++ endl :: r))))
    cur.feature hws (hsp _)
  have e2 := extract_reads (reads_uint c.index h2) [' ']
    (' ' :: (putBool c.valid ++ ' ' :: (G.put c.gain ++ endl :: r)))
    cur.index (blank_cons isspace_space blank_nil) (hsp _)
  have e3 := extract_reads (reads_bool c.valid) [' ']
    (' ' :: (G.put c.gain ++ endl :: r))
    cur.valid (blank_cons isspace_space blank_nil) (hsp _)
  have e4 := extract_reads (reads_float G c.gain h3) [' '] (endl :: r)
    cur.gain (blank_cons isspace_space blank_nil) (startsBlank_cons _ isspace_endl)
  simp only [uintElem, boolElem, List.append_assoc, List.cons_append, List.nil_append] at e1 e2 e3 e4
  have e4' : extract (floatElem G) ⟨' ' :: (G.put c.gain ++ endl :: r), false⟩ cur.gain =
      (⟨endl :: r, false⟩, G.reread c.gain) := e4
  unfold operatorIn_Cut
  simp only [cutLayout, uintElem, boolElem, List.append_assoc, List.cons_append, List.nil_append,
    e1, e2, e3, e4']
  rfl

theorem read_cuts (G : Floating) (cut0 : Cut G) (cs : List (Cut G))
    (hcs : ∀ c ∈ cs, c.Readable) (ws r : List Char) (hws : Blank ws) :
    ∃ ws', Blank ws' ∧
      indexLoop (operatorIn_Cut G) cut0 cs.length 0
          ⟨ws ++ cs.flatMap (fun c => cutLayout G c ++ [endl]) ++ r, false⟩
          (List.replicate cs.length cut0) =
        (⟨ws' ++ r, false⟩, cs.map Cut.reread) := by
  have h := indexLoop_reads (operatorIn_Cut G) cut0 (fun c => cutLayout G c ++ [endl])
    Cut.reread (fun _ => True) (fun _ _ => trivial) cs
    (by
      intro c hc ws r cur hws _
      refine ⟨[endl, endl], blank_cons isspace_endl (blank_cons isspace_endl blank_nil), ?_⟩
      have := read_cutLayout G c (hcs c hc) cur ws ([endl] ++ r) hws
      simpa [List.append_assoc] using this)
    [] (List.replicate cs.length cut0) ws r (by simp) hws trivial
  simpa using h

theorem read_treeLayout (G W : Floating) (cut0 : Cut G) (t : Tree G W) (ht : t.Readable)
    (ws r : List Char) (hws : Blank ws) :
    ∃ ws', Blank ws' ∧
      readTreeFromStream G W cut0 ⟨ws ++ treeLayout G W t ++ r, false⟩ =
        some (⟨ws' ++ r, false⟩, t.reread) := by
  obtain ⟨hn, hnb, hnp, hc, hb, hp⟩ := ht
  have h1 := extractFresh_reads (reads_uint t.cuts.length hn) ws
    ([endl] ++ t.cuts.flatMap (fun c => cutLayout G c ++ [endl]) ++
      (vectorLayout W.put t.boostWeights ++ ([endl] ++
        (vectorLayout W.put t.purities ++ ([endl] ++ r))))) hws
    (startsBlank_cons _ isspace_endl)
  obtain ⟨w1, hw1, e1⟩ := read_cuts G cut0 t.cuts hc [endl]
    (vectorLayout W.put t.boostWeights ++ ([endl] ++
      (vectorLayout W.put t.purities ++ ([endl] ++ r))))
    (blank_cons isspace_endl blank_nil)
  obtain ⟨w2, hw2, e2⟩ := read_vectorLayout (floatElem W) W.reread t.boostWeights hnb
    (fun x hx => reads_float W x (hb x hx)) [] w1
    ([endl] ++ (vectorLayout W.put t.purities ++ ([endl] ++ r))) hw1
  obtain ⟨w3, hw3, e3⟩ := read_vectorLayout (floatElem W) W.reread t.purities hnp
    (fun x hx => reads_float W x (hp x hx)) [] (w2 ++ [endl]) ([endl] ++ r)
    (blank_append hw2 (blank_cons isspace_endl blank_nil))
  refine ⟨w3 ++ [endl], blank_append hw3 (blank_cons isspace_endl blank_nil), ?_⟩
  have hput : (floatElem W).put = W.put := rfl
  rw [hput] at e2 e3
  have hrest : ws ++ treeLayout G W t ++ r = ws ++ (uintElem.put t.cuts.length ++
      ([endl] ++ (t.cuts.flatMap (fun c => cutLayout G c ++ [endl]) ++
        (vectorLayout W.put t.boostWeights ++ ([endl] ++
          (vectorLayout W.put t.purities ++ ([endl] ++ r))))))) := by
    simp [treeLayout, uintElem, List.append_assoc]
  simp only [List.append_assoc] at h1 e1 e2 e3
  unfold readTreeFromStream
  rw [hrest, h1]
  simp only [e1, e2, e3]
  simp [Tree.reread, List.append_assoc]

theorem forestLoop_reads (D G W : Floating) (cut0 : Cut G) (ts : List (Tree G W))
    (hts : ∀ t ∈ ts, t.Readable) :
    ∀ (F : Forest D G W) (ws r : List Char), Blank ws →
      ∃ ws', Blank ws' ∧
        forestLoop D G W cut0 ts.length
            ⟨ws ++ ts.flatMap (fun t => treeLayout G W t ++ [endl]) ++ r, false⟩ F =
          some (⟨ws' ++ r, false⟩, ⟨F.shrinkage, F.F0, F.forest ++ ts.map Tree.reread⟩) := by
  induction ts with
  | nil =>
    intro F ws r hws
    exact ⟨ws, hws, by simp [forestLoop]⟩
  | cons t ts ih =>
    intro F ws r hws
    obtain ⟨w1, hw1, e1⟩ := read_treeLayout G W cut0 t (hts t (List.mem_cons_self t ts)) ws
      ([endl] ++ (ts.flatMap (fun t => treeLayout G W t ++ [endl]) ++ r)) hws
    obtain ⟨w2, hw2, e2⟩ := ih (fun t' ht' => hts t' (List.mem_cons_of_mem t ht'))
      (F.AddTree t.reread) (w1 ++ [endl]) r
      (blank_append hw1 (blank_cons isspace_endl blank_nil))
    refine ⟨w2, hw2, ?_⟩
    have hrest : ws ++ (t :: ts).flatMap (fun t => treeLayout G W t ++ [endl]) ++ r =
        ws ++ (treeLayout G W t ++
          ([endl] ++ (ts.flatMap (fun t => treeLayout G W t ++ [endl]) ++ r))) := by
      simp [List.append_assoc]
    simp only [List.append_assoc] at e1 e2
    simp only [List.length_cons, forestLoop]
    rw [hrest, e1]
    simp only [e2]
    simp [Forest.AddTree, List.append_assoc]

theorem read_forestLayout (D G W : Floating) (cut0 : Cut G) (f : Forest D G W)
    (hf : f.Readable) (ws r : List Char) (hws : Blank ws) :
    ∃ ws', Blank ws' ∧
      readForestFromStream D G W cut0 ⟨ws ++ forestLayout D G W f ++ r, false⟩ =
        some (⟨ws' ++ r, false⟩, f.reread) := by
  obtain ⟨h0, hs, hn, ht⟩ := hf
  have e1 := extractFresh_reads (reads_float D f.F0 h0) ws
    ([endl] ++ (D.put f.shrinkage ++ ([endl] ++ (putNat f.forest.length ++ ([endl] ++
      (f.forest.flatMap (fun t => treeLayout G W t ++ [endl]) ++ r)))))) hws
    (startsBlank_cons _ isspace_endl)
  have e2 := extractFresh_reads (reads_float D f.shrinkage hs) [endl]
    ([endl] ++ (putNat f.forest.length ++ ([endl] ++
      (f.forest.flatMap (fun t => treeLayout G W t ++ [endl]) ++ r))))
    (blank_cons isspace_endl blank_nil) (startsBlank_cons _ isspace_endl)
  have e3 := extractFresh_reads (reads_uint f.forest.length hn) [endl]
    ([endl] ++ (f.forest.flatMap (fun t => treeLayout G W t ++ [endl]) ++ r))
    (blank_cons isspace_endl blank_nil) (startsBlank_cons _ isspace_endl)
  obtain ⟨w, hw, e4⟩ := forestLoop_reads D G W cut0 f.forest ht
    (Forest.new (D.reread f.shrinkage) (D.reread f.F0)) [endl] r
    (blank_cons isspace_endl blank_nil)
  refine ⟨w, hw, ?_⟩
  have hput : (floatElem D).put = D.put := rfl
  have hputn : uintElem.put = putNat := rfl
  rw [hput] at e1 e2
  rw [hputn] at e3
  have hrest : ws ++ forestLayout D G W f ++ r = ws ++ (D.put f.F0 ++
      ([endl] ++ (D.put f.shrinkage ++ ([endl] ++ (putNat f.forest.length ++ ([endl] ++
        (f.forest.flatMap (fun t => treeLayout G W t ++ [endl]) ++ r))))))) := by
    simp [forestLayout, List.append_assoc]
  simp only [List.append_assoc] at e1 e2 e3 e4
  unfold readForestFromStream
  rw [hrest, e1]
  simp only [e2, e3, e4]
  simp [Forest.new, Forest.reread]

/-! ## Round trip (claims C1, C4, C5, C6) -/

theorem cut_readable {G : Floating} (c : Cut G) (hr : c.InRange)
    (hg : G.Readable c.gain) : c.Readable := ⟨hr.1, hr.2, hg⟩

theorem tree_readable_reread {G W : Floating} (t : Tree G W) (hr : t.InRange)
    (hp : t.Representable) : t.Readable ∧ t.reread = t := by
  obtain ⟨h1, h2, h3, h4⟩ := hr
  obtain ⟨p1, p2, p3⟩ := hp
  refine ⟨⟨h1, h2, h3, fun c hc => cut_readable c (h4 c hc)
    (readable_of_representable G _ (p1 c hc)).1,
    fun x hx => (readable_of_representable W x (p2 x hx)).1,
    fun x hx => (readable_of_representable W x (p3 x hx)).1⟩, ?_⟩
  have e1 : t.cuts.map Cut.reread = t.cuts := by
    conv => rhs; rw [← List.map_id t.cuts]
    apply List.map_congr_left
    intro c hc
    simp [Cut.reread, (readable_of_representable G _ (p1 c hc)).2]
  have e2 : t.boostWeights.map W.reread = t.boostWeights := by
    conv => rhs; rw [← List.map_id t.boostWeights]
    apply List.map_congr_left
    intro x hx
    simp [(readable_of_representable W x (p2 x hx)).2]
  have e3 : t.purities.map W.reread = t.purities := by
    conv => rhs; rw [← List.map_id t.purities]
    apply List.map_congr_left
    intro x hx
    simp [(readable_of_representable W x (p3 x hx)).2]
  simp [Tree.reread, e1, e2, e3]

theorem forest_readable_reread {D G W : Floating} (f : Forest D G W) (hr : f.InRange)
    (hp : f.Representable) : f.Readable ∧ f.reread = f := by
  obtain ⟨h1, h2⟩ := hr
  obtain ⟨p0, ps, pt⟩ := hp
  refine ⟨⟨(readable_of_representable D _ p0).1, (readable_of_representable D _ ps).1, h1,
    fun t ht => (tree_readable_reread t (h2 t ht) (pt t ht)).1⟩, ?_⟩
  have e1 : f.forest.map Tree.reread = f.forest := by
    conv => rhs; rw [← List.map_id f.forest]
    apply List.map_congr_left
    intro t ht
    simp [(tree_readable_reread t (h2 t ht) (pt t ht)).2]
  simp [Forest.reread, e1, (readable_of_representable D _ p0).2,
    (readable_of_representable D _ ps).2]

theorem read_encoded {D G W : Floating} (cut0 : Cut G) (f : Forest D G W) (hf : f.Readable) :
    ∃ s', readForestFromStream D G W cut0 (encoded D G W f) = some (s', f.reread) ∧
      s'.fail = false ∧ Blank s'.rest := by
  obtain ⟨w, hw, e⟩ := read_forestLayout D G W cut0 f hf [] [] blank_nil
  refine ⟨⟨w, false⟩, ?_, rfl, hw⟩
  simp only [encoded, operatorOut_Forest_eq, List.nil_append]
  simpa using e

theorem roundtrip_core {D G W : Floating} (cut0 : Cut G) (f : Forest D G W)
    (hrange : f.InRange) (hrep : f.Representable) :
    ∃ s', readForestFromStream D G W cut0 (encoded D G W f) = some (s', f) ∧
      s'.fail = false ∧ Blank s'.rest := by
  obtain ⟨hr, he⟩ := forest_readable_reread f hrange hrep
  have h := read_encoded cut0 f hr
  rw [he] at h
  exact h

/-- C1: for every Forest whose scalars, gains, boost weights and purities are
representable at the textual precision of the encoder (and whose unsigned fields and
element counts are values of `unsigned int`), reading the stream the Forest writer
produced returns that very Forest, field for field, and leaves the stream good with
only white space unread. -/
theorem forest_round_trip (D G W : Floating) (cut0 : Cut G) (f : Forest D G W)
    (hrange : f.InRange) (hrep : f.Representable) :
    ∃ s', readForestFromStream D G W cut0 (encoded D G W f) = some (s', f) ∧
      s'.fail = false ∧ Blank s'.rest :=
  roundtrip_core cut0 f hrange hrep

theorem exampleForest_inRange : exampleForest.InRange := by
  simp [Forest.InRange, Tree.InRange, Cut.InRange, exampleForest, exampleTree, exampleCut,
    UINT_MAX]

theorem dec_representable (x : Dec) (h1 : scanFloat (Dec.put x) = (Dec.put x, []))
    (h2 : Dec.conv (Dec.put x) = (true, x)) : decFloating.Representable x := ⟨h1, h2⟩

theorem exampleForest_representable : exampleForest.Representable := by
  simp only [Forest.Representable, Tree.Representable, exampleForest, exampleTree, exampleCut,
    List.mem_singleton, forall_eq]
  exact ⟨dec_representable _ (by decide) (by decide), dec_representable _ (by decide) (by decide),
    dec_representable _ (by decide) (by decide), dec_representable _ (by decide) (by decide),
    dec_representable _ (by decide) (by decide)⟩

theorem exampleForest_encoded :
    (encoded decFloating decFloating decFloating exampleForest).rest =
      "0.5\n0.1\n1\n1\n2 7 1 1.25\n\n1 0.3\n\n1 0.9\n\n\n".toList := by
  decide

/-- Witness of C1: the Forest of the specification's end-to-end scenario, `F0 = 0.5`,
`shrinkage = 0.1`, one Tree with the Cut `2 7 1 1.25`, boost weights `[0.3]` and
purities `[0.9]`, is read back from its own encoding. -/
theorem forest_round_trip_witness :
    (exampleForest.InRange ∧ exampleForest.Representable) ∧
    ∃ s', readForestFromStream decFloating decFloating decFloating zeroCut
        (encoded decFloating decFloating decFloating exampleForest) = some (s', exampleForest) ∧
      s'.fail = false ∧ Blank s'.rest :=
  ⟨⟨exampleForest_inRange, exampleForest_representable⟩,
    forest_round_trip decFloating decFloating decFloating zeroCut exampleForest
      exampleForest_inRange exampleForest_representable⟩

/-! ## Extraction on a failed stream -/

theorem extract_fail_sticky {α : Type} (E : Elem α) (s : IStream) (cur : α)
    (h : s.fail = true) : extract E s cur = (s, cur) := by
  simp [extract, h]

theorem extract_state_indep {α : Type} (E : Elem α) (s : IStream) (c1 c2 : α) :
    (extract E s c1).1 = (extract E s c2).1 := by
  unfold extract
  split
  · rfl
  · split <;> rfl

theorem indexLoop_fail_sticky {β : Type} (step : IStream → β → IStream × β) (d : β)
    (hstep : ∀ s cur, s.fail = true → (step s cur).1.fail = true) :
    ∀ (k i : Nat) (s : IStream) (v : List β), s.fail = true →
      (indexLoop step d k i s v).1.fail = true := by
  intro k
  induction k with
  | zero => intro i s v h; simpa [indexLoop] using h
  | succ k ih =>
    intro i s v h
    simp only [indexLoop]
    exact ih _ _ _ (hstep s _ h)

theorem indexLoop_short {α : Type} (E : Elem α) :
    ∀ (k i : Nat) (s : IStream) (v : List α), countReadable E k s < k →
      (indexLoop (extract E) E.dflt k i s v).1.fail = true := by
  have hsticky : ∀ (s : IStream) (cur : α), s.fail = true → (extract E s cur).1.fail = true := by
    intro s cur h
    rw [extract_fail_sticky E s cur h]
    exact h
  intro k
  induction k with
  | zero => intro i s v h; omega
  | succ k ih =>
    intro i s v h
    simp only [indexLoop]
    rw [extract_state_indep E s (v.getD i E.dflt) E.dflt]
    cases hf : (extract E s E.dflt).1.fail with
    | true => exact indexLoop_fail_sticky (extract E) E.dflt hsticky _ _ _ _ hf
    | false =>
      apply ih
      simp only [countReadable, hf, Bool.false_eq_true, if_false] at h
      omega

/-! ## Empty forest (claim C6) -/

/-- Counterexample to C6 as stated: the empty Forest whose `F0` is a NaN is written as
`nan 0.1 0`, on which the reader has no defined result, and the empty Forest whose `F0`
is `0.1234567` is written as `0.123457 0.1 0` and read back with `F0 = 0.123457`; in
neither case is a Forest with that `F0` returned. -/
theorem empty_forest_counterexample :
    (¬ ∃ s', readForestFromStream decFloating decFloating decFloating zeroCut
        (encoded decFloating decFloating decFloating nanForest) = some (s', nanForest)) ∧
    (¬ ∃ s', readForestFromStream decFloating decFloating decFloating zeroCut
        (encoded decFloating decFloating decFloating longForest) = some (s', longForest)) := by
  constructor
  · rintro ⟨s', e⟩
    have h : readForestFromStream decFloating decFloating decFloating zeroCut
        (encoded decFloating decFloating decFloating nanForest) = none := by rfl
    rw [h] at e
    cases e
  · rintro ⟨s', e⟩
    have h : readForestFromStream decFloating decFloating decFloating zeroCut
        (encoded decFloating decFloating decFloating longForest) =
          some (⟨[endl], false⟩, ⟨.fin false 1 1, .fin false 123457 6, []⟩) := by rfl
    rw [h] at e
    have e2 := congrArg (fun o => o.map (fun p => p.2.F0)) e
    simp only [Option.map_some', longForest] at e2
    have e3 : Dec.fin false 123457 6 = Dec.fin false 1234567 7 := Option.some.inj e2
    exact absurd e3 (by decide)

/-- C6, amended: for every `F0` and `shrinkage` a Forest without trees is written as
exactly the three tokens `F0`, `shrinkage`, `0`; when the decoder accepts the texts of
`F0` and `shrinkage`, reading that stream succeeds and yields a Forest with an empty
tree sequence and the two scalars as read from their texts, which are that `F0` and
that `shrinkage` when the two are representable at the textual precision. -/
theorem empty_forest (D G W : Floating) (cut0 : Cut G) (F0 shrinkage : D.α) :
    tokens (operatorOut_Forest D G W ⟨[], []⟩ ⟨shrinkage, F0, []⟩).stream =
      [D.put F0, D.put shrinkage, ['0']] ∧
    (D.Readable F0 → D.Readable shrinkage →
      ∃ s', readForestFromStream D G W cut0 (encoded D G W ⟨shrinkage, F0, []⟩) =
          some (s', ⟨D.reread shrinkage, D.reread F0, []⟩) ∧ s'.fail = false) ∧
    (D.Representable F0 → D.Representable shrinkage →
      ∃ s', readForestFromStream D G W cut0 (encoded D G W ⟨shrinkage, F0, []⟩) =
          some (s', ⟨shrinkage, F0, []⟩) ∧ s'.fail = false) := by
  refine ⟨?_, ?_, ?_⟩
  · have h := (forest_tokens_core D G W ⟨shrinkage, F0, []⟩)
    simpa using h
  · intro h0 hs
    have hf : (⟨shrinkage, F0, []⟩ : Forest D G W).Readable :=
      ⟨h0, hs, by simp [UINT_MAX], by intro t ht; cases ht⟩
    obtain ⟨s', e, hfail, _⟩ := read_encoded cut0 _ hf
    exact ⟨s', by simpa [Forest.reread] using e, hfail⟩
  · intro h0 hs
    obtain ⟨s', e, hfail, _⟩ := roundtrip_core cut0 (⟨shrinkage, F0, []⟩ : Forest D G W)
      ⟨by simp [UINT_MAX], by intro t ht; cases ht⟩ ⟨h0, hs, by intro t ht; cases ht⟩
    exact ⟨s', e, hfail⟩

/-- Witness of C6: `F0 = 0.5`, `shrinkage = 0.1`. -/
theorem empty_forest_witness :
    (decFloating.Representable (.fin false 5 1) ∧ decFloating.Representable (.fin false 1 1)) ∧
    ∃ s', readForestFromStream decFloating decFloating decFloating zeroCut
        (encoded decFloating decFloating decFloating ⟨.fin false 1 1, .fin false 5 1, []⟩) =
          some (s', ⟨.fin false 1 1, .fin false 5 1, []⟩) ∧ s'.fail = false :=
  ⟨⟨dec_representable _ (by decide) (by decide), dec_representable _ (by decide) (by decide)⟩,
    (empty_forest decFloating decFloating decFloating zeroCut (.fin false 5 1) (.fin false 1 1)).2.2
      (dec_representable _ (by decide) (by decide)) (dec_representable _ (by decide) (by decide))⟩

/-! ## Re-encoding (claim C5) -/

theorem vectorLayout_congr {α : Type} (put : α → List Char) (g : α → α) (v : List α)
    (h : ∀ x ∈ v, put (g x) = put x) : vectorLayout put (v.map g) = vectorLayout put v := by
  have e : (v.map g).flatMap (fun x => ' ' :: put x) = v.flatMap (fun x => ' ' :: put x) := by
    induction v with
    | nil => rfl
    | cons x v ih =>
      simp only [List.map_cons, List.flatMap_cons]
      rw [h x (List.mem_cons_self x v), ih (fun y hy => h y (List.mem_cons_of_mem x hy))]
  simp [vectorLayout, e]

theorem treeLayout_reread {G W : Floating} (t : Tree G W) (h : t.Stable) :
    treeLayout G W t.reread = treeLayout G W t := by
  obtain ⟨hc, hb, hp⟩ := h
  have e : (t.cuts.map Cut.reread).flatMap (fun c => cutLayout G c ++ [endl]) =
      t.cuts.flatMap (fun c => cutLayout G c ++ [endl]) := by
    have : ∀ cs : List (Cut G), (∀ c ∈ cs, G.Stable c.gain) →
        (cs.map Cut.reread).flatMap (fun c => cutLayout G c ++ [endl]) =
          cs.flatMap (fun c => cutLayout G c ++ [endl]) := by
      intro cs
      induction cs with
      | nil => intro _; rfl
      | cons c cs ih =>
        intro hcs
        simp only [List.map_cons, List.flatMap_cons]
        rw [ih (fun y hy => hcs y (List.mem_cons_of_mem c hy))]
        have := (hcs c (List.mem_cons_self c cs)).2
        simp [cutLayout, Cut.reread, this]
    exact this t.cuts hc
  simp only [treeLayout, Tree.reread, List.length_map, e]
  rw [vectorLayout_congr W.put W.reread t.boostWeights (fun x hx => (hb x hx).2),
    vectorLayout_congr W.put W.reread t.purities (fun x hx => (hp x hx).2)]

theorem forestLayout_reread {D G W : Floating} (f : Forest D G W) (h : f.Stable) :
    forestLayout D G W f.reread = forestLayout D G W f := by
  obtain ⟨h0, hs, ht⟩ := h
  have e : ∀ ts : List (Tree G W), (∀ t ∈ ts, t.Stable) →
      (ts.map Tree.reread).flatMap (fun t => treeLayout G W t ++ [endl]) =
        ts.flatMap (fun t => treeLayout G W t ++ [endl]) := by
    intro ts
    induction ts with
    | nil => intro _; rfl
    | cons t ts ih =>
      intro hts
      simp only [List.map_cons, List.flatMap_cons]
      rw [ih (fun y hy => hts y (List.mem_cons_of_mem t hy)),
        treeLayout_reread t (hts t (List.mem_cons_self t ts))]
  simp only [forestLayout, Forest.reread, List.length_map, e f.forest ht, h0.2, hs.2]

theorem forest_readable_of_stable {D G W : Floating} (f : Forest D G W) (hr : f.InRange)
    (h : f.Stable) : f.Readable := by
  obtain ⟨h1, h2⟩ := hr
  obtain ⟨p0, ps, pt⟩ := h
  refine ⟨p0.1, ps.1, h1, fun t ht => ?_⟩
  obtain ⟨r1, r2, r3, r4⟩ := h2 t ht
  obtain ⟨q1, q2, q3⟩ := pt t ht
  exact ⟨r1, r2, r3, fun c hc => cut_readable c (r4 c hc) (q1 c hc).1,
    fun x hx => (q2 x hx).1, fun x hx => (q3 x hx).1⟩

/-- Counterexample to C5 as stated: the Forest whose one Tree has the single purity NaN
is written with the token `nan`; the reader cannot convert that token, stores zero,
sets the fail flag and returns a Forest whose purity is zero, and the encoding of that
Forest differs from the first encoding. -/
theorem reencode_counterexample :
    readForestFromStream decFloating decFloating decFloating zeroCut
        (encoded decFloating decFloating decFloating nanPurityForest) =
      some (⟨"nan\n\n\n".toList, true⟩,
        ⟨.fin false 1 1, .fin false 5 1, [⟨[], [.fin false 0 0], []⟩]⟩) ∧
    (operatorOut_Forest decFloating decFloating decFloating ⟨[], []⟩
        ⟨.fin false 1 1, .fin false 5 1, [⟨[], [.fin false 0 0], []⟩]⟩).stream ≠
      (operatorOut_Forest decFloating decFloating decFloating ⟨[], []⟩ nanPurityForest).stream := by
  constructor
  · rfl
  · decide

/-- C5, amended: for every Forest whose floating-point values have a stable text (the
decoder accepts the text written for the value and the value read back is written as
the same text, as for every finite value) and whose unsigned fields and element counts
are values of `unsigned int`, the reader returns a Forest from the encoding, and
writing that Forest produces the same stream as the first encoding. -/
theorem reencode_idempotent (D G W : Floating) (cut0 : Cut G) (f : Forest D G W)
    (hrange : f.InRange) (hstable : f.Stable) :
    ∃ s' f', readForestFromStream D G W cut0 (encoded D G W f) = some (s', f') ∧
      s'.fail = false ∧
      ∀ o, (operatorOut_Forest D G W o f').stream = (operatorOut_Forest D G W o f).stream := by
  obtain ⟨s', e, hfail, _⟩ := read_encoded cut0 f (forest_readable_of_stable f hrange hstable)
  refine ⟨s', f.reread, e, hfail, fun o => ?_⟩
  rw [operatorOut_Forest_eq, operatorOut_Forest_eq, forestLayout_reread f hstable]

theorem dec_stable (x : Dec) (h1 : scanFloat (Dec.put x) = (Dec.put x, []))
    (h2 : (Dec.conv (Dec.put x)).1 = true)
    (h3 : Dec.put (Dec.conv (Dec.put x)).2 = Dec.put x) : decFloating.Stable x :=
  ⟨⟨h1, h2⟩, h3⟩

theorem longExampleForest_inRange : longExampleForest.InRange := by
  simp [Forest.InRange, Tree.InRange, Cut.InRange, longExampleForest, exampleTree, exampleCut,
    UINT_MAX]

theorem longExampleForest_stable : longExampleForest.Stable := by
  simp only [Forest.Stable, Tree.Stable, longExampleForest, exampleTree, exampleCut,
    List.mem_singleton, forall_eq]
  exact ⟨dec_stable _ (by decide) (by decide) (by decide),
    dec_stable _ (by decide) (by decide) (by decide),
    dec_stable _ (by decide) (by decide) (by decide),
    dec_stable _ (by decide) (by decide) (by decide),
    dec_stable _ (by decide) (by decide) (by decide)⟩

/-- Witness of C5: the example Forest with `F0 = 0.1234567`, a value that is not
representable at the textual precision but has the stable text `0.123457`. -/
theorem reencode_idempotent_witness :
    (longExampleForest.InRange ∧ longExampleForest.Stable) ∧
    ∃ s' f', readForestFromStream decFloating decFloating decFloating zeroCut
        (encoded decFloating decFloating decFloating longExampleForest) = some (s', f') ∧
      s'.fail = false ∧
      ∀ o, (operatorOut_Forest decFloating decFloating decFloating o f').stream =
        (operatorOut_Forest decFloating decFloating decFloating o longExampleForest).stream :=
  ⟨⟨longExampleForest_inRange, longExampleForest_stable⟩,
    reencode_idempotent decFloating decFloating decFloating zeroCut longExampleForest
      longExampleForest_inRange longExampleForest_stable⟩

/-! ## Order of the trees (claim C4) -/

theorem forestLoop_blocks (D G W : Floating) (cut0 : Cut G) :
    ∀ (k : Nat) (s : IStream) (F : Forest D G W),
      (∀ i < k, (blockAt G W cut0 i s).isSome = true) →
      ∃ s' ts, forestLoop D G W cut0 k s F = some (s', ⟨F.shrinkage, F.F0, F.forest ++ ts⟩) ∧
        ts.length = k ∧
        ∀ i < k, ∃ si t, blockAt G W cut0 i s = some (si, t) ∧ ts[i]? = some t := by
  intro k
  induction k with
  | zero =>
    intro s F _
    exact ⟨s, [], by simp [forestLoop], rfl, fun i hi => absurd hi (Nat.not_lt_zero i)⟩
  | succ k ih =>
    intro s F h
    have h0 := h 0 (Nat.succ_pos k)
    simp only [blockAt] at h0
    cases hr : readTreeFromStream G W cut0 s with
    | none => rw [hr] at h0; cases h0
    | some p =>
      obtain ⟨s1, t⟩ := p
      have hk : ∀ i < k, (blockAt G W cut0 i s1).isSome = true := by
        intro i hi
        have := h (i + 1) (Nat.succ_lt_succ hi)
        simpa [blockAt, hr] using this
      obtain ⟨s', ts, e, hlen, hts⟩ := ih s1 (F.AddTree t) hk
      refine ⟨s', t :: ts, ?_, by simp [hlen], ?_⟩
      · simp only [forestLoop, hr, e]
        simp [Forest.AddTree, List.append_assoc]
      · intro i hi
        cases i with
        | zero => exact ⟨s1, t, by simp [blockAt, hr], by simp⟩
        | succ i =>
          obtain ⟨si, ti, e1, e2⟩ := hts i (Nat.lt_of_succ_lt_succ hi)
          exact ⟨si, ti, by simp [blockAt, hr, e1], by simpa using e2⟩

/-- C4: on every stream whose three header tokens are read as `F0`, `shrinkage` and
the count `n` and whose `n` Tree blocks can be decoded one after another, the Forest
reader returns a Forest with exactly `n` trees whose tree number `i` is the Tree decoded
from block number `i`, for every `i`; and the trees of a Forest that is written and read
back come out in the sequence in which they were in the Forest: tree number `i` of the
result is tree number `i` of the Forest as read from its text, which is that tree itself
when its values are representable at the textual precision. -/
theorem forest_order_preserved (D G W : Floating) (cut0 : Cut G) :
    (∀ (s s1 s2 s0 : IStream) (F0 shrinkage : D.α) (n : Nat),
      extractFresh (floatElem D) s = some (s1, F0) →
      extractFresh (floatElem D) s1 = some (s2, shrinkage) →
      extractFresh uintElem s2 = some (s0, n) →
      (∀ i < n, (blockAt G W cut0 i s0).isSome = true) →
      ∃ s' F, readForestFromStream D G W cut0 s = some (s', F) ∧ F.forest.length = n ∧
        ∀ i < n, ∃ si t, blockAt G W cut0 i s0 = some (si, t) ∧ F.forest[i]? = some t) ∧
    (∀ f : Forest D G W, f.Readable →
      ∃ s' F, readForestFromStream D G W cut0 (encoded D G W f) = some (s', F) ∧
        F.forest = f.forest.map Tree.reread) ∧
    (∀ f : Forest D G W, f.InRange → f.Representable →
      ∃ s' F, readForestFromStream D G W cut0 (encoded D G W f) = some (s', F) ∧
        F.forest = f.forest) := by
  refine ⟨?_, ?_, ?_⟩
  · intro s s1 s2 s0 F0 shrinkage n e1 e2 e3 hb
    obtain ⟨s', ts, e, hlen, hts⟩ := forestLoop_blocks D G W cut0 n s0
      (Forest.new shrinkage F0) hb
    refine ⟨s', ⟨shrinkage, F0, ts⟩, ?_, hlen, hts⟩
    simp only [readForestFromStream, e1, e2, e3]
    simpa [Forest.new] using e
  · intro f hf
    obtain ⟨s', e, _, _⟩ := read_encoded cut0 f hf
    exact ⟨s', f.reread, e, rfl⟩
  · intro f hr hp
    obtain ⟨s', e, _, _⟩ := roundtrip_core cut0 f hr hp
    exact ⟨s', f, e, rfl⟩

theorem threeForest_encoded :
    (encoded decFloating decFloating decFloating threeForest).rest =
      ("0.5\n0.1\n3\n" ++ "1\n1 1 1 1\n\n1 1\n\n1 0.1\n\n\n" ++ "0\n0\n\n2 0.2 0.22\n\n\n" ++
        "2\n3 3 0 3\n\n4 5 1 -3.5\n\n1 3\n\n1 0.3\n\n\n").toList := by
  decide

/-- Witness of C4: the encoding of the Forest with the trees 1, 2, 3; its header is
three tokens and each of its three Tree blocks can be decoded. -/
theorem forest_order_preserved_witness :
    (∀ i < 3, (blockAt decFloating decFloating zeroCut i
        ⟨(encoded decFloating decFloating decFloating threeForest).rest.drop 9, false⟩).isSome
          = true) ∧
    ∃ s' F, readForestFromStream decFloating decFloating decFloating zeroCut
        (encoded decFloating decFloating decFloating threeForest) = some (s', F) ∧
      F.forest.length = 3 ∧
      ∀ i < 3, ∃ si t, blockAt decFloating decFloating zeroCut i
          ⟨(encoded decFloating decFloating decFloating threeForest).rest.drop 9, false⟩ =
            some (si, t) ∧ F.forest[i]? = some t :=
  ⟨by decide,
    (forest_order_preserved decFloating decFloating decFloating zeroCut).1
      (encoded decFloating decFloating decFloating threeForest)
      ⟨(encoded decFloating decFloating decFloating threeForest).rest.drop 3, false⟩
      ⟨(encoded decFloating decFloating decFloating threeForest).rest.drop 7, false⟩
      ⟨(encoded decFloating decFloating decFloating threeForest).rest.drop 9, false⟩
      (.fin false 5 1) (.fin false 1 1) 3 (by rfl) (by rfl) (by rfl) (by decide)⟩

/-! ## The readers against all-or-nothing decoding -/

theorem istream_eta (s : IStream) (h : s.fail = false) : s = ⟨s.rest, false⟩ := by
  cases s
  simp_all

theorem extract_refines {α : Type} (E : Elem α) (cs : List Char) (cur : α) :
    ((extract E ⟨cs, false⟩ cur).1.fail = false ∧
      strictExtract E cs = some ((extract E ⟨cs, false⟩ cur).2, (extract E ⟨cs, false⟩ cur).1.rest)) ∨
    ((extract E ⟨cs, false⟩ cur).1.fail = true ∧ strictExtract E cs = none) := by
  unfold extract strictExtract
  simp only [Bool.false_eq_true, if_false]
  cases h : cs.dropWhile isspace with
  | nil => simp
  | cons c t =>
    simp only []
    cases hg : (E.get (c :: t)).1 <;> simp

theorem extract_sticky {α : Type} (E : Elem α) (s : IStream) (cur : α) (h : s.fail = true) :
    (extract E s cur).1.fail = true := by
  rw [extract_fail_sticky E s cur h]
  exact h

theorem extractFresh_dead {α : Type} (E : Elem α) (s : IStream) (h : s.fail = true) :
    extractFresh E s = none := by
  simp [extractFresh, h]

theorem extractFresh_refines {α : Type} (E : Elem α) (cs : List Char) :
    Refines (extractFresh E ⟨cs, false⟩) (strictExtract E cs) := by
  unfold extractFresh strictExtract Refines
  simp only [Bool.false_eq_true, if_false]
  cases h : cs.dropWhile isspace with
  | nil => simp
  | cons c t =>
    simp only []
    cases hg : (E.get (c :: t)).1 <;> simp

theorem indexLoop_refines {β : Type} (step : IStream → β → IStream × β) (d : β)
    (item : List Char → Option (β × List Char))
    (hagree : ∀ cs cur, ((step ⟨cs, false⟩ cur).1.fail = false ∧
        item cs = some ((step ⟨cs, false⟩ cur).2, (step ⟨cs, false⟩ cur).1.rest)) ∨
      ((step ⟨cs, false⟩ cur).1.fail = true ∧ item cs = none))
    (hsticky : ∀ s cur, s.fail = true → (step s cur).1.fail = true) :
    ∀ (k : Nat) (done stale : List β) (cs : List Char), stale.length = k →
      ((indexLoop step d k done.length ⟨cs, false⟩ (done ++ stale)).1.fail = false ∧
        ∃ xs, strictRepeat item k cs =
            some (xs, (indexLoop step d k done.length ⟨cs, false⟩ (done ++ stale)).1.rest) ∧
          (indexLoop step d k done.length ⟨cs, false⟩ (done ++ stale)).2 = done ++ xs) ∨
      ((indexLoop step d k done.length ⟨cs, false⟩ (done ++ stale)).1.fail = true ∧
        strictRepeat item k cs = none) := by
  intro k
  induction k with
  | zero =>
    intro done stale cs hlen
    have : stale = [] := List.length_eq_zero.1 hlen
    subst this
    left
    exact ⟨rfl, [], rfl, by simp [indexLoop]⟩
  | succ k ih =>
    intro done stale cs hlen
    cases stale with
    | nil => simp at hlen
    | cons y st =>
      have hget : (done ++ y :: st).getD done.length d = y := by
        rw [List.getD_append_right _ _ _ _ (Nat.le_refl _)]
        simp
      have hset : ∀ x, (done ++ y :: st).set done.length x = (done ++ [x]) ++ st := by
        intro x
        simp [List.set_append]
      simp only [indexLoop, hget, hset]
      rcases hagree cs y with ⟨hf, hi⟩ | ⟨hf, hi⟩
      · have heta := istream_eta _ hf
        have hih := ih (done ++ [(step ⟨cs, false⟩ y).2]) st (step ⟨cs, false⟩ y).1.rest
          (by simpa using hlen)
        rw [← heta] at hih
        simp only [List.length_append, List.length_singleton] at hih
        rcases hih with ⟨h1, xs, h2, h3⟩ | ⟨h1, h2⟩
        · left
          refine ⟨h1, (step ⟨cs, false⟩ y).2 :: xs, ?_, ?_⟩
          · simp only [strictRepeat, hi, h2]
          · simpa [List.append_assoc] using h3
        · right
          exact ⟨h1, by simp only [strictRepeat, hi, h2]⟩
      · right
        refine ⟨indexLoop_fail_sticky step d hsticky _ _ _ _ hf, ?_⟩
        simp only [strictRepeat, hi]

theorem operatorIn_vector_dead {α : Type} (E : Elem α) (s : IStream) (d : List α)
    (h : s.fail = true) : operatorIn_vector E s d = none := by
  simp [operatorIn_vector, extractFresh_dead uintElem s h]

theorem operatorIn_vector_refines {α : Type} (E : Elem α) (cs : List Char) (d : List α) :
    Refines (operatorIn_vector E ⟨cs, false⟩ d) (strictVector E cs) := by
  have h0 := extractFresh_refines uintElem cs
  unfold operatorIn_vector strictVector
  cases he : extractFresh uintElem ⟨cs, false⟩ with
  | none =>
    rw [he] at h0
    simp only [Refines] at h0 ⊢
    simp [h0]
  | some p =>
    obtain ⟨s1, n⟩ := p
    rw [he] at h0
    simp only [Refines] at h0 ⊢
    have hsz : (resize E.dflt d n).length = n := by
      simp only [resize, List.length_append, List.length_take, List.length_replicate]
      omega
    rcases h0 with ⟨hf, hs⟩ | ⟨hf, hs⟩
    · have heta := istream_eta s1 hf
      have hl := indexLoop_refines (extract E) E.dflt (strictExtract E) (extract_refines E)
        (extract_sticky E) n [] (resize E.dflt d n) s1.rest hsz
      rw [← heta] at hl
      simp only [List.length_nil, List.nil_append] at hl
      rcases hl with ⟨h1, xs, h2, h3⟩ | ⟨h1, h2⟩
      · left
        exact ⟨h1, by simp only [hs, h2, h3]⟩
      · right
        exact ⟨h1, by simp only [hs, h2]⟩
    · right
      exact ⟨indexLoop_fail_sticky (extract E) E.dflt (extract_sticky E) _ _ _ _ hf,
        by simp only [hs]⟩

theorem operatorIn_Cut_sticky (G : Floating) (s : IStream) (cur : Cut G) (h : s.fail = true) :
    (operatorIn_Cut G s cur).1.fail = true := by
  unfold operatorIn_Cut
  simp only []
  exact extract_sticky _ _ _ (extract_sticky _ _ _ (extract_sticky _ _ _ (extract_sticky _ _ _ h)))

theorem operatorIn_Cut_refines (G : Floating) (cs : List Char) (cur : Cut G) :
    ((operatorIn_Cut G ⟨cs, false⟩ cur).1.fail = false ∧
      strictCut G cs = some ((operatorIn_Cut G ⟨cs, false⟩ cur).2,
        (operatorIn_Cut G ⟨cs, false⟩ cur).1.rest)) ∨
    ((operatorIn_Cut G ⟨cs, false⟩ cur).1.fail = true ∧ strictCut G cs = none) := by
  unfold operatorIn_Cut strictCut
  simp only []
  rcases extract_refines uintElem cs cur.feature with ⟨f1, e1⟩ | ⟨f1, e1⟩
  · have a1 := istream_eta _ f1
    rw [e1]
    simp only []
    rw [a1]
    rcases extract_refines uintElem _ cur.index with ⟨f2, e2⟩ | ⟨f2, e2⟩
    · have a2 := istream_eta _ f2
      rw [e2]
      simp only []
      rw [a2]
      rcases extract_refines boolElem _ cur.valid with ⟨f3, e3⟩ | ⟨f3, e3⟩
      · have a3 := istream_eta _ f3
        rw [e3]
        simp only []
        rw [a3]
        rcases extract_refines (floatElem G) _ cur.gain with ⟨f4, e4⟩ | ⟨f4, e4⟩
        · left
          rw [e4]
          exact ⟨f4, rfl⟩
        · right
          rw [e4]
          exact ⟨f4, rfl⟩
      · right
        rw [e3]
        exact ⟨extract_sticky _ _ _ f3, rfl⟩
    · right
      rw [e2]
      exact ⟨extract_sticky _ _ _ (extract_sticky _ _ _ f2), rfl⟩
  · right
    rw [e1]
    exact ⟨extract_sticky _ _ _ (extract_sticky _ _ _ (extract_sticky _ _ _ f1)), rfl⟩

theorem readTreeFromStream_dead (G W : Floating) (cut0 : Cut G) (s : IStream)
    (h : s.fail = true) : readTreeFromStream G W cut0 s = none := by
  simp [readTreeFromStream, extractFresh_dead uintElem s h]

theorem readTreeFromStream_refines (G W : Floating) (cut0 : Cut G) (cs : List Char) :
    Refines (readTreeFromStream G W cut0 ⟨cs, false⟩) (strictTree G W cs) := by
  have h0 := extractFresh_refines uintElem cs
  unfold readTreeFromStream strictTree
  cases he : extractFresh uintElem ⟨cs, false⟩ with
  | none =>
    rw [he] at h0
    simp only [Refines] at h0 ⊢
    simp [h0]
  | some p =>
    obtain ⟨s1, n⟩ := p
    rw [he] at h0
    simp only [Refines] at h0
    simp only []
    rcases h0 with ⟨hf, hs⟩ | ⟨hf, hs⟩
    · have heta := istream_eta s1 hf
      have hl := indexLoop_refines (operatorIn_Cut G) cut0 (strictCut G)
        (operatorIn_Cut_refines G) (operatorIn_Cut_sticky G) n [] (List.replicate n cut0)
        s1.rest (by simp)
      rw [← heta] at hl
      simp only [List.length_nil, List.nil_append] at hl
      rw [hs]
      simp only []
      rcases hl with ⟨h1, xs, h2, h3⟩ | ⟨h1, h2⟩
      · have heta2 := istream_eta _ h1
        rw [h2]
        simp only []
        have hb := operatorIn_vector_refines (floatElem W)
          (indexLoop (operatorIn_Cut G) cut0 n 0 s1 (List.replicate n cut0)).1.rest []
        rw [← heta2] at hb
        cases hbw : operatorIn_vector (floatElem W)
            (indexLoop (operatorIn_Cut G) cut0 n 0 s1 (List.replicate n cut0)).1 [] with
        | none =>
          rw [hbw] at hb
          simp only [Refines] at hb ⊢
          simp [hb]
        | some q =>
          obtain ⟨s2, bw⟩ := q
          rw [hbw] at hb
          simp only [Refines] at hb
          simp only []
          rcases hb with ⟨g1, g2⟩ | ⟨g1, g2⟩
          · have heta3 := istream_eta s2 g1
            rw [g2]
            simp only []
            have hp := operatorIn_vector_refines (floatElem W) s2.rest []
            rw [← heta3] at hp
            cases hpw : operatorIn_vector (floatElem W) s2 [] with
            | none =>
              rw [hpw] at hp
              simp only [Refines] at hp ⊢
              simp [hp]
            | some q2 =>
              obtain ⟨s3, pur⟩ := q2
              rw [hpw] at hp
              simp only [Refines] at hp ⊢
              rcases hp with ⟨k1, k2⟩ | ⟨k1, k2⟩
              · left
                exact ⟨k1, by simp only [k2, h3]⟩
              · right
                exact ⟨k1, by simp only [k2]⟩
          · rw [operatorIn_vector_dead (floatElem W) s2 [] g1, g2]
            simp [Refines]
      · rw [operatorIn_vector_dead (floatElem W) _ [] h1, h2]
        simp [Refines]
    · have h1 := indexLoop_fail_sticky (operatorIn_Cut G) cut0 (operatorIn_Cut_sticky G)
        n 0 s1 (List.replicate n cut0) hf
      rw [operatorIn_vector_dead (floatElem W) _ [] h1, hs]
      simp [Refines]

theorem forestLoop_fail (D G W : Floating) (cut0 : Cut G) :
    ∀ (k : Nat) (s : IStream) (F : Forest D G W), s.fail = true →
      forestLoop D G W cut0 k s F = none ∨ forestLoop D G W cut0 k s F = some (s, F) := by
  intro k s F h
  cases k with
  | zero => right; rfl
  | succ k =>
    left
    simp [forestLoop, readTreeFromStream_dead G W cut0 s h]

theorem forestLoop_refines (D G W : Floating) (cut0 : Cut G) :
    ∀ (k : Nat) (cs : List Char) (F : Forest D G W),
      match forestLoop D G W cut0 k ⟨cs, false⟩ F with
      | none => strictRepeat (strictTree G W) k cs = none
      | some (s', F') =>
        (s'.fail = false ∧ ∃ ts, strictRepeat (strictTree G W) k cs = some (ts, s'.rest) ∧
          F' = ⟨F.shrinkage, F.F0, F.forest ++ ts⟩) ∨
        (s'.fail = true ∧ strictRepeat (strictTree G W) k cs = none) := by
  intro k
  induction k with
  | zero =>
    intro cs F
    simp [forestLoop, strictRepeat]
  | succ k ih =>
    intro cs F
    have ht := readTreeFromStream_refines G W cut0 cs
    simp only [forestLoop, strictRepeat]
    cases hr : readTreeFromStream G W cut0 ⟨cs, false⟩ with
    | none =>
      rw [hr] at ht
      simp only [Refines] at ht
      simp [ht]
    | some p =>
      obtain ⟨s1, t⟩ := p
      rw [hr] at ht
      simp only [Refines] at ht
      simp only []
      rcases ht with ⟨hf, hs⟩ | ⟨hf, hs⟩
      · have heta := istream_eta s1 hf
        have h2 := ih s1.rest (F.AddTree t)
        rw [← heta] at h2
        rw [hs]
        simp only []
        cases hl : forestLoop D G W cut0 k s1 (F.AddTree t) with
        | none =>
          rw [hl] at h2
          simp only [] at h2 ⊢
          simp [h2]
        | some q =>
          obtain ⟨s', F'⟩ := q
          rw [hl] at h2
          simp only [] at h2 ⊢
          rcases h2 with ⟨g1, ts, g2, g3⟩ | ⟨g1, g2⟩
          · left
            refine ⟨g1, t :: ts, by simp only [g2], ?_⟩
            rw [g3]
            simp [Forest.AddTree, List.append_assoc]
          · right
            exact ⟨g1, by simp only [g2]⟩
      · rw [hs]
        rcases forestLoop_fail D G W cut0 k s1 (F.AddTree t) hf with e | e
        · rw [e]
        · rw [e]
          right
          exact ⟨hf, rfl⟩

theorem readForestFromStream_refines (D G W : Floating) (cut0 : Cut G) (cs : List Char) :
    Refines (readForestFromStream D G W cut0 ⟨cs, false⟩) (strictForest D G W cs) := by
  have h0 := extractFresh_refines (floatElem D) cs
  unfold readForestFromStream strictForest
  cases he : extractFresh (floatElem D) ⟨cs, false⟩ with
  | none =>
    rw [he] at h0
    simp only [Refines] at h0 ⊢
    simp [h0]
  | some p =>
    obtain ⟨s1, F0⟩ := p
    rw [he] at h0
    simp only [Refines] at h0
    simp only []
    rcases h0 with ⟨hf, hs⟩ | ⟨hf, hs⟩
    · have heta := istream_eta s1 hf
      have h1 := extractFresh_refines (floatElem D) s1.rest
      rw [← heta] at h1
      rw [hs]
      simp only []
      cases he1 : extractFresh (floatElem D) s1 with
      | none =>
        rw [he1] at h1
        simp only [Refines] at h1 ⊢
        simp [h1]
      | some p1 =>
        obtain ⟨s2, shrinkage⟩ := p1
        rw [he1] at h1
        simp only [Refines] at h1
        simp only []
        rcases h1 with ⟨hf1, hs1⟩ | ⟨hf1, hs1⟩
        · have heta1 := istream_eta s2 hf1
          have h2 := extractFresh_refines uintElem s2.rest
          rw [← heta1] at h2
          rw [hs1]
          simp only []
          cases he2 : extractFresh uintElem s2 with
          | none =>
            rw [he2] at h2
            simp only [Refines] at h2 ⊢
            simp [h2]
          | some p2 =>
            obtain ⟨s3, n⟩ := p2
            rw [he2] at h2
            simp only [Refines] at h2
            simp only []
            rcases h2 with ⟨hf2, hs2⟩ | ⟨hf2, hs2⟩
            · have heta2 := istream_eta s3 hf2
              have h3 := forestLoop_refines D G W cut0 n s3.rest (Forest.new shrinkage F0)
              rw [← heta2] at h3
              rw [hs2]
              simp only []
              cases hl : forestLoop D G W cut0 n s3 (Forest.new shrinkage F0) with
              | none =>
                rw [hl] at h3
                simp only [] at h3
                simp [Refines, h3]
              | some q =>
                obtain ⟨s', F'⟩ := q
                rw [hl] at h3
                simp only [] at h3
                simp only [Refines]
                rcases h3 with ⟨g1, ts, g2, g3⟩ | ⟨g1, g2⟩
                · left
                  refine ⟨g1, ?_⟩
                  rw [g2, g3]
                  simp [Forest.new]
                · right
                  exact ⟨g1, by simp only [g2]⟩
            · rw [hs2]
              rcases forestLoop_fail D G W cut0 n s3 (Forest.new shrinkage F0) hf2 with e | e
              · rw [e]
                simp [Refines]
              · rw [e]
                simp [Refines, hf2]
        · rw [extractFresh_dead uintElem s2 hf1, hs1]
          simp [Refines]
    · rw [extractFresh_dead (floatElem D) s1 hf, hs]
      simp [Refines]


/-! ## Decoding well-formed streams (claims C11, C12) -/

theorem refines_some {β : Type} {res : Option (IStream × β)} {v : β} {r : List Char}
    (h : Refines res (some (v, r))) : res = some (⟨r, false⟩, v) := by
  cases res with
  | none => simp [Refines] at h
  | some p =>
    obtain ⟨s', v'⟩ := p
    simp only [Refines] at h
    rcases h with ⟨h1, h2⟩ | ⟨_, h2⟩
    · have e := Option.some.inj h2
      have e1 : v = v' := congrArg Prod.fst e
      have e2 : r = s'.rest := congrArg Prod.snd e
      rw [istream_eta s' h1, e1, e2]
    · cases h2

theorem extractFresh_of_strict {α : Type} (E : Elem α) (cs r : List Char) (x : α)
    (h : strictExtract E cs = some (x, r)) : extractFresh E ⟨cs, false⟩ = some (⟨r, false⟩, x) := by
  have h0 := extractFresh_refines E cs
  rw [h] at h0
  exact refines_some h0

theorem strictRepeat_length {β : Type} (item : List Char → Option (β × List Char)) :
    ∀ (k : Nat) (cs : List Char) (xs : List β) (r : List Char),
      strictRepeat item k cs = some (xs, r) → xs.length = k := by
  intro k
  induction k with
  | zero =>
    intro cs xs r h
    simp only [strictRepeat, Option.some.injEq, Prod.mk.injEq] at h
    rw [← h.1]
    rfl
  | succ k ih =>
    intro cs xs r h
    simp only [strictRepeat] at h
    cases hi : item cs with
    | none => rw [hi] at h; cases h
    | some p =>
      obtain ⟨x, r1⟩ := p
      rw [hi] at h
      simp only [] at h
      cases hk : strictRepeat item k r1 with
      | none => rw [hk] at h; cases h
      | some q =>
        obtain ⟨ys, r2⟩ := q
        rw [hk] at h
        simp only [Option.some.injEq, Prod.mk.injEq] at h
        rw [← h.1, List.length_cons, ih r1 ys r2 hk]

/-- C11: on every stream that holds a count `n`, then `n` Cuts (four fields each), then
a count-prefixed float sequence and a second count-prefixed float sequence, the Tree
reader returns the Tree whose cuts are those `n` Cuts in order, whose boost weights are
the first sequence and whose purities are the second one, and leaves the stream good
at the character after the last value. Nothing relates the three lengths. -/
theorem tree_decode (G W : Floating) (cut0 : Cut G) (cs r0 r1 r2 r3 : List Char) (n : Nat)
    (cuts : List (Cut G)) (bw pur : List W.α)
    (hn : strictExtract uintElem cs = some (n, r0))
    (hcuts : strictRepeat (strictCut G) n r0 = some (cuts, r1))
    (hbw : strictVector (floatElem W) r1 = some (bw, r2))
    (hpur : strictVector (floatElem W) r2 = some (pur, r3)) :
    ∃ t, readTreeFromStream G W cut0 ⟨cs, false⟩ = some (⟨r3, false⟩, t) ∧
      t.GetCuts = cuts ∧ cuts.length = n ∧ t.GetBoostWeights = bw ∧ t.GetPurities = pur := by
  have hs : strictTree G W cs = some (⟨cuts, pur, bw⟩, r3) := by
    simp only [strictTree, hn, hcuts, hbw, hpur]
  have h := readTreeFromStream_refines G W cut0 cs
  rw [hs] at h
  exact ⟨⟨cuts, pur, bw⟩, refines_some h, rfl, strictRepeat_length _ _ _ _ _ hcuts, rfl, rfl⟩

/-- Witness of C11: one Cut, two boost weights and no purity. -/
theorem tree_decode_witness :
    (strictExtract uintElem "1 2 7 1 1.25 2 0.3 0.4 0 9".toList =
        some (1, " 2 7 1 1.25 2 0.3 0.4 0 9".toList) ∧
      strictRepeat (strictCut decFloating) 1 " 2 7 1 1.25 2 0.3 0.4 0 9".toList =
        some ([exampleCut], " 2 0.3 0.4 0 9".toList) ∧
      strictVector (floatElem decFloating) " 2 0.3 0.4 0 9".toList =
        some ([Dec.fin false 3 1, Dec.fin false 4 1], " 0 9".toList) ∧
      strictVector (floatElem decFloating) " 0 9".toList = some ([], " 9".toList)) ∧
    ∃ t, readTreeFromStream decFloating decFloating zeroCut
        ⟨"1 2 7 1 1.25 2 0.3 0.4 0 9".toList, false⟩ = some (⟨" 9".toList, false⟩, t) ∧
      t.GetCuts = [exampleCut] ∧ [exampleCut].length = 1 ∧
      t.GetBoostWeights = [Dec.fin false 3 1, Dec.fin false 4 1] ∧ t.GetPurities = [] :=
  ⟨⟨by rfl, by rfl, by rfl, by rfl⟩,
    tree_decode decFloating decFloating zeroCut "1 2 7 1 1.25 2 0.3 0.4 0 9".toList
      " 2 7 1 1.25 2 0.3 0.4 0 9".toList " 2 0.3 0.4 0 9".toList " 0 9".toList " 9".toList 1
      [exampleCut] [Dec.fin false 3 1, Dec.fin false 4 1] [] (by rfl) (by rfl) (by rfl) (by rfl)⟩

/-- C12: on every stream whose first three tokens are read as the floating-point
values `a` and `b` and the count `n`, and whose `n` Tree blocks decode, the Forest
reader builds the Forest `(shrinkage, F0) = (b, a)` without trees, then reads the trees
into it: it returns a Forest whose `F0` is `a`, whose shrinkage is `b` and which holds
exactly `n` trees, the decoded ones in order. -/
theorem forest_decode_scalars (D G W : Floating) (cut0 : Cut G) (cs r1 r2 r3 r4 : List Char)
    (a b : D.α) (n : Nat) (trees : List (Tree G W))
    (ha : strictExtract (floatElem D) cs = some (a, r1))
    (hb : strictExtract (floatElem D) r1 = some (b, r2))
    (hn : strictExtract uintElem r2 = some (n, r3))
    (htrees : strictRepeat (strictTree G W) n r3 = some (trees, r4)) :
    readForestFromStream D G W cut0 ⟨cs, false⟩ =
      forestLoop D G W cut0 n ⟨r3, false⟩ (Forest.new b a) ∧
    ∃ F, readForestFromStream D G W cut0 ⟨cs, false⟩ = some (⟨r4, false⟩, F) ∧
      F.GetF0 = a ∧ F.GetShrinkage = b ∧ F.GetForest.length = n ∧ F.GetForest = trees := by
  constructor
  · simp only [readForestFromStream, extractFresh_of_strict _ _ _ _ ha,
      extractFresh_of_strict _ _ _ _ hb, extractFresh_of_strict _ _ _ _ hn]
  · have hs : strictForest D G W cs = some (⟨b, a, trees⟩, r4) := by
      simp only [strictForest, ha, hb, hn, htrees]
    have h := readForestFromStream_refines D G W cut0 cs
    rw [hs] at h
    exact ⟨⟨b, a, trees⟩, refines_some h, rfl, rfl, strictRepeat_length _ _ _ _ _ htrees, rfl⟩

/-- Witness of C12: the stream `0.5 0.1 2` followed by two Tree blocks. -/
theorem forest_decode_scalars_witness :
    (strictExtract (floatElem decFloating) "0.5 0.1 2 0 0 0 0 0 1 3".toList =
        some (Dec.fin false 5 1, " 0.1 2 0 0 0 0 0 1 3".toList) ∧
      strictExtract (floatElem decFloating) " 0.1 2 0 0 0 0 0 1 3".toList =
        some (Dec.fin false 1 1, " 2 0 0 0 0 0 1 3".toList) ∧
      strictExtract uintElem " 2 0 0 0 0 0 1 3".toList = some (2, " 0 0 0 0 0 1 3".toList) ∧
      strictRepeat (strictTree decFloating decFloating) 2 " 0 0 0 0 0 1 3".toList =
        some ([⟨[], [], []⟩, ⟨[], [Dec.fin false 3 0], []⟩], [])) ∧
    ∃ F, readForestFromStream decFloating decFloating decFloating zeroCut
        ⟨"0.5 0.1 2 0 0 0 0 0 1 3".toList, false⟩ = some (⟨[], false⟩, F) ∧
      F.GetF0 = Dec.fin false 5 1 ∧ F.GetShrinkage = Dec.fin false 1 1 ∧
      F.GetForest.length = 2 ∧ F.GetForest = [⟨[], [], []⟩, ⟨[], [Dec.fin false 3 0], []⟩] :=
  ⟨⟨by rfl, by rfl, by rfl, by rfl⟩,
    (forest_decode_scalars decFloating decFloating decFloating zeroCut
      "0.5 0.1 2 0 0 0 0 0 1 3".toList " 0.1 2 0 0 0 0 0 1 3".toList
      " 2 0 0 0 0 0 1 3".toList " 0 0 0 0 0 1 3".toList [] (Dec.fin false 5 1)
      (Dec.fin false 1 1) 2 [⟨[], [], []⟩, ⟨[], [Dec.fin false 3 0], []⟩]
      (by rfl) (by rfl) (by rfl) (by rfl)).2⟩

theorem strictCut_iff (G : Floating) (cs r : List Char) (c : Cut G) :
    strictCut G cs = some (c, r) ↔
      ∃ r1 r2 r3, strictExtract uintElem cs = some (c.feature, r1) ∧
        strictExtract uintElem r1 = some (c.index, r2) ∧
        strictExtract boolElem r2 = some (c.valid, r3) ∧
        strictExtract (floatElem G) r3 = some (c.gain, r) := by
  constructor
  · intro h
    unfold strictCut at h
    cases h1 : strictExtract uintElem cs with
    | none => rw [h1] at h; cases h
    | some p1 =>
      obtain ⟨f, r1⟩ := p1
      rw [h1] at h
      simp only [] at h
      cases h2 : strictExtract uintElem r1 with
      | none => rw [h2] at h; cases h
      | some p2 =>
        obtain ⟨i, r2⟩ := p2
        rw [h2] at h
        simp only [] at h
        cases h3 : strictExtract boolElem r2 with
        | none => rw [h3] at h; cases h
        | some p3 =>
          obtain ⟨v, r3⟩ := p3
          rw [h3] at h
          simp only [] at h
          cases h4 : strictExtract (floatElem G) r3 with
          | none => rw [h4] at h; cases h
          | some p4 =>
            obtain ⟨g, r4⟩ := p4
            rw [h4] at h
            simp only [Option.some.injEq, Prod.mk.injEq] at h
            obtain ⟨hc, hr⟩ := h
            subst hc
            subst hr
            exact ⟨r1, r2, r3, rfl, h2, h3, h4⟩
  · rintro ⟨r1, r2, r3, h1, h2, h3, h4⟩
    simp only [strictCut, h1, h2, h3, h4]

/-! ## Layout of a Cut and of a sequence (claims C13, C15) -/

/-- C13: the Cut writer appends `feature`, a space, `index`, a space, `valid`, a space,
`gain` and one line break, and writes nothing to `std::cerr`; `valid` is written as
the token `1` for true and `0` for false; the line holds no other line break and its
tokens are exactly these four. -/
theorem cut_wire_layout (G : Floating) (o : OStreams) (c : Cut G) :
    operatorOut_Cut G o c =
      ⟨o.stream ++ (putNat c.feature ++ [' '] ++ putNat c.index ++ [' '] ++
        (if c.valid then ['1'] else ['0']) ++ [' '] ++ G.put c.gain ++ [endl]), o.cerr⟩ ∧
    endl ∉ putNat c.feature ++ [' '] ++ putNat c.index ++ [' '] ++
        (if c.valid then ['1'] else ['0']) ++ [' '] ++ G.put c.gain ∧
    tokens (operatorOut_Cut G ⟨[], []⟩ c).stream =
      [putNat c.feature, putNat c.index, if c.valid then ['1'] else ['0'], G.put c.gain] := by
  refine ⟨?_, ?_, ?_⟩
  · rw [operatorOut_Cut_eq]
    simp [cutLayout, putBool, List.append_assoc]
  · obtain ⟨line, e, hl⟩ := cutLine_no_endl G c
    have e' : line = putNat c.feature ++ [' '] ++ putNat c.index ++ [' '] ++
        (if c.valid then ['1'] else ['0']) ++ [' '] ++ G.put c.gain := by
      have : line ++ [endl] = (putNat c.feature ++ [' '] ++ putNat c.index ++ [' '] ++
          (if c.valid then ['1'] else ['0']) ++ [' '] ++ G.put c.gain) ++ [endl] := by
        rw [← e]
        simp [cutLayout, putBool, List.append_assoc]
      exact List.append_cancel_right this
    rw [← e']
    exact hl
  · rw [operatorOut_Cut_eq]
    have h := tokens_cutLayout G c []
    simpa [tokens_nil, cutTokens, putBool] using h

/-- Witness of C13: the Cut `feature = 2, index = 7, valid = true, gain = 1.25` is
written as the line `2 7 1 1.25`. -/
theorem cut_wire_layout_witness :
    operatorOut_Cut decFloating ⟨[], []⟩ exampleCut = ⟨"2 7 1 1.25\n".toList, []⟩ := by
  rw [(cut_wire_layout decFloating ⟨[], []⟩ exampleCut).1]
  rfl

/-- C15: the generic sequence writer appends the element count, then for every element
in order one space and the textual form of the element, then one line break, and
writes nothing to `std::cerr`. When the textual forms of the element type are tokens,
as those of the primitive types are, the text is one line of exactly `|v| + 1` tokens,
the count and the elements. The empty sequence is written as `0` and a line break. -/
theorem vector_wire_layout {α : Type} (E : Elem α) (o : OStreams) (v : List α)
    (htok : E.TokenText) :
    operatorOut_vector E o v =
      ⟨o.stream ++ (putNat v.length ++ v.flatMap (fun x => ' ' :: E.put x) ++ [endl]), o.cerr⟩ ∧
    endl ∉ putNat v.length ++ v.flatMap (fun x => ' ' :: E.put x) ∧
    tokens (operatorOut_vector E ⟨[], []⟩ v).stream = putNat v.length :: v.map E.put ∧
    (tokens (operatorOut_vector E ⟨[], []⟩ v).stream).length = v.length + 1 ∧
    operatorOut_vector E o [] = ⟨o.stream ++ ['0', endl], o.cerr⟩ := by
  refine ⟨?_, ?_, ?_, ?_, ?_⟩
  · rw [operatorOut_vector_eq]
    simp [vectorLayout, List.append_assoc]
  · intro h
    rcases List.mem_append.1 h with h | h
    · have := putNat_nospace _ _ h
      rw [isspace_endl] at this
      cases this
    · rw [List.mem_flatMap] at h
      obtain ⟨x, _, hx⟩ := h
      rcases List.mem_cons.1 hx with hx | hx
      · exact absurd hx (by decide)
      · have := (htok x).2 _ hx
        rw [isspace_endl] at this
        cases this
  · rw [operatorOut_vector_eq]
    have h := tokens_vectorLayout E.put (fun x => (htok x).1) (fun x => (htok x).2) v []
    simpa [tokens_nil, vectorTokens] using h
  · rw [operatorOut_vector_eq]
    have h := tokens_vectorLayout E.put (fun x => (htok x).1) (fun x => (htok x).2) v []
    simp only [List.nil_append, List.append_nil, tokens_nil] at h ⊢
    rw [h]
    simp [vectorTokens]
  · rw [operatorOut_vector_eq]
    simp [vectorLayout]
    decide

theorem uintElem_tokenText : uintElem.TokenText :=
  fun n => ⟨putNat_ne_nil n, putNat_nospace n⟩

/-- Witness of C15: the sequence `[10, 2, 3]` of unsigned integers is written as the
line `3 10 2 3`. -/
theorem vector_wire_layout_witness :
    uintElem.TokenText ∧
    operatorOut_vector uintElem ⟨[], []⟩ [10, 2, 3] = ⟨"3 10 2 3\n".toList, []⟩ := by
  refine ⟨uintElem_tokenText, ?_⟩
  rw [(vector_wire_layout uintElem ⟨[], []⟩ [10, 2, 3] uintElem_tokenText).1]
  rfl

/-! ## The destination of the sequence readers (claim C19) -/

theorem operatorIn_vector_of_strict {α : Type} (E : Elem α) (cs r : List Char) (xs : List α)
    (h : strictVector E cs = some (xs, r)) (d : List α) :
    operatorIn_vector E ⟨cs, false⟩ d = some (⟨r, false⟩, xs) := by
  have h0 := operatorIn_vector_refines E cs d
  rw [h] at h0
  exact refines_some h0

theorem indexLoop_prefix {α : Type} (E : Elem α) :
    ∀ (m : Nat) (done stale : List α) (s : IStream), stale.length = m →
      ∃ xs tail r,
        (indexLoop (extract E) E.dflt m done.length s (done ++ stale)).2 = done ++ xs ++ tail ∧
        xs.length = countReadable E m s ∧ xs.length + tail.length = m ∧
        strictRepeat (strictExtract E) (countReadable E m s) s.rest = some (xs, r) := by
  intro m
  induction m with
  | zero =>
    intro done stale s hlen
    have : stale = [] := List.length_eq_zero.1 hlen
    subst this
    exact ⟨[], [], s.rest, by simp [indexLoop], rfl, rfl, rfl⟩
  | succ m ih =>
    intro done stale s hlen
    cases stale with
    | nil => simp at hlen
    | cons y st =>
      have hget : (done ++ y :: st).getD done.length E.dflt = y := by
        rw [List.getD_append_right _ _ _ _ (Nat.le_refl _)]
        simp
      have hset : ∀ x, (done ++ y :: st).set done.length x = (done ++ [x]) ++ st := by
        intro x
        simp [List.set_append]
      have hst : st.length = m := by simpa using hlen
      obtain ⟨xs', tail', r', e1, e2, e3, e4⟩ := ih (done ++ [(extract E s y).2]) st
        (extract E s y).1 hst
      simp only [List.length_append, List.length_singleton] at e1
      have hind := extract_state_indep E s y E.dflt
      simp only [indexLoop, hget, hset, countReadable]
      cases hf : (extract E s E.dflt).1.fail with
      | true =>
        refine ⟨[], (extract E s y).2 :: (xs' ++ tail'), s.rest, ?_, rfl, ?_, rfl⟩
        · rw [e1]
          simp [List.append_assoc]
        · simp only [List.length_nil, List.length_cons, List.length_append]
          omega
      | false =>
        have hfy : (extract E s y).1.fail = false := by rw [hind]; exact hf
        have hs : s.fail = false := by
          cases hsf : s.fail with
          | false => rfl
          | true =>
            have := extract_sticky E s y hsf
            rw [hfy] at this
            cases this
        have hstrict : strictExtract E s.rest = some ((extract E s y).2, (extract E s y).1.rest) := by
          have hr := extract_refines E s.rest y
          rw [← istream_eta s hs] at hr
          rcases hr with ⟨_, h2⟩ | ⟨h1, _⟩
          · exact h2
          · rw [hfy] at h1
            cases h1
        rw [← hind]
        refine ⟨(extract E s y).2 :: xs', tail', r', ?_, ?_, ?_, ?_⟩
        · rw [e1]
          simp [List.append_assoc]
        · simp only [Bool.false_eq_true, if_false, List.length_cons, e2]
        · simp only [List.length_cons]
          omega
        · simp only [Bool.false_eq_true, if_false, strictRepeat, hstrict, e4]

/-! ## FeatureBinning (claims C16, C17, C19) -/

theorem operatorOut_FeatureBinning_eq {α : Type} (B : FeatureBinningClass α)
    (writeBinning : OStreams → List α → OStreams) (put : α → List Char)
    (hw : ∀ o v, (writeBinning o v).stream = o.stream ++ vectorLayout put v)
    (o : OStreams) (fb : B.carrier) :
    (operatorOut_FeatureBinning B writeBinning o fb).stream =
      o.stream ++ binningLayout B put fb := by
  simp [operatorOut_FeatureBinning, OStreams.write, hw, binningLayout, List.append_assoc]

theorem foldl_stream {β : Type} (w : OStreams → β → OStreams) (txt : β → List Char)
    (hw : ∀ o x, (w o x).stream = o.stream ++ txt x) (xs : List β) (o : OStreams) :
    (xs.foldl w o).stream = o.stream ++ xs.flatMap txt := by
  induction xs generalizing o with
  | nil => simp
  | cons x xs ih => simp [List.foldl_cons, ih, hw, List.append_assoc]

theorem operatorOut_vectorFeatureBinning_eq {α : Type} (B : FeatureBinningClass α)
    (writeBinning : OStreams → List α → OStreams) (put : α → List Char)
    (hw : ∀ o v, (writeBinning o v).stream = o.stream ++ vectorLayout put v)
    (o : OStreams) (v : List B.carrier) :
    (operatorOut_vectorFeatureBinning B writeBinning o v).stream =
      o.stream ++ (putNat v.length ++
        (v.flatMap (fun fb => ' ' :: binningLayout B put fb) ++ [endl])) := by
  unfold operatorOut_vectorFeatureBinning
  simp only []
  show ((v.foldl _ (o.write (putNat v.length))).write [endl]).stream = _
  have h := foldl_stream
    (fun o value => operatorOut_FeatureBinning B writeBinning (o.write [' ']) value)
    (fun fb => ' ' :: binningLayout B put fb)
    (by
      intro o x
      rw [operatorOut_FeatureBinning_eq B writeBinning put hw]
      simp [OStreams.write, List.append_assoc])
    v (o.write (putNat v.length))
  simp only [OStreams.write] at h ⊢
  rw [h]
  simp [List.append_assoc]

theorem generic_writer_stream {α : Type} (E : Elem α) (o : OStreams) (v : List α) :
    (operatorOut_vector E o v).stream = o.stream ++ vectorLayout E.put v := by
  rw [operatorOut_vector_eq]

theorem floating_writer_stream (W : Floating) (o : OStreams) (v : List W.α) :
    (operatorOut_vectorFloating W o v).stream = o.stream ++ vectorLayout W.put v := by
  rw [operatorOut_vectorFloating_eq]

theorem tokens_binningLayout {α : Type} (B : FeatureBinningClass α) (put : α → List Char)
    (hne : ∀ x, put x ≠ []) (hns : ∀ x, ∀ c ∈ put x, isspace c = false)
    (fb : B.carrier) (r : List Char) :
    tokens (binningLayout B put fb ++ r) = binningTokens B put fb ++ tokens r := by
  unfold binningLayout binningTokens
  simp only [List.append_assoc, List.cons_append, List.nil_append]
  rw [tokens_token _ _ (putNat_ne_nil _) (putNat_nospace _) (startsBlank_cons _ isspace_endl),
    tokens_blank _ _ isspace_endl, tokens_vectorLayout put hne hns,
    tokens_blank _ _ isspace_endl]

theorem tokens_binnings {α : Type} (B : FeatureBinningClass α) (put : α → List Char)
    (hne : ∀ x, put x ≠ []) (hns : ∀ x, ∀ c ∈ put x, isspace c = false)
    (v : List B.carrier) (r : List Char) :
    tokens (v.flatMap (fun fb => ' ' :: binningLayout B put fb) ++ r) =
      v.flatMap (binningTokens B put) ++ tokens r := by
  induction v with
  | nil => simp
  | cons fb v ih =>
    simp only [List.flatMap_cons, List.append_assoc, List.cons_append]
    rw [tokens_blank _ _ isspace_space, tokens_binningLayout B put hne hns, ih]

theorem readFeatureBinning_of_strict {α : Type} (E : Elem α) (B : FeatureBinningClass α)
    (cs r : List Char) (fb : B.carrier) (h : strictFeatureBinning E B cs = some (fb, r)) :
    readFeatureBinningFromStream E B ⟨cs, false⟩ = some (⟨r, false⟩, fb) := by
  unfold strictFeatureBinning at h
  cases h1 : strictExtract uintElem cs with
  | none => rw [h1] at h; cases h
  | some p1 =>
    obtain ⟨n, r1⟩ := p1
    rw [h1] at h
    simp only [] at h
    cases h2 : strictVector E r1 with
    | none => rw [h2] at h; cases h
    | some p2 =>
      obtain ⟨bins, r2⟩ := p2
      rw [h2] at h
      simp only [Option.some.injEq, Prod.mk.injEq] at h
      obtain ⟨hfb, hr⟩ := h
      subst hfb
      subst hr
      simp only [readFeatureBinningFromStream, extractFresh_of_strict _ _ _ _ h1,
        operatorIn_vector_of_strict E r1 r2 bins h2 []]

theorem pushBackLoop_of_strict {α : Type} (E : Elem α) (B : FeatureBinningClass α) :
    ∀ (k : Nat) (cs r : List Char) (fbs d : List B.carrier),
      strictRepeat (strictFeatureBinning E B) k cs = some (fbs, r) →
      pushBackLoop E B k ⟨cs, false⟩ d = some (⟨r, false⟩, d ++ fbs) := by
  intro k
  induction k with
  | zero =>
    intro cs r fbs d h
    simp only [strictRepeat, Option.some.injEq, Prod.mk.injEq] at h
    obtain ⟨h1, h2⟩ := h
    subst h1
    subst h2
    simp [pushBackLoop]
  | succ k ih =>
    intro cs r fbs d h
    simp only [strictRepeat] at h
    cases h1 : strictFeatureBinning E B cs with
    | none => rw [h1] at h; cases h
    | some p1 =>
      obtain ⟨fb, r1⟩ := p1
      rw [h1] at h
      simp only [] at h
      cases h2 : strictRepeat (strictFeatureBinning E B) k r1 with
      | none => rw [h2] at h; cases h
      | some p2 =>
        obtain ⟨rest, r2⟩ := p2
        rw [h2] at h
        simp only [Option.some.injEq, Prod.mk.injEq] at h
        obtain ⟨hf, hr⟩ := h
        subst hf
        subst hr
        simp only [pushBackLoop, readFeatureBinning_of_strict E B cs r1 fb h1,
          ih r1 r2 rest (d ++ [fb]) h2]
        simp [List.append_assoc]

theorem pushBackLoop_appends {α : Type} (E : Elem α) (B : FeatureBinningClass α) :
    ∀ (k : Nat) (s s' : IStream) (d v : List B.carrier),
      pushBackLoop E B k s d = some (s', v) → ∃ fbs, v = d ++ fbs ∧ fbs.length = k := by
  intro k
  induction k with
  | zero =>
    intro s s' d v h
    simp only [pushBackLoop, Option.some.injEq, Prod.mk.injEq] at h
    exact ⟨[], by simp [h.2], rfl⟩
  | succ k ih =>
    intro s s' d v h
    simp only [pushBackLoop] at h
    cases h1 : readFeatureBinningFromStream E B s with
    | none => rw [h1] at h; cases h
    | some p =>
      obtain ⟨s1, fb⟩ := p
      rw [h1] at h
      simp only [] at h
      obtain ⟨fbs, e, hl⟩ := ih s1 s' (d ++ [fb]) v h
      exact ⟨fb :: fbs, by simp [e, List.append_assoc], by simp [hl]⟩

theorem pushBackLoop_blocks {α : Type} (E : Elem α) (B : FeatureBinningClass α) :
    ∀ (k : Nat) (s : IStream) (d : List B.carrier),
      (∀ i < k, (binningAt E B i s).isSome = true) →
      ∃ s' fbs, pushBackLoop E B k s d = some (s', d ++ fbs) ∧ fbs.length = k ∧
        ∀ i < k, ∃ si fb, binningAt E B i s = some (si, fb) ∧ fbs[i]? = some fb := by
  intro k
  induction k with
  | zero =>
    intro s d _
    exact ⟨s, [], by simp [pushBackLoop], rfl, fun i hi => absurd hi (Nat.not_lt_zero i)⟩
  | succ k ih =>
    intro s d h
    have h0 := h 0 (Nat.succ_pos k)
    simp only [binningAt] at h0
    cases hr : readFeatureBinningFromStream E B s with
    | none => rw [hr] at h0; cases h0
    | some p =>
      obtain ⟨s1, fb⟩ := p
      have hk : ∀ i < k, (binningAt E B i s1).isSome = true := by
        intro i hi
        have := h (i + 1) (Nat.succ_lt_succ hi)
        simpa [binningAt, hr] using this
      obtain ⟨s', fbs, e, hlen, hfbs⟩ := ih s1 (d ++ [fb]) hk
      refine ⟨s', fb :: fbs, ?_, by simp [hlen], ?_⟩
      · simp only [pushBackLoop, hr, e]
        simp [List.append_assoc]
      · intro i hi
        cases i with
        | zero => exact ⟨s1, fb, by simp [binningAt, hr], by simp⟩
        | succ i =>
          obtain ⟨si, fbi, e1, e2⟩ := hfbs i (Nat.lt_of_succ_lt_succ hi)
          exact ⟨si, fbi, by simp [binningAt, hr, e1], by simpa using e2⟩

/-- C16: the FeatureBinning writer appends `nLevels` and a line break and then the
count-prefixed boundary sequence, written by the generic sequence writer or, for
`float` and `double`, by its floating-point specialisation; the tokens are `nLevels`,
the count and the boundaries in order. On every stream that holds `nLevels`, a count
and that many boundaries, the FeatureBinning reader returns exactly what the factory
makes of that `nLevels` and of the whole boundary sequence in stream order. -/
theorem featureBinning_block {α : Type} (E : Elem α) (B : FeatureBinningClass α)
    (W : Floating) (BW : FeatureBinningClass W.α) :
    (∀ o fb, (operatorOut_FeatureBinning B (operatorOut_vector E) o fb).stream =
      o.stream ++ (putNat (B.GetNLevels fb) ++ [endl] ++
        vectorLayout E.put (B.GetBinning fb) ++ [endl])) ∧
    (E.TokenText → ∀ fb,
      tokens (operatorOut_FeatureBinning B (operatorOut_vector E) ⟨[], []⟩ fb).stream =
        putNat (B.GetNLevels fb) :: putNat (B.GetBinning fb).length ::
          (B.GetBinning fb).map E.put) ∧
    (∀ o fb, (operatorOut_FeatureBinning BW (operatorOut_vectorFloating W) o fb).stream =
      o.stream ++ (putNat (BW.GetNLevels fb) ++ [endl] ++
        vectorLayout W.put (BW.GetBinning fb) ++ [endl])) ∧
    (∀ fb,
      tokens (operatorOut_FeatureBinning BW (operatorOut_vectorFloating W) ⟨[], []⟩ fb).stream =
        putNat (BW.GetNLevels fb) :: putNat (BW.GetBinning fb).length ::
          (BW.GetBinning fb).map W.put) ∧
    (∀ cs r1 r2 nLevels bins, strictExtract uintElem cs = some (nLevels, r1) →
      strictVector E r1 = some (bins, r2) →
      readFeatureBinningFromStream E B ⟨cs, false⟩ = some (⟨r2, false⟩, B.make nLevels bins)) := by
  refine ⟨?_, ?_, ?_, ?_, ?_⟩
  · intro o fb
    rw [operatorOut_FeatureBinning_eq B _ E.put (generic_writer_stream E)]
    simp [binningLayout, List.append_assoc]
  · intro htok fb
    rw [operatorOut_FeatureBinning_eq B _ E.put (generic_writer_stream E)]
    have h := tokens_binningLayout B E.put (fun x => (htok x).1) (fun x => (htok x).2) fb []
    simpa [tokens_nil, binningTokens, vectorTokens] using h
  · intro o fb
    rw [operatorOut_FeatureBinning_eq BW _ W.put (floating_writer_stream W)]
    simp [binningLayout, List.append_assoc]
  · intro fb
    rw [operatorOut_FeatureBinning_eq BW _ W.put (floating_writer_stream W)]
    have h := tokens_binningLayout BW W.put W.put_ne_nil W.put_nospace fb []
    simpa [tokens_nil, binningTokens, vectorTokens] using h
  · intro cs r1 r2 nLevels bins h1 h2
    apply readFeatureBinning_of_strict
    simp only [strictFeatureBinning, h1, h2]

/-- Witness of C16: the block `3 2 0.5 1.5` is read as what the factory makes of
`nLevels = 3` and the boundaries `[0.5, 1.5]`. -/
theorem featureBinning_block_witness :
    (strictExtract uintElem "3 2 0.5 1.5".toList = some (3, " 2 0.5 1.5".toList) ∧
      strictVector (floatElem decFloating) " 2 0.5 1.5".toList =
        some ([Dec.fin false 5 1, Dec.fin false 15 1], [])) ∧
    readFeatureBinningFromStream (floatElem decFloating) plainBinning
        ⟨"3 2 0.5 1.5".toList, false⟩ =
      some (⟨[], false⟩, plainBinning.make 3 [Dec.fin false 5 1, Dec.fin false 15 1]) :=
  ⟨⟨by rfl, by rfl⟩,
    (featureBinning_block (floatElem decFloating) plainBinning decFloating plainBinning).2.2.2.2
      "3 2 0.5 1.5".toList " 2 0.5 1.5".toList [] 3 [Dec.fin false 5 1, Dec.fin false 15 1]
      (by rfl) (by rfl)⟩

/-- C17: a sequence of FeatureBinning values is written as the count followed by the
FeatureBinning blocks in order and nothing else: the tokens of the text are the count
and then the tokens of the encoding of each FeatureBinning. On every stream whose count
is read as `n` and whose `n` blocks can be decoded one after another, the reader leaves
in an empty destination exactly `n` FeatureBinnings, number `i` being the one decoded
from block number `i`. -/
theorem featureBinning_sequence {α : Type} (E : Elem α) (B : FeatureBinningClass α)
    (W : Floating) (BW : FeatureBinningClass W.α) :
    (E.TokenText → ∀ v,
      tokens (operatorOut_vectorFeatureBinning B (operatorOut_vector E) ⟨[], []⟩ v).stream =
        putNat v.length :: v.flatMap (fun fb =>
          tokens (operatorOut_FeatureBinning B (operatorOut_vector E) ⟨[], []⟩ fb).stream)) ∧
    (∀ v,
      tokens (operatorOut_vectorFeatureBinning BW (operatorOut_vectorFloating W) ⟨[], []⟩ v).stream =
        putNat v.length :: v.flatMap (fun fb =>
          tokens (operatorOut_FeatureBinning BW (operatorOut_vectorFloating W) ⟨[], []⟩ fb).stream)) ∧
    (∀ s s0 n, extractFresh uintElem s = some (s0, n) →
      (∀ i < n, (binningAt E B i s0).isSome = true) →
      ∃ s' v, operatorIn_vectorFeatureBinning E B s [] = some (s', v) ∧ v.length = n ∧
        ∀ i < n, ∃ si fb, binningAt E B i s0 = some (si, fb) ∧ v[i]? = some fb) := by
  have key : ∀ {β : Type} (C : FeatureBinningClass β) (put : β → List Char)
      (w : OStreams → List β → OStreams)
      (hw : ∀ o v, (w o v).stream = o.stream ++ vectorLayout put v)
      (hne : ∀ x, put x ≠ []) (hns : ∀ x, ∀ c ∈ put x, isspace c = false)
      (v : List C.carrier),
      tokens (operatorOut_vectorFeatureBinning C w ⟨[], []⟩ v).stream =
        putNat v.length :: v.flatMap (fun fb =>
          tokens (operatorOut_FeatureBinning C w ⟨[], []⟩ fb).stream) := by
    intro β C put w hw hne hns v
    have hb : ∀ fb : C.carrier,
        tokens (operatorOut_FeatureBinning C w ⟨[], []⟩ fb).stream = binningTokens C put fb := by
      intro fb
      rw [operatorOut_FeatureBinning_eq C w put hw]
      have h := tokens_binningLayout C put hne hns fb []
      simpa [tokens_nil] using h
    rw [operatorOut_vectorFeatureBinning_eq C w put hw]
    simp only [hb, List.nil_append]
    have hstart : StartsBlank (v.flatMap (fun fb => ' ' :: binningLayout C put fb) ++ [endl]) := by
      cases v with
      | nil => exact startsBlank_cons _ isspace_endl
      | cons fb v => exact startsBlank_cons _ isspace_space
    rw [tokens_token _ _ (putNat_ne_nil _) (putNat_nospace _) hstart,
      tokens_binnings C put hne hns, tokens_blank _ _ isspace_endl, tokens_nil]
    simp
  refine ⟨?_, ?_, ?_⟩
  · intro htok v
    exact key B E.put _ (generic_writer_stream E) (fun x => (htok x).1) (fun x => (htok x).2) v
  · intro v
    exact key BW W.put _ (floating_writer_stream W) W.put_ne_nil W.put_nospace v
  · intro s s0 n hcount hb
    obtain ⟨s', fbs, e, hlen, hfbs⟩ := pushBackLoop_blocks E B n s0 [] hb
    refine ⟨s', fbs, ?_, hlen, hfbs⟩
    simp only [operatorIn_vectorFeatureBinning, hcount]
    simpa using e

/-- Witness of C17: the stream `2`, `3 2 0.5 1.5`, `4 0` holds two blocks. -/
theorem featureBinning_sequence_witness :
    (extractFresh uintElem ⟨"2 3 2 0.5 1.5 4 0".toList, false⟩ =
        some (⟨" 3 2 0.5 1.5 4 0".toList, false⟩, 2) ∧
      ∀ i < 2, (binningAt (floatElem decFloating) plainBinning i
        ⟨" 3 2 0.5 1.5 4 0".toList, false⟩).isSome = true) ∧
    ∃ s' v, operatorIn_vectorFeatureBinning (floatElem decFloating) plainBinning
        ⟨"2 3 2 0.5 1.5 4 0".toList, false⟩ [] = some (s', v) ∧ v.length = 2 ∧
      ∀ i < 2, ∃ si fb, binningAt (floatElem decFloating) plainBinning i
          ⟨" 3 2 0.5 1.5 4 0".toList, false⟩ = some (si, fb) ∧ v[i]? = some fb :=
  ⟨⟨by rfl, by decide⟩,
    (featureBinning_sequence (floatElem decFloating) plainBinning decFloating plainBinning).2.2
      ⟨"2 3 2 0.5 1.5 4 0".toList, false⟩ ⟨" 3 2 0.5 1.5 4 0".toList, false⟩ 2
      (by rfl) (by decide)⟩

/-- C19: the two sequence readers treat the destination differently. On a well-formed
stream the FeatureBinning sequence reader leaves the destination `d` followed by the
decoded FeatureBinnings, `|d| + count` elements, and whenever it returns the destination
still starts with `d`; the generic sequence reader on a well-formed stream leaves the
decoded sequence alone, whatever `d` was. -/
theorem destination_handling {α : Type} (E : Elem α) (B : FeatureBinningClass α) :
    (∀ cs r0 r n fbs d, strictExtract uintElem cs = some (n, r0) →
      strictRepeat (strictFeatureBinning E B) n r0 = some (fbs, r) →
      operatorIn_vectorFeatureBinning E B ⟨cs, false⟩ d = some (⟨r, false⟩, d ++ fbs) ∧
        (d ++ fbs).length = d.length + n) ∧
    (∀ s s' d v, operatorIn_vectorFeatureBinning E B s d = some (s', v) →
      ∃ fbs, v = d ++ fbs) ∧
    (∀ cs r xs d, strictVector E cs = some (xs, r) →
      operatorIn_vector E ⟨cs, false⟩ d = some (⟨r, false⟩, xs)) := by
  refine ⟨?_, ?_, ?_⟩
  · intro cs r0 r n fbs d h1 h2
    constructor
    · simp only [operatorIn_vectorFeatureBinning, extractFresh_of_strict _ _ _ _ h1]
      exact pushBackLoop_of_strict E B n r0 r fbs d h2
    · rw [List.length_append, strictRepeat_length _ _ _ _ _ h2]
  · intro s s' d v h
    unfold operatorIn_vectorFeatureBinning at h
    cases he : extractFresh uintElem s with
    | none => rw [he] at h; cases h
    | some p =>
      obtain ⟨s1, n⟩ := p
      rw [he] at h
      obtain ⟨fbs, e, _⟩ := pushBackLoop_appends E B n s1 s' d v h
      exact ⟨fbs, e⟩
  · intro cs r xs d h
    exact operatorIn_vector_of_strict E cs r xs h d

/-- Witness of C19: the stream `1 4 0` read into the destination that holds one
FeatureBinning leaves two; the stream `2 7 8` read into the destination `[9, 9, 9]`
leaves `[7, 8]`. -/
theorem destination_handling_witness :
    (strictExtract uintElem "1 4 0".toList = some (1, " 4 0".toList) ∧
      strictRepeat (strictFeatureBinning (floatElem decFloating) plainBinning) 1 " 4 0".toList =
        some ([(4, [])], []) ∧
      strictVector (floatElem decFloating) "2 7 8".toList =
        some ([Dec.fin false 7 0, Dec.fin false 8 0], [])) ∧
    operatorIn_vectorFeatureBinning (floatElem decFloating) plainBinning
        ⟨"1 4 0".toList, false⟩ [(3, [Dec.fin false 5 1])] =
      some (⟨[], false⟩, [(3, [Dec.fin false 5 1])] ++ [(4, [])]) ∧
    operatorIn_vector (floatElem decFloating) ⟨"2 7 8".toList, false⟩
        [Dec.fin false 9 0, Dec.fin false 9 0, Dec.fin false 9 0] =
      some (⟨[], false⟩, [Dec.fin false 7 0, Dec.fin false 8 0]) :=
  ⟨⟨by rfl, by rfl, by rfl⟩,
    ((destination_handling (floatElem decFloating) plainBinning).1 "1 4 0".toList " 4 0".toList
      [] 1 [(4, [])] [(3, [Dec.fin false 5 1])] (by rfl) (by rfl)).1,
    (destination_handling (floatElem decFloating) plainBinning).2.2
      "2 7 8".toList [] [Dec.fin false 7 0, Dec.fin false 8 0]
      [Dec.fin false 9 0, Dec.fin false 9 0, Dec.fin false 9 0] (by rfl)⟩

/-! ## Exact consumption of a Tree block (claim C18) -/

theorem elements_read_exact {α : Type} (E : Elem α) (f : α → α) :
    ∀ (xs done stale : List α) (r : List Char), StartsBlank r → stale.length = xs.length →
      (∀ x ∈ xs, Reads E x (f x)) →
      indexLoop (extract E) E.dflt xs.length done.length
          ⟨xs.flatMap (fun x => ' ' :: E.put x) ++ r, false⟩ (done ++ stale) =
        (⟨r, false⟩, done ++ xs.map f) := by
  intro xs
  induction xs with
  | nil =>
    intro done stale r _ hlen _
    have : stale = [] := List.length_eq_zero.1 hlen
    subst this
    simp [indexLoop]
  | cons x xs ih =>
    intro done stale r hr hlen hx
    cases stale with
    | nil => simp at hlen
    | cons y st =>
      have hfol : StartsBlank (xs.flatMap (fun x => ' ' :: E.put x) ++ r) := by
        cases xs with
        | nil => simpa using hr
        | cons x' xs' => exact startsBlank_cons _ isspace_space
      have e1 := extract_reads (hx x (List.mem_cons_self x xs)) [' ']
        (xs.flatMap (fun x => ' ' :: E.put x) ++ r) y
        (blank_cons isspace_space blank_nil) hfol
      have e2 := ih (done ++ [f x]) st r hr (by simpa using hlen)
        (fun x' hx' => hx x' (List.mem_cons_of_mem x hx'))
      have hget : (done ++ y :: st).getD done.length E.dflt = y := by
        rw [List.getD_append_right _ _ _ _ (Nat.le_refl _)]
        simp
      have hset : (done ++ y :: st).set done.length (f x) = (done ++ [f x]) ++ st := by
        simp [List.set_append]
      have hrest : (x :: xs).flatMap (fun x => ' ' :: E.put x) ++ r =
          [' '] ++ E.put x ++ (xs.flatMap (fun x => ' ' :: E.put x) ++ r) := by
        simp [List.append_assoc]
      simp only [List.length_cons, indexLoop]
      rw [hget, hrest, e1, hset]
      simp only [List.length_append, List.length_singleton] at e2
      rw [e2]
      simp [List.append_assoc]

theorem read_vectorLayout_exact {α : Type} (E : Elem α) (f : α → α) (v : List α)
    (hlen : v.length ≤ UINT_MAX) (hv : ∀ x ∈ v, Reads E x (f x)) (d : List α)
    (ws r : List Char) (hws : Blank ws) :
    operatorIn_vector E ⟨ws ++ vectorLayout E.put v ++ r, false⟩ d =
      some (⟨endl :: r, false⟩, v.map f) := by
  have hfol : StartsBlank (v.flatMap (fun x => ' ' :: E.put x) ++ (endl :: r)) := by
    cases v with
    | nil => exact startsBlank_cons _ isspace_endl
    | cons y v => exact startsBlank_cons _ isspace_space
  have h1 := extractFresh_reads (reads_uint v.length hlen) ws _ hws hfol
  have hsz : (resize E.dflt d v.length).length = v.length := by
    simp only [resize, List.length_append, List.length_take, List.length_replicate]
    omega
  have e := elements_read_exact E f v [] (resize E.dflt d v.length) (endl :: r)
    (startsBlank_cons _ isspace_endl) hsz hv
  have hrest : ws ++ vectorLayout E.put v ++ r =
      ws ++ uintElem.put v.length ++ (v.flatMap (fun x => ' ' :: E.put x) ++ (endl :: r)) := by
    simp [vectorLayout, uintElem, List.append_assoc]
  unfold operatorIn_vector
  rw [hrest, h1]
  simp only [List.nil_append, List.length_nil] at e
  simp only [e]

theorem read_treeLayout_exact (G W : Floating) (cut0 : Cut G) (t : Tree G W) (ht : t.Readable)
    (ws r : List Char) (hws : Blank ws) :
    readTreeFromStream G W cut0 ⟨ws ++ treeLayout G W t ++ r, false⟩ =
      some (⟨endl :: endl :: r, false⟩, t.reread) := by
  obtain ⟨hn, hnb, hnp, hc, hb, hp⟩ := ht
  have h1 := extractFresh_reads (reads_uint t.cuts.length hn) ws
    ([endl] ++ t.cuts.flatMap (fun c => cutLayout G c ++ [endl]) ++
      (vectorLayout W.put t.boostWeights ++ ([endl] ++
        (vectorLayout W.put t.purities ++ ([endl] ++ r))))) hws
    (startsBlank_cons _ isspace_endl)
  obtain ⟨w1, hw1, e1⟩ := read_cuts G cut0 t.cuts hc [endl]
    (vectorLayout W.put t.boostWeights ++ ([endl] ++
      (vectorLayout W.put t.purities ++ ([endl] ++ r))))
    (blank_cons isspace_endl blank_nil)
  have e2 := read_vectorLayout_exact (floatElem W) W.reread t.boostWeights hnb
    (fun x hx => reads_float W x (hb x hx)) [] w1
    ([endl] ++ (vectorLayout W.put t.purities ++ ([endl] ++ r))) hw1
  have e3 := read_vectorLayout_exact (floatElem W) W.reread t.purities hnp
    (fun x hx => reads_float W x (hp x hx)) [] [endl, endl] ([endl] ++ r)
    (blank_cons isspace_endl (blank_cons isspace_endl blank_nil))
  have hput : (floatElem W).put = W.put := rfl
  rw [hput] at e2 e3
  have hrest : ws ++ treeLayout G W t ++ r = ws ++ (uintElem.put t.cuts.length ++
      endl :: (t.cuts.flatMap (fun c => cutLayout G c ++ [endl]) ++
        (vectorLayout W.put t.boostWeights ++ endl ::
          (vectorLayout W.put t.purities ++ endl :: r)))) := by
    simp [treeLayout, uintElem, List.append_assoc]
  simp only [List.append_assoc, List.cons_append, List.nil_append] at h1 e1 e2 e3
  unfold readTreeFromStream
  rw [hrest, h1]
  simp only [e1, e2, e3]
  simp [Tree.reread]

/-- C18: for every Tree whose values are representable at the textual precision (and
whose unsigned fields and counts are values of `unsigned int`), every white space `ws`
in front and every trailing text `r`, the Tree reader applied to `ws`, the text the
Tree writer produced and `r` returns that Tree and leaves the stream good with the two
closing line breaks of the block and then exactly `r` unread, so exactly the tokens of
`r`; read from there, a second encoded Tree is returned in the same way, the blank
lines between the blocks changing nothing. -/
theorem tree_prefix_property (G W : Floating) (cut0 : Cut G) (t : Tree G W)
    (hrange : t.InRange) (hrep : t.Representable) (ws r : List Char) (hws : Blank ws) :
    readTreeFromStream G W cut0 ⟨ws ++ (operatorOut_Tree G W ⟨[], []⟩ t).stream ++ r, false⟩ =
      some (⟨endl :: endl :: r, false⟩, t) ∧
    tokens (endl :: endl :: r) = tokens r ∧
    (∀ t2 : Tree G W, t2.InRange → t2.Representable → ∀ r2,
      r = endl :: ((operatorOut_Tree G W ⟨[], []⟩ t2).stream ++ r2) →
      readTreeFromStream G W cut0 ⟨endl :: endl :: r, false⟩ =
        some (⟨endl :: endl :: r2, false⟩, t2)) := by
  obtain ⟨hread, he⟩ := tree_readable_reread t hrange hrep
  refine ⟨?_, ?_, ?_⟩
  · have h := read_treeLayout_exact G W cut0 t hread ws r hws
    rw [he] at h
    simpa [operatorOut_Tree_eq] using h
  · rw [tokens_blank _ _ isspace_endl, tokens_blank _ _ isspace_endl]
  · intro t2 hr2 hp2 r2 hr
    obtain ⟨hread2, he2⟩ := tree_readable_reread t2 hr2 hp2
    have h := read_treeLayout_exact G W cut0 t2 hread2 [endl, endl, endl] r2
      (blank_cons isspace_endl (blank_cons isspace_endl (blank_cons isspace_endl blank_nil)))
    rw [he2] at h
    rw [hr]
    simpa [operatorOut_Tree_eq] using h

theorem exampleTree_inRange : exampleTree.InRange := by
  simp [Tree.InRange, Cut.InRange, exampleTree, exampleCut, UINT_MAX]

theorem exampleTree_representable : exampleTree.Representable := by
  simp only [Tree.Representable, exampleTree, exampleCut, List.mem_singleton, forall_eq]
  exact ⟨dec_representable _ (by decide) (by decide), dec_representable _ (by decide) (by decide),
    dec_representable _ (by decide) (by decide)⟩

/-- Witness of C18: the example Tree followed by the text `7 8`. -/
theorem tree_prefix_property_witness :
    (exampleTree.InRange ∧ exampleTree.Representable ∧ Blank []) ∧
    readTreeFromStream decFloating decFloating zeroCut
        ⟨[] ++ (operatorOut_Tree decFloating decFloating ⟨[], []⟩ exampleTree).stream ++
          "7 8".toList, false⟩ =
      some (⟨endl :: endl :: "7 8".toList, false⟩, exampleTree) :=
  ⟨⟨exampleTree_inRange, exampleTree_representable, blank_nil⟩,
    (tree_prefix_property decFloating decFloating zeroCut exampleTree exampleTree_inRange
      exampleTree_representable [] "7 8".toList blank_nil).1⟩

/-! ## Fields and white-space delimited tokens -/

theorem takeSign_append (tok r : List Char) (h : tok ≠ []) :
    takeSign (tok ++ r) = ((takeSign tok).1, (takeSign tok).2 ++ r) := by
  cases tok with
  | nil => exact absurd rfl h
  | cons a t =>
    simp only [List.cons_append, takeSign]
    split
    · rfl
    · split <;> rfl

theorem digits_all {ds : List Char} (h : ds.dropWhile isdigit = []) :
    (∀ a ∈ ds, isdigit a = true) ∧ ds.takeWhile isdigit = ds := by
  have h1 : ∀ a ∈ ds, isdigit a = true := by
    intro a ha
    exact List.dropWhile_eq_nil_iff.1 h a ha
  exact ⟨h1, List.takeWhile_eq_self_iff.2 h1⟩

theorem uintElem_stopsAtBlank : uintElem.StopsAtBlank := by
  intro tok r h1 h2 hr
  obtain ⟨c, r', rfl, hc⟩ := hr
  have hne : tok ≠ [] := by
    intro e
    subst e
    simp [uintElem, getUnsigned, takeSign] at h1
  show getUnsigned (tok ++ c :: r') = (true, (getUnsigned tok).2.1, c :: r')
  change (getUnsigned tok).1 = true at h1
  change (getUnsigned tok).2.2 = [] at h2
  unfold getUnsigned at h1 h2 ⊢
  simp only [] at h1 h2 ⊢
  rw [takeSign_append tok (c :: r') hne]
  simp only []
  by_cases e1 : (takeSign tok).2.takeWhile isdigit = []
  · rw [if_pos e1] at h1
    cases h1
  · rw [if_neg e1] at h1 h2
    by_cases e2 : UINT_MAX < digitsVal ((takeSign tok).2.takeWhile isdigit)
    · rw [if_pos e2] at h1
      cases h1
    · rw [if_neg e2] at h1 h2
      simp only [] at h2
      obtain ⟨hd, htw⟩ := digits_all h2
      have hsp := digits_split (takeSign tok).2 c r' hd (isspace_not_digit hc)
      rw [htw] at e1 e2 ⊢
      rw [hsp.1, hsp.2, if_neg e1, if_neg e2, if_neg e1, if_neg e2]

theorem boolElem_stopsAtBlank : boolElem.StopsAtBlank := by
  intro tok r h1 h2 hr
  obtain ⟨c, r', rfl, hc⟩ := hr
  have hne : tok ≠ [] := by
    intro e
    subst e
    simp [boolElem, getBool, takeSign] at h1
  show getBool (tok ++ c :: r') = (true, (getBool tok).2.1, c :: r')
  change (getBool tok).1 = true at h1
  change (getBool tok).2.2 = [] at h2
  unfold getBool at h1 h2 ⊢
  simp only [] at h1 h2 ⊢
  rw [takeSign_append tok (c :: r') hne]
  simp only []
  have hrest : (takeSign tok).2.dropWhile isdigit = [] := by
    by_cases e1 : (takeSign tok).2.takeWhile isdigit = []
    · rw [if_pos e1] at h2
      exact h2
    · rw [if_neg e1] at h2
      by_cases e2 : digitsVal ((takeSign tok).2.takeWhile isdigit) = 0
      · rw [if_pos e2] at h2
        exact h2
      · rw [if_neg e2] at h2
        by_cases e3 : digitsVal ((takeSign tok).2.takeWhile isdigit) = 1 ∧ (takeSign tok).1 = false
        · rw [if_pos e3] at h2
          exact h2
        · rw [if_neg e3] at h2
          exact h2
  obtain ⟨hd, htw⟩ := digits_all hrest
  have hsp := digits_split (takeSign tok).2 c r' hd (isspace_not_digit hc)
  rw [htw] at h1 ⊢
  rw [hsp.1, hsp.2]
  by_cases e1 : (takeSign tok).2 = []
  · simp [e1] at h1
  · by_cases e2 : digitsVal (takeSign tok).2 = 0
    · simp [e1, e2]
    · by_cases e3 : digitsVal (takeSign tok).2 = 1 ∧ (takeSign tok).1 = false
      · simp [e1, e2, e3]
      · simp [e1, e2, e3] at h1

theorem scanFloatBody_split (cs : List Char) :
    ∀ fm fd fs es, (scanFloatBody fm fd fs es cs).1 ++ (scanFloatBody fm fd fs es cs).2 = cs := by
  induction cs with
  | nil => intro fm fd fs es; simp [scanFloatBody]
  | cons a t ih =>
    intro fm fd fs es
    unfold scanFloatBody
    split
    · simp only [List.cons_append, ih]
    · split
      · simp only [List.cons_append, ih]
      · split
        · simp only [List.cons_append, ih]
        · split
          · simp only [List.cons_append, ih]
          · simp

theorem scanFloat_split (cs : List Char) : (scanFloat cs).1 ++ (scanFloat cs).2 = cs := by
  cases cs with
  | nil => simp [scanFloat]
  | cons a t =>
    simp only [scanFloat]
    by_cases h : a = '+' ∨ a = '-'
    · rw [if_pos h]
      simp only [List.cons_append, scanFloatBody_split]
    · rw [if_neg h]
      exact scanFloatBody_split _ _ _ _ _

theorem floatElem_stopsAtBlank (W : Floating) : (floatElem W).StopsAtBlank := by
  intro tok r _ h2 hr
  change (scanFloat tok).2 = [] at h2
  have h3 := scanFloat_split tok
  rw [h2, List.append_nil] at h3
  have h4 : scanFloat tok = (tok, []) := Prod.ext h3 h2
  show ((W.conv (scanFloat (tok ++ r)).1).1, (W.conv (scanFloat (tok ++ r)).1).2,
    (scanFloat (tok ++ r)).2) = (true, (W.conv (scanFloat tok).1).2, r)
  rename_i h1
  change (W.conv (scanFloat tok).1).1 = true at h1
  rw [scanFloat_token tok r hr h4, h4]
  simp only [h4] at h1
  rw [h1]

theorem dropWhile_head {p : Char → Bool} :
    ∀ (l : List Char) (a : Char) (u : List Char), l.dropWhile p = a :: u → p a = false := by
  intro l
  induction l with
  | nil => intro a u h; cases h
  | cons b t ih =>
    intro a u h
    by_cases hb : p b = true
    · rw [List.dropWhile_cons_of_pos hb] at h
      exact ih a u h
    · rw [List.dropWhile_cons_of_neg hb] at h
      have e : b = a := List.head_eq_of_cons_eq h
      rw [← e]
      simpa using hb

theorem blank_iff (r : List Char) : r.dropWhile isspace = [] ↔ Blank r := by
  rw [List.dropWhile_eq_nil_iff]
  rfl

theorem tokens_dropWhile (cs : List Char) : tokens (cs.dropWhile isspace) = tokens cs := by
  induction cs with
  | nil => rfl
  | cons a t ih =>
    by_cases h : isspace a = true
    · rw [List.dropWhile_cons_of_pos h, ih, tokens_blank a t h]
    · rw [List.dropWhile_cons_of_neg h]

/-- A text is blank and has no token, or it is white space, a first token, and a
remainder that is empty or starts with white space. -/
theorem tokens_cases (cs : List Char) :
    (Blank cs ∧ tokens cs = []) ∨
    ∃ ws t r, cs = ws ++ t ++ r ∧ Blank ws ∧ t ≠ [] ∧ (∀ c ∈ t, isspace c = false) ∧
      (r = [] ∨ StartsBlank r) ∧ tokens cs = t :: tokens r := by
  cases h : cs.dropWhile isspace with
  | nil =>
    left
    refine ⟨(blank_iff cs).1 h, ?_⟩
    rw [← tokens_dropWhile, h]
    rfl
  | cons a u =>
    right
    have ha : isspace a = false := dropWhile_head cs a u h
    have hsplit : cs = cs.takeWhile isspace ++ (a :: u) := by
      rw [← h, List.takeWhile_append_dropWhile]
    have hws : Blank (cs.takeWhile isspace) := fun c hc => List.mem_takeWhile_imp hc
    have htok : (a :: u).takeWhile (fun c => !isspace c) ++
        (a :: u).dropWhile (fun c => !isspace c) = a :: u := List.takeWhile_append_dropWhile _ _
    have hne : (a :: u).takeWhile (fun c => !isspace c) ≠ [] := by
      simp [List.takeWhile_cons, ha]
    have hns : ∀ c ∈ (a :: u).takeWhile (fun c => !isspace c), isspace c = false := by
      intro c hc
      have := List.mem_takeWhile_imp hc
      simpa using this
    have hr : (a :: u).dropWhile (fun c => !isspace c) = [] ∨
        StartsBlank ((a :: u).dropWhile (fun c => !isspace c)) := by
      cases hd : (a :: u).dropWhile (fun c => !isspace c) with
      | nil => left; rfl
      | cons b v =>
        right
        have hb := dropWhile_head (a :: u) b v hd
        exact ⟨b, v, rfl, by simpa using hb⟩
    obtain ⟨t, r, htr, hne, hns, hr⟩ : ∃ t r, a :: u = t ++ r ∧ t ≠ [] ∧
        (∀ c ∈ t, isspace c = false) ∧ (r = [] ∨ StartsBlank r) :=
      ⟨_, _, htok.symm, hne, hns, hr⟩
    refine ⟨cs.takeWhile isspace, t, r, ?_, hws, hne, hns, hr, ?_⟩
    · rw [List.append_assoc, ← htr]
      exact hsplit
    · rw [← tokens_dropWhile, h, htr]
      rcases hr with e | e
      · subst e
        unfold tokens
        have := tokensAux_token t hns [] []
        rw [List.nil_append] at this
        rw [this]
        simp [tokensAux, hne]
      · exact tokens_token _ _ hne hns e

theorem parseToken_some {α : Type} (E : Elem α) (t : List Char) (x : α)
    (h : parseToken E t = some x) :
    (E.get t).1 = true ∧ (E.get t).2.2 = [] ∧ (E.get t).2.1 = x := by
  unfold parseToken at h
  by_cases c : (E.get t).1 = true ∧ (E.get t).2.2 = []
  · rw [if_pos c] at h
    exact ⟨c.1, c.2, Option.some.inj h⟩
  · rw [if_neg c] at h
    cases h

/-- A token that parses whole is the field the extraction reads, whatever white space
stands before it, provided the end of the input or white space follows. -/
theorem strictExtract_token {α : Type} (E : Elem α) (hE : E.StopsAtBlank)
    (ws t r : List Char) (x : α) (hws : Blank ws) (hne : t ≠ [])
    (hns : ∀ c ∈ t, isspace c = false) (hr : r = [] ∨ StartsBlank r)
    (hp : parseToken E t = some x) : strictExtract E (ws ++ t ++ r) = some (x, r) := by
  obtain ⟨p1, p2, p3⟩ := parseToken_some E t x hp
  have hg : E.get (t ++ r) = (true, x, r) := by
    rcases hr with e | e
    · rw [e, List.append_nil]
      exact Prod.ext p1 (Prod.ext p3 p2)
    · rw [hE t r p1 p2 e, p3]
  unfold strictExtract
  rw [dropWhile_blank_token ws t r hws hne hns]
  cases t with
  | nil => exact absurd rfl hne
  | cons a t' =>
    simp only [List.cons_append] at hg ⊢
    rw [hg]
    rfl

theorem strictExtract_blank {α : Type} (E : Elem α) (r : List Char) (h : Blank r) :
    strictExtract E r = none := by
  unfold strictExtract
  rw [(blank_iff r).2 h]

/-- When every token of a text parses whole, the tokens are the fields that successive
extractions read, and nothing but white space is left after them. -/
theorem strictRepeat_tokens {α : Type} (E : Elem α) (hE : E.StopsAtBlank) :
    ∀ (ts : List (List Char)) (cs : List Char), tokens cs = ts →
      (∀ t ∈ ts, (parseToken E t).isSome = true) →
      ∃ xs r, strictRepeat (strictExtract E) ts.length cs = some (xs, r) ∧
        xs.map some = ts.map (parseToken E) ∧ Blank r := by
  intro ts
  induction ts with
  | nil =>
    intro cs htok _
    rcases tokens_cases cs with ⟨hb, _⟩ | ⟨ws, t, r, _, _, _, _, _, e⟩
    · exact ⟨[], cs, rfl, rfl, hb⟩
    · rw [htok] at e
      cases e
  | cons t ts ih =>
    intro cs htok hall
    rcases tokens_cases cs with ⟨_, e⟩ | ⟨ws, t', r, hcs, hws, hne, hns, hr, e⟩
    · rw [htok] at e
      cases e
    · rw [htok] at e
      have e1 : t = t' := List.head_eq_of_cons_eq e
      have e2 : ts = tokens r := List.tail_eq_of_cons_eq e
      subst e1
      obtain ⟨x, hx⟩ := Option.isSome_iff_exists.1 (hall t (List.mem_cons_self t ts))
      have hfirst := strictExtract_token E hE ws t r x hws hne hns hr hx
      obtain ⟨xs, r', h1, h2, h3⟩ := ih r e2.symm
        (fun u hu => hall u (List.mem_cons_of_mem t hu))
      refine ⟨x :: xs, r', ?_, ?_, h3⟩
      · rw [hcs]
        simp only [List.length_cons, strictRepeat, hfirst, h1]
      · simp only [List.map_cons, h2, hx]

/-! ## Count integrity and the length of a decoded sequence (claims C2, C20) -/

theorem countReadable_le {α : Type} (E : Elem α) :
    ∀ (k : Nat) (s : IStream), countReadable E k s ≤ k := by
  intro k
  induction k with
  | zero => intro s; simp [countReadable]
  | succ k ih =>
    intro s
    simp only [countReadable]
    split
    · omega
    · have := ih (extract E s E.dflt).1
      omega

theorem indexLoop_full {α : Type} (E : Elem α) :
    ∀ (k i : Nat) (s : IStream) (v : List α), s.fail = false → countReadable E k s = k →
      (indexLoop (extract E) E.dflt k i s v).1.fail = false := by
  intro k
  induction k with
  | zero => intro i s v h _; simpa [indexLoop] using h
  | succ k ih =>
    intro i s v _ hc
    simp only [indexLoop]
    rw [extract_state_indep E s (v.getD i E.dflt) E.dflt]
    cases hf : (extract E s E.dflt).1.fail with
    | true => simp [countReadable, hf] at hc
    | false =>
      apply ih _ _ _ hf
      simp only [countReadable, hf, Bool.false_eq_true, if_false] at hc
      omega

/-- The number of elements that can be extracted is the number of fields that decode
one after another up to the first that does not. -/
theorem countReadable_of_strict {α : Type} (E : Elem α) :
    ∀ (k n : Nat) (cs : List Char) (xs : List α) (r : List Char),
      strictRepeat (strictExtract E) k cs = some (xs, r) → strictExtract E r = none → k < n →
      countReadable E n ⟨cs, false⟩ = k := by
  intro k
  induction k with
  | zero =>
    intro n cs xs r h hr hlt
    simp only [strictRepeat, Option.some.injEq, Prod.mk.injEq] at h
    obtain ⟨_, e⟩ := h
    subst e
    cases n with
    | zero => omega
    | succ n =>
      rcases extract_refines E cs E.dflt with ⟨_, h2⟩ | ⟨h1, _⟩
      · rw [hr] at h2
        cases h2
      · simp [countReadable, h1]
  | succ k ih =>
    intro n cs xs r h hr hlt
    cases n with
    | zero => omega
    | succ n =>
      simp only [strictRepeat] at h
      cases hi : strictExtract E cs with
      | none => rw [hi] at h; cases h
      | some p =>
        obtain ⟨x, r1⟩ := p
        rw [hi] at h
        simp only [] at h
        cases hk : strictRepeat (strictExtract E) k r1 with
        | none => rw [hk] at h; cases h
        | some q =>
          obtain ⟨ys, r2⟩ := q
          rw [hk] at h
          simp only [Option.some.injEq, Prod.mk.injEq] at h
          obtain ⟨_, e⟩ := h
          subst e
          rcases extract_refines E cs E.dflt with ⟨h1, h2⟩ | ⟨_, h2⟩
          · rw [hi] at h2
            have e2 : r1 = (extract E ⟨cs, false⟩ E.dflt).1.rest :=
              congrArg Prod.snd (Option.some.inj h2)
            have heta := istream_eta _ h1
            simp only [countReadable, h1, Bool.false_eq_true, if_false]
            rw [heta, ← e2, ih n r1 ys r2 hk hr (by omega)]
          · rw [hi] at h2
            cases h2

/-- When every token after the count parses whole and there are fewer tokens than the
count says, the elements that can be extracted are these tokens. -/
theorem countReadable_tokens {α : Type} (E : Elem α) (hE : E.StopsAtBlank) (n : Nat)
    (cs : List Char) (hall : ∀ t ∈ tokens cs, (parseToken E t).isSome = true)
    (hlt : (tokens cs).length < n) :
    countReadable E n ⟨cs, false⟩ = (tokens cs).length ∧
    ∃ xs r, strictRepeat (strictExtract E) (tokens cs).length cs = some (xs, r) ∧
      xs.map some = (tokens cs).map (parseToken E) := by
  obtain ⟨xs, r, h1, h2, h3⟩ := strictRepeat_tokens E hE (tokens cs) cs rfl hall
  exact ⟨countReadable_of_strict E _ n cs xs r h1 (strictExtract_blank E r h3) hlt,
    xs, r, h1, h2⟩

/-- Counterexample to C2 as stated: the count 3 followed by the single token `1+2+3`,
which as a whole is no unsigned integer, is read as the sequence `[1, 2, 3]` with the
stream good, and the count 5 followed by the three tokens `1+2 3+4 5` is read as
`[1, 2, 3, 4, 5]` with the stream good. Fewer tokens than the count says follow the
count, yet the reader does not fail. -/
theorem count_integrity_counterexample :
    (tokens " 1+2+3".toList = ["1+2+3".toList] ∧
      parseToken uintElem "1+2+3".toList = none ∧
      operatorIn_vector uintElem ⟨"3 1+2+3".toList, false⟩ [] =
        some (⟨[], false⟩, [1, 2, 3])) ∧
    (tokens " 1+2 3+4 5".toList = ["1+2".toList, "3+4".toList, "5".toList] ∧
      operatorIn_vector uintElem ⟨"5 1+2 3+4 5".toList, false⟩ [] =
        some (⟨[], false⟩, [1, 2, 3, 4, 5])) := by
  refine ⟨⟨?_, ?_, ?_⟩, ?_, ?_⟩ <;> decide

/-- C2, amended: count integrity holds for the fields the reader extracts, not for
white-space delimited tokens. Once the count of a sequence is read as `n`, the sequence
reader returns, and it leaves the stream good exactly when `n` elements can be
extracted one after another from what follows, an element being the field that the
extraction of the element type accepts after the white space it skips. When fewer than
`n` can be extracted the fail flag of the stream is set, which is how `IO.h` reports
malformed input. In particular the fail flag is set when fewer than `n` tokens follow
the count and each of them parses whole as an element. -/
theorem count_integrity {α : Type} (E : Elem α) (s s1 : IStream) (n : Nat) (d : List α)
    (hcount : extractFresh uintElem s = some (s1, n)) :
    ∃ s' v, operatorIn_vector E s d = some (s', v) ∧
      (countReadable E n s1 < n → s'.fail = true) ∧
      (s'.fail = false ↔ s1.fail = false ∧ countReadable E n s1 = n) ∧
      (E.StopsAtBlank → s1.fail = false →
        (∀ t ∈ tokens s1.rest, (parseToken E t).isSome = true) →
        (tokens s1.rest).length < n → s'.fail = true) := by
  have hshort := indexLoop_short E n 0 s1 (resize E.dflt d n)
  refine ⟨(indexLoop (extract E) E.dflt n 0 s1 (resize E.dflt d n)).1,
    (indexLoop (extract E) E.dflt n 0 s1 (resize E.dflt d n)).2, ?_, hshort, ?_, ?_⟩
  · simp [operatorIn_vector, hcount]
  · constructor
    · intro hgood
      cases hf : s1.fail with
      | true =>
        have := indexLoop_fail_sticky (extract E) E.dflt (extract_sticky E) n 0 s1
          (resize E.dflt d n) hf
        rw [hgood] at this
        cases this
      | false =>
        refine ⟨rfl, ?_⟩
        rcases Nat.lt_or_ge (countReadable E n s1) n with hlt | hge
        · have := hshort hlt
          rw [hgood] at this
          cases this
        · exact Nat.le_antisymm (countReadable_le E n s1) hge
    · rintro ⟨hf, hc⟩
      exact indexLoop_full E n 0 s1 (resize E.dflt d n) hf hc
  · intro hE hf hall hlt
    apply hshort
    have h := (countReadable_tokens E hE n s1.rest hall hlt).1
    rw [← istream_eta s1 hf] at h
    omega

/-- Witness of C2, amended: a declared count of 5 followed by only the 3 tokens
`1 2 3`, each of which is an unsigned integer: the fail flag is set. -/
theorem count_integrity_witness :
    extractFresh uintElem ⟨"5 1 2 3".toList, false⟩ = some (⟨" 1 2 3".toList, false⟩, 5) ∧
    countReadable uintElem 5 ⟨" 1 2 3".toList, false⟩ = 3 ∧
    tokens " 1 2 3".toList = ["1".toList, "2".toList, "3".toList] ∧
    ∃ s' v, operatorIn_vector uintElem ⟨"5 1 2 3".toList, false⟩ [] = some (s', v) ∧
      s'.fail = true := by
  refine ⟨by decide, by decide, by decide, ?_⟩
  obtain ⟨s', v, h1, h2, _, _⟩ :=
    count_integrity uintElem ⟨"5 1 2 3".toList, false⟩ ⟨" 1 2 3".toList, false⟩ 5 []
      (by decide)
  exact ⟨s', v, h1, h2 (by decide)⟩

/-- Counterexample to C20 as stated: after the count 3 only the one token `1+2+3` is
present, yet the reader fills all three elements from it and leaves the stream good;
after the count 2 only the one token `1.5.25` is present and is read as the two
floating-point values 1.5 and 0.25, the stream staying good. -/
theorem vector_decode_length_counterexample :
    (tokens " 1+2+3".toList = ["1+2+3".toList] ∧
      operatorIn_vector uintElem ⟨"3 1+2+3".toList, false⟩ [9, 9, 9, 9] =
        some (⟨[], false⟩, [1, 2, 3])) ∧
    (tokens " 1.5.25".toList = ["1.5.25".toList] ∧
      operatorIn_vector (floatElem decFloating) ⟨"2 1.5.25".toList, false⟩ [] =
        some (⟨[], false⟩, [Dec.fin false 15 1, Dec.fin false 25 2])) := by
  refine ⟨⟨?_, ?_⟩, ?_, ?_⟩ <;> rfl

/-- C20, amended: once the count of a sequence has been read as `n`, the destination the
generic sequence reader hands back has exactly `n` elements, whether or not `n`
elements could be extracted. When only `k < n` elements can be extracted, an element
being the field that the extraction of the element type accepts after the white space
it skips, the first `k` elements of the destination are the `k` values read from the
stream, in order, and the stream is left in the fail state. In particular, when fewer
than `n` tokens follow the count and each of them parses whole as an element, the first
elements of the destination are the parsed tokens and the stream is left in the fail
state. -/
theorem vector_decode_length {α : Type} (E : Elem α) (s s1 : IStream) (n : Nat) (d : List α)
    (hcount : extractFresh uintElem s = some (s1, n)) :
    ∃ s' v, operatorIn_vector E s d = some (s', v) ∧ v.length = n ∧
      (countReadable E n s1 < n →
        s'.fail = true ∧
        ∃ xs r, strictRepeat (strictExtract E) (countReadable E n s1) s1.rest = some (xs, r) ∧
          xs.length = countReadable E n s1 ∧ v.take (countReadable E n s1) = xs) ∧
      (E.StopsAtBlank → s1.fail = false →
        (∀ t ∈ tokens s1.rest, (parseToken E t).isSome = true) →
        (tokens s1.rest).length < n →
        s'.fail = true ∧
          (v.take (tokens s1.rest).length).map some = (tokens s1.rest).map (parseToken E)) := by
  have hsz : (resize E.dflt d n).length = n := by
    simp only [resize, List.length_append, List.length_take, List.length_replicate]
    omega
  obtain ⟨xs, tail, r, e1, e2, e3, e4⟩ := indexLoop_prefix E n [] (resize E.dflt d n) s1 hsz
  simp only [List.length_nil, List.nil_append] at e1
  have hfield : countReadable E n s1 < n →
      (indexLoop (extract E) E.dflt n 0 s1 (resize E.dflt d n)).1.fail = true ∧
      ∃ xs r, strictRepeat (strictExtract E) (countReadable E n s1) s1.rest = some (xs, r) ∧
        xs.length = countReadable E n s1 ∧
        (indexLoop (extract E) E.dflt n 0 s1 (resize E.dflt d n)).2.take
          (countReadable E n s1) = xs := by
    intro hlt
    refine ⟨indexLoop_short E n 0 s1 (resize E.dflt d n) hlt, xs, r, e4, e2, ?_⟩
    rw [e1, ← e2, List.take_left]
  refine ⟨(indexLoop (extract E) E.dflt n 0 s1 (resize E.dflt d n)).1,
    (indexLoop (extract E) E.dflt n 0 s1 (resize E.dflt d n)).2, ?_, ?_, hfield, ?_⟩
  · simp [operatorIn_vector, hcount]
  · rw [e1, List.length_append]
    exact e3
  · intro hE hf hall hlt
    obtain ⟨hc, ys, r', g1, g2⟩ := countReadable_tokens E hE n s1.rest hall hlt
    rw [← istream_eta s1 hf] at hc
    obtain ⟨hfail, zs, _, k1, _, k3⟩ := hfield (by omega)
    refine ⟨hfail, ?_⟩
    rw [hc] at k1 k3
    rw [k1] at g1
    have e : zs = ys := congrArg Prod.fst (Option.some.inj g1)
    rw [k3, e, g2]

/-- Witness of C20, amended: the count 5 followed by the three tokens `1 2 3`, read into
the destination `[9, 9, 9, 9, 9, 9, 9]`, leaves five elements of which the first three
are 1, 2, 3, and the stream is left in the fail state. -/
theorem vector_decode_length_witness :
    extractFresh uintElem ⟨"5 1 2 3".toList, false⟩ = some (⟨" 1 2 3".toList, false⟩, 5) ∧
    operatorIn_vector uintElem ⟨"5 1 2 3".toList, false⟩ [9, 9, 9, 9, 9, 9, 9] =
      some (⟨[], true⟩, [1, 2, 3, 9, 9]) ∧
    countReadable uintElem 5 ⟨" 1 2 3".toList, false⟩ = 3 ∧
    ∃ s' v, operatorIn_vector uintElem ⟨"5 1 2 3".toList, false⟩ [9, 9, 9, 9, 9, 9, 9] =
        some (s', v) ∧ v.length = 5 ∧ s'.fail = true ∧
      (v.take 3).map some = (tokens " 1 2 3".toList).map (parseToken uintElem) := by
  refine ⟨by decide, by decide, by decide, ?_⟩
  obtain ⟨s', v, h1, h2, _, h4⟩ :=
    vector_decode_length uintElem ⟨"5 1 2 3".toList, false⟩ ⟨" 1 2 3".toList, false⟩ 5
      [9, 9, 9, 9, 9, 9, 9] (by decide)
  have h5 := h4 uintElem_stopsAtBlank rfl (by decide) (by decide)
  exact ⟨s', v, h1, h2, h5.1, h5.2⟩

/-! ## Decoding of a Cut (claim C14) -/

theorem tokens_cons_inv (cs t : List Char) (ts : List (List Char)) (h : tokens cs = t :: ts) :
    ∃ ws r, cs = ws ++ t ++ r ∧ Blank ws ∧ t ≠ [] ∧ (∀ c ∈ t, isspace c = false) ∧
      (r = [] ∨ StartsBlank r) ∧ tokens r = ts := by
  rcases tokens_cases cs with ⟨_, e⟩ | ⟨ws, t', r, hcs, hws, hne, hns, hr, e⟩
  · rw [h] at e
    cases e
  · rw [h] at e
    have e1 : t = t' := List.head_eq_of_cons_eq e
    have e2 : ts = tokens r := List.tail_eq_of_cons_eq e
    subst e1
    exact ⟨ws, r, hcs, hws, hne, hns, hr, e2.symm⟩

theorem tokenCut_some (G : Floating) (cs : List Char) (c : Cut G) (h : tokenCut G cs = some c) :
    ∃ t1 t2 t3 t4 rest, tokens cs = t1 :: t2 :: t3 :: t4 :: rest ∧
      parseToken uintElem t1 = some c.feature ∧ parseToken uintElem t2 = some c.index ∧
      parseToken boolElem t3 = some c.valid ∧ parseToken (floatElem G) t4 = some c.gain := by
  unfold tokenCut at h
  split at h
  · rename_i t1 t2 t3 t4 rest htok
    split at h
    · rename_i f i v g h1 h2 h3 h4
      have e := Option.some.inj h
      subst e
      exact ⟨t1, t2, t3, t4, rest, htok, h1, h2, h3, h4⟩
    · cases h
  · cases h

/-- Counterexample to C14 as stated: in `2 7 1.25 3` the third token, `1.25`, is no
`bool`, so the next four tokens do not parse as integer, integer, boolean and
floating-point value; yet the extraction of a Cut succeeds: the `bool` is read from `1`
and the gain from `.25`, three tokens are consumed, the stream stays good. The single
token `2+7-0.5` is read as a whole Cut in the same way. -/
theorem cut_decode_counterexample :
    (tokens "2 7 1.25 3".toList = ["2".toList, "7".toList, "1.25".toList, "3".toList] ∧
      parseToken boolElem "1.25".toList = none ∧
      tokenCut decFloating "2 7 1.25 3".toList = none ∧
      operatorIn_Cut decFloating ⟨"2 7 1.25 3".toList, false⟩ zeroCut =
        (⟨" 3".toList, false⟩, ⟨2, 7, true, Dec.fin false 25 2⟩)) ∧
    (tokens "2+7-0.5".toList = ["2+7-0.5".toList] ∧
      tokenCut decFloating "2+7-0.5".toList = none ∧
      operatorIn_Cut decFloating ⟨"2+7-0.5".toList, false⟩ zeroCut =
        (⟨[], false⟩, ⟨2, 7, false, Dec.fin false 5 1⟩)) := by
  refine ⟨⟨?_, ?_, ?_, ?_⟩, ?_, ?_, ?_⟩ <;> rfl

/-- C14, amended: the extraction of a Cut from a good stream succeeds, leaving the
stream good, exactly when four fields can be extracted one after another as an
unsigned integer, an unsigned integer, a `bool` and a floating-point value, a field
being the characters that the extraction of its type accepts after the white space it
skips; the Cut then holds these four values as feature, index, valid and gain, and the
stream stands right after the fourth field. In every other case the fail flag of the
stream is set. When the next four white-space delimited tokens exist and parse whole as
these four types, they are the four fields: the Cut holds the values of the four tokens
and exactly four tokens are consumed. A field can end inside a token, so the success of
the extraction does not imply that four such tokens exist. -/
theorem cut_decode_iff (G : Floating) (cs : List Char) (cur : Cut G) :
    ((operatorIn_Cut G ⟨cs, false⟩ cur).1.fail = false ↔
      ∃ feature index valid gain r1 r2 r3 r4,
        strictExtract uintElem cs = some (feature, r1) ∧
        strictExtract uintElem r1 = some (index, r2) ∧
        strictExtract boolElem r2 = some (valid, r3) ∧
        strictExtract (floatElem G) r3 = some (gain, r4)) ∧
    (∀ feature index valid gain r1 r2 r3 r4,
        strictExtract uintElem cs = some (feature, r1) →
        strictExtract uintElem r1 = some (index, r2) →
        strictExtract boolElem r2 = some (valid, r3) →
        strictExtract (floatElem G) r3 = some (gain, r4) →
        operatorIn_Cut G ⟨cs, false⟩ cur = (⟨r4, false⟩, ⟨feature, index, valid, gain⟩)) ∧
    ((¬ ∃ feature index valid gain r1 r2 r3 r4,
        strictExtract uintElem cs = some (feature, r1) ∧
        strictExtract uintElem r1 = some (index, r2) ∧
        strictExtract boolElem r2 = some (valid, r3) ∧
        strictExtract (floatElem G) r3 = some (gain, r4)) →
      (operatorIn_Cut G ⟨cs, false⟩ cur).1.fail = true) ∧
    (∀ c, tokenCut G cs = some c →
      ∃ r, operatorIn_Cut G ⟨cs, false⟩ cur = (⟨r, false⟩, c) ∧
        tokens r = (tokens cs).drop 4) := by
  have hsucc : ∀ feature index valid gain r1 r2 r3 r4,
      strictExtract uintElem cs = some (feature, r1) →
      strictExtract uintElem r1 = some (index, r2) →
      strictExtract boolElem r2 = some (valid, r3) →
      strictExtract (floatElem G) r3 = some (gain, r4) →
      operatorIn_Cut G ⟨cs, false⟩ cur = (⟨r4, false⟩, ⟨feature, index, valid, gain⟩) := by
    intro feature index valid gain r1 r2 r3 r4 h1 h2 h3 h4
    have hs : strictCut G cs = some (⟨feature, index, valid, gain⟩, r4) :=
      (strictCut_iff G cs r4 ⟨feature, index, valid, gain⟩).2 ⟨r1, r2, r3, h1, h2, h3, h4⟩
    rcases operatorIn_Cut_refines G cs cur with ⟨hf, he⟩ | ⟨_, he⟩
    · rw [hs] at he
      have e := Option.some.inj he
      have e1 := congrArg Prod.fst e
      have e2 := congrArg Prod.snd e
      simp only [] at e1 e2
      apply Prod.ext
      · rw [istream_eta _ hf, ← e2]
      · exact e1.symm
    · rw [hs] at he
      cases he
  have hiff : (operatorIn_Cut G ⟨cs, false⟩ cur).1.fail = false ↔
      ∃ feature index valid gain r1 r2 r3 r4,
        strictExtract uintElem cs = some (feature, r1) ∧
        strictExtract uintElem r1 = some (index, r2) ∧
        strictExtract boolElem r2 = some (valid, r3) ∧
        strictExtract (floatElem G) r3 = some (gain, r4) := by
    constructor
    · intro hf
      rcases operatorIn_Cut_refines G cs cur with ⟨_, he⟩ | ⟨hf', _⟩
      · obtain ⟨r1, r2, r3, h1, h2, h3, h4⟩ := (strictCut_iff G cs _ _).1 he
        exact ⟨_, _, _, _, r1, r2, r3, _, h1, h2, h3, h4⟩
      · rw [hf] at hf'
        cases hf'
    · rintro ⟨feature, index, valid, gain, r1, r2, r3, r4, h1, h2, h3, h4⟩
      rw [hsucc feature index valid gain r1 r2 r3 r4 h1 h2 h3 h4]
  refine ⟨hiff, hsucc, ?_, ?_⟩
  · intro hno
    cases hf : (operatorIn_Cut G ⟨cs, false⟩ cur).1.fail with
    | true => rfl
    | false => exact absurd (hiff.1 hf) hno
  · intro c hc
    obtain ⟨t1, t2, t3, t4, rest, htok, p1, p2, p3, p4⟩ := tokenCut_some G cs c hc
    obtain ⟨ws1, r1, e1, b1, n1, s1, q1, k1⟩ := tokens_cons_inv cs t1 _ htok
    obtain ⟨ws2, r2, e2, b2, n2, s2, q2, k2⟩ := tokens_cons_inv r1 t2 _ k1
    obtain ⟨ws3, r3, e3, b3, n3, s3, q3, k3⟩ := tokens_cons_inv r2 t3 _ k2
    obtain ⟨ws4, r4, e4, b4, n4, s4, q4, k4⟩ := tokens_cons_inv r3 t4 _ k3
    refine ⟨r4, ?_, ?_⟩
    · apply hsucc c.feature c.index c.valid c.gain r1 r2 r3 r4
      · rw [e1]
        exact strictExtract_token uintElem uintElem_stopsAtBlank ws1 t1 r1 _ b1 n1 s1 q1 p1
      · rw [e2]
        exact strictExtract_token uintElem uintElem_stopsAtBlank ws2 t2 r2 _ b2 n2 s2 q2 p2
      · rw [e3]
        exact strictExtract_token boolElem boolElem_stopsAtBlank ws3 t3 r3 _ b3 n3 s3 q3 p3
      · rw [e4]
        exact strictExtract_token (floatElem G) (floatElem_stopsAtBlank G) ws4 t4 r4 _ b4 n4
          s4 q4 p4
    · rw [htok, k4]
      rfl


/-- Witness of C14, amended: the four tokens `2 7 1 1.25` are read as the example Cut,
the token `rest` staying unread, and the stream `2 7 x 1.25`, whose third field is no
`bool`, sets the fail flag. -/
theorem cut_decode_iff_witness :
    tokenCut decFloating "2 7 1 1.25 rest".toList = some exampleCut ∧
    (∃ r, operatorIn_Cut decFloating ⟨"2 7 1 1.25 rest".toList, false⟩ zeroCut =
        (⟨r, false⟩, exampleCut) ∧ tokens r = ["rest".toList]) ∧
    operatorIn_Cut decFloating ⟨"2 7 1 1.25 rest".toList, false⟩ zeroCut =
      (⟨" rest".toList, false⟩, exampleCut) ∧
    (operatorIn_Cut decFloating ⟨"2 7 x 1.25".toList, false⟩ zeroCut).1.fail = true :=
  ⟨by rfl,
    (cut_decode_iff decFloating "2 7 1 1.25 rest".toList zeroCut).2.2.2 exampleCut (by rfl),
    (cut_decode_iff decFloating "2 7 1 1.25 rest".toList zeroCut).2.1 2 7 true
      (Dec.fin false 125 2) " 7 1 1.25 rest".toList " 1 1.25 rest".toList
      " 1.25 rest".toList " rest".toList (by rfl) (by rfl) (by rfl) (by rfl),
    by rfl⟩

/-! ## Decode failures (claim C3) -/

theorem extractFresh_isSome {α : Type} (E : Elem α) (r : List Char) :
    (∃ p, extractFresh E ⟨r, false⟩ = some p) ↔ ¬ Blank r := by
  rw [← blank_iff]
  unfold extractFresh
  simp only [Bool.false_eq_true, if_false]
  cases r.dropWhile isspace with
  | nil => simp
  | cons a u => simp

theorem operatorIn_vector_isSome {α : Type} (E : Elem α) (r : List Char) (d : List α) :
    (∃ p, operatorIn_vector E ⟨r, false⟩ d = some p) ↔ ¬ Blank r := by
  rw [← extractFresh_isSome uintElem r]
  unfold operatorIn_vector
  cases extractFresh uintElem ⟨r, false⟩ with
  | none => simp
  | some p => simp

theorem cuts_of_strict (G : Floating) (cut0 : Cut G) (n : Nat) (r r1 : List Char)
    (cuts : List (Cut G)) (h : strictRepeat (strictCut G) n r = some (cuts, r1)) :
    indexLoop (operatorIn_Cut G) cut0 n 0 ⟨r, false⟩ (List.replicate n cut0) =
      (⟨r1, false⟩, cuts) := by
  have hl := indexLoop_refines (operatorIn_Cut G) cut0 (strictCut G)
    (operatorIn_Cut_refines G) (operatorIn_Cut_sticky G) n [] (List.replicate n cut0) r (by simp)
  simp only [List.length_nil, List.nil_append] at hl
  rcases hl with ⟨h1, xs, h2, h3⟩ | ⟨_, h2⟩
  · rw [h] at h2
    have e := Option.some.inj h2
    have e1 : cuts = xs := congrArg Prod.fst e
    have e2 : r1 = (indexLoop (operatorIn_Cut G) cut0 n 0 ⟨r, false⟩
      (List.replicate n cut0)).1.rest := congrArg Prod.snd e
    apply Prod.ext
    · rw [istream_eta _ h1, ← e2]
    · rw [h3, e1]
  · rw [h] at h2
    cases h2

/-- The Tree reader on a stream whose cut count, Cuts and boost weights decode: the
result is that of the sequence reader on the rest, which supplies the purities. -/
theorem readTree_of_head (G W : Floating) (cut0 : Cut G) (cs r r1 r2 : List Char) (n : Nat)
    (cuts : List (Cut G)) (bw : List W.α)
    (h1 : strictExtract uintElem cs = some (n, r))
    (h2 : strictRepeat (strictCut G) n r = some (cuts, r1))
    (h3 : strictVector (floatElem W) r1 = some (bw, r2)) :
    readTreeFromStream G W cut0 ⟨cs, false⟩ =
      match operatorIn_vector (floatElem W) ⟨r2, false⟩ [] with
      | none => none
      | some (s', purities) => some (s', ⟨cuts, purities, bw⟩) := by
  unfold readTreeFromStream
  rw [extractFresh_of_strict uintElem cs r n h1]
  simp only []
  rw [cuts_of_strict G cut0 n r r1 cuts h2]
  simp only []
  rw [operatorIn_vector_of_strict (floatElem W) r1 r2 bw h3 []]

/-- Whenever the Tree reader returns a Tree, the cut count, the Cuts and the boost
weights decode, and the purities and the final stream are those of the sequence reader
on the rest. -/
theorem readTree_inv (G W : Floating) (cut0 : Cut G) (cs : List Char) (s' : IStream)
    (t : Tree G W) (h : readTreeFromStream G W cut0 ⟨cs, false⟩ = some (s', t)) :
    ∃ n r cuts r1 bw r2, strictExtract uintElem cs = some (n, r) ∧
      strictRepeat (strictCut G) n r = some (cuts, r1) ∧
      strictVector (floatElem W) r1 = some (bw, r2) ∧
      operatorIn_vector (floatElem W) ⟨r2, false⟩ [] = some (s', t.purities) ∧
      t.cuts = cuts ∧ t.boostWeights = bw := by
  cases h1 : strictExtract uintElem cs with
  | none =>
    exfalso
    have h0 := extractFresh_refines uintElem cs
    rw [h1] at h0
    unfold readTreeFromStream at h
    cases he : extractFresh uintElem ⟨cs, false⟩ with
    | none => rw [he] at h; cases h
    | some p =>
      obtain ⟨s1, n⟩ := p
      rw [he] at h0 h
      simp only [Refines] at h0
      simp only [] at h
      rcases h0 with ⟨_, e⟩ | ⟨hf, _⟩
      · cases e
      · have hd := indexLoop_fail_sticky (operatorIn_Cut G) cut0 (operatorIn_Cut_sticky G)
          n 0 s1 (List.replicate n cut0) hf
        rw [operatorIn_vector_dead (floatElem W) _ [] hd] at h
        cases h
  | some p =>
    obtain ⟨n, r⟩ := p
    have he := extractFresh_of_strict uintElem cs r n h1
    cases h2 : strictRepeat (strictCut G) n r with
    | none =>
      exfalso
      unfold readTreeFromStream at h
      rw [he] at h
      simp only [] at h
      have hl := indexLoop_refines (operatorIn_Cut G) cut0 (strictCut G)
        (operatorIn_Cut_refines G) (operatorIn_Cut_sticky G) n [] (List.replicate n cut0) r
        (by simp)
      simp only [List.length_nil, List.nil_append] at hl
      rcases hl with ⟨_, xs, e, _⟩ | ⟨hf, _⟩
      · rw [h2] at e
        cases e
      · rw [operatorIn_vector_dead (floatElem W) _ [] hf] at h
        cases h
    | some q =>
      obtain ⟨cuts, r1⟩ := q
      cases h3 : strictVector (floatElem W) r1 with
      | none =>
        exfalso
        unfold readTreeFromStream at h
        rw [he] at h
        simp only [] at h
        rw [cuts_of_strict G cut0 n r r1 cuts h2] at h
        simp only [] at h
        have hb := operatorIn_vector_refines (floatElem W) r1 []
        rw [h3] at hb
        cases hbw : operatorIn_vector (floatElem W) ⟨r1, false⟩ [] with
        | none => rw [hbw] at h; cases h
        | some q2 =>
          obtain ⟨s2, bw⟩ := q2
          rw [hbw] at hb h
          simp only [Refines] at hb
          simp only [] at h
          rcases hb with ⟨_, e⟩ | ⟨hf, _⟩
          · cases e
          · rw [operatorIn_vector_dead (floatElem W) s2 [] hf] at h
            cases h
      | some q3 =>
        obtain ⟨bw, r2⟩ := q3
        rw [readTree_of_head G W cut0 cs r r1 r2 n cuts bw h1 h2 h3] at h
        cases hp : operatorIn_vector (floatElem W) ⟨r2, false⟩ [] with
        | none => rw [hp] at h; cases h
        | some q4 =>
          obtain ⟨s4, pur⟩ := q4
          rw [hp] at h
          simp only [Option.some.injEq, Prod.mk.injEq] at h
          obtain ⟨e1, e2⟩ := h
          subst e1
          subst e2
          exact ⟨n, r, cuts, r1, bw, r2, rfl, h2, h3, hp, rfl, rfl⟩

theorem forestLoop_dead (D G W : Floating) (cut0 : Cut G) (k : Nat) (s : IStream)
    (F : Forest D G W) (h : s.fail = true) : forestLoop D G W cut0 (k + 1) s F = none := by
  simp [forestLoop, readTreeFromStream_dead G W cut0 s h]

/-- The loop over the Tree blocks with at least one iteration: all blocks but the last
have to decode, and the result is that of the Tree reader on the last block. -/
theorem forestLoop_succ (D G W : Floating) (cut0 : Cut G) :
    ∀ (k : Nat) (cs : List Char) (F : Forest D G W),
      forestLoop D G W cut0 (k + 1) ⟨cs, false⟩ F =
        match strictRepeat (strictTree G W) k cs with
        | none => none
        | some (ts, r) =>
          match readTreeFromStream G W cut0 ⟨r, false⟩ with
          | none => none
          | some (s', t) => some (s', ⟨F.shrinkage, F.F0, F.forest ++ ts ++ [t]⟩) := by
  have step : ∀ (k : Nat) (s : IStream) (F : Forest D G W),
      forestLoop D G W cut0 (k + 1) s F =
        match readTreeFromStream G W cut0 s with
        | none => none
        | some (s1, t) => forestLoop D G W cut0 k s1 (F.AddTree t) := fun _ _ _ => rfl
  intro k
  induction k with
  | zero =>
    intro cs F
    rw [step 0]
    simp only [strictRepeat]
    cases readTreeFromStream G W cut0 ⟨cs, false⟩ with
    | none => rfl
    | some p => simp [forestLoop, Forest.AddTree]
  | succ k ih =>
    intro cs F
    rw [step (k + 1)]
    have hr := readTreeFromStream_refines G W cut0 cs
    cases hres : readTreeFromStream G W cut0 ⟨cs, false⟩ with
    | none =>
      rw [hres] at hr
      simp only [Refines] at hr
      simp only [strictRepeat, hr]
    | some p =>
      obtain ⟨s1, t⟩ := p
      rw [hres] at hr
      simp only [Refines] at hr
      simp only []
      rcases hr with ⟨hf, hs⟩ | ⟨hf, hs⟩
      · rw [istream_eta s1 hf, ih s1.rest (F.AddTree t)]
        simp only [strictRepeat, hs]
        cases strictRepeat (strictTree G W) k s1.rest with
        | none => rfl
        | some q =>
          obtain ⟨ts, r⟩ := q
          simp only []
          cases readTreeFromStream G W cut0 ⟨r, false⟩ with
          | none => rfl
          | some q2 => simp [Forest.AddTree]
      · rw [forestLoop_dead D G W cut0 k s1 _ hf]
        simp only [strictRepeat, hs]

/-- The Forest reader on a stream whose `F0` and `shrinkage` decode: the result is
that of the loop over the Tree blocks, run as often as the extracted count says. -/
theorem readForest_of_head (D G W : Floating) (cut0 : Cut G) (cs r1 r2 : List Char)
    (F0 shrinkage : D.α)
    (h1 : strictExtract (floatElem D) cs = some (F0, r1))
    (h2 : strictExtract (floatElem D) r1 = some (shrinkage, r2)) :
    readForestFromStream D G W cut0 ⟨cs, false⟩ =
      match extractFresh uintElem ⟨r2, false⟩ with
      | none => none
      | some (s3, n) => forestLoop D G W cut0 n s3 (Forest.new shrinkage F0) := by
  unfold readForestFromStream
  rw [extractFresh_of_strict (floatElem D) cs r1 F0 h1]
  simp only []
  rw [extractFresh_of_strict (floatElem D) r1 r2 shrinkage h2]

/-- Whenever the Forest reader returns a Forest, `F0` and `shrinkage` decode, the count
is extracted, and the Forest and the final stream are those of the loop over the Tree
blocks. -/
theorem readForest_inv (D G W : Floating) (cut0 : Cut G) (cs : List Char) (s' : IStream)
    (F : Forest D G W) (h : readForestFromStream D G W cut0 ⟨cs, false⟩ = some (s', F)) :
    ∃ F0 r1 shrinkage r2 s3 n, strictExtract (floatElem D) cs = some (F0, r1) ∧
      strictExtract (floatElem D) r1 = some (shrinkage, r2) ∧
      extractFresh uintElem ⟨r2, false⟩ = some (s3, n) ∧
      forestLoop D G W cut0 n s3 (Forest.new shrinkage F0) = some (s', F) := by
  cases h1 : strictExtract (floatElem D) cs with
  | none =>
    exfalso
    have h0 := extractFresh_refines (floatElem D) cs
    rw [h1] at h0
    unfold readForestFromStream at h
    cases he : extractFresh (floatElem D) ⟨cs, false⟩ with
    | none => rw [he] at h; cases h
    | some p =>
      obtain ⟨s1, x⟩ := p
      rw [he] at h0 h
      simp only [Refines] at h0
      simp only [] at h
      rcases h0 with ⟨_, e⟩ | ⟨hf, _⟩
      · cases e
      · rw [extractFresh_dead (floatElem D) s1 hf] at h
        cases h
  | some p =>
    obtain ⟨F0, r1⟩ := p
    have he1 := extractFresh_of_strict (floatElem D) cs r1 F0 h1
    cases h2 : strictExtract (floatElem D) r1 with
    | none =>
      exfalso
      have h0 := extractFresh_refines (floatElem D) r1
      rw [h2] at h0
      unfold readForestFromStream at h
      rw [he1] at h
      simp only [] at h
      cases he : extractFresh (floatElem D) ⟨r1, false⟩ with
      | none => rw [he] at h; cases h
      | some p =>
        obtain ⟨s2, x⟩ := p
        rw [he] at h0 h
        simp only [Refines] at h0
        simp only [] at h
        rcases h0 with ⟨_, e⟩ | ⟨hf, _⟩
        · cases e
        · rw [extractFresh_dead uintElem s2 hf] at h
          cases h
    | some q =>
      obtain ⟨shrinkage, r2⟩ := q
      rw [readForest_of_head D G W cut0 cs r1 r2 F0 shrinkage h1 h2] at h
      cases he : extractFresh uintElem ⟨r2, false⟩ with
      | none => rw [he] at h; cases h
      | some p =>
        obtain ⟨s3, n⟩ := p
        rw [he] at h
        exact ⟨F0, r1, shrinkage, r2, s3, n, rfl, h2, he, h⟩

theorem operatorIn_vector_length {α : Type} (E : Elem α) (s s' : IStream) (d v : List α)
    (h : operatorIn_vector E s d = some (s', v)) :
    ∃ s1 n, extractFresh uintElem s = some (s1, n) ∧ v.length = n := by
  unfold operatorIn_vector at h
  cases he : extractFresh uintElem s with
  | none => rw [he] at h; cases h
  | some p =>
    obtain ⟨s1, n⟩ := p
    rw [he] at h
    simp only [Option.some.injEq] at h
    have hsz : (resize E.dflt d n).length = n := by
      simp only [resize, List.length_append, List.length_take, List.length_replicate]
      omega
    obtain ⟨xs, tail, r, e1, _, e3, _⟩ := indexLoop_prefix E n [] (resize E.dflt d n) s1 hsz
    simp only [List.length_nil, List.nil_append] at e1
    refine ⟨s1, n, rfl, ?_⟩
    rw [h] at e1
    simp only [] at e1
    rw [e1, List.length_append]
    exact e3

theorem returnsTree_iff (G W : Floating) (cut0 : Cut G) (cs : List Char) :
    (∃ s' t, readTreeFromStream G W cut0 ⟨cs, false⟩ = some (s', t)) ↔ ReturnsTree G W cs := by
  constructor
  · rintro ⟨s', t, h⟩
    obtain ⟨n, r, cuts, r1, bw, r2, h1, h2, h3, h4, _, _⟩ := readTree_inv G W cut0 cs s' t h
    exact ⟨n, r, cuts, r1, bw, r2, h1, h2, h3,
      (operatorIn_vector_isSome (floatElem W) r2 []).1 ⟨_, h4⟩⟩
  · rintro ⟨n, r, cuts, r1, bw, r2, h1, h2, h3, h4⟩
    obtain ⟨⟨s', p⟩, hp⟩ := (operatorIn_vector_isSome (floatElem W) r2 []).2 h4
    refine ⟨s', ⟨cuts, p, bw⟩, ?_⟩
    rw [readTree_of_head G W cut0 cs r r1 r2 n cuts bw h1 h2 h3, hp]

theorem forestLoop_inv (D G W : Floating) (cut0 : Cut G) (k : Nat) (s3 s' : IStream)
    (F1 F : Forest D G W) (h : forestLoop D G W cut0 (k + 1) s3 F1 = some (s', F)) :
    s3.fail = false ∧ ∃ ts r t, strictRepeat (strictTree G W) k s3.rest = some (ts, r) ∧
      readTreeFromStream G W cut0 ⟨r, false⟩ = some (s', t) ∧
      F = ⟨F1.shrinkage, F1.F0, F1.forest ++ ts ++ [t]⟩ := by
  cases hf : s3.fail with
  | true =>
    rw [forestLoop_dead D G W cut0 k s3 F1 hf] at h
    cases h
  | false =>
    refine ⟨rfl, ?_⟩
    rw [istream_eta s3 hf, forestLoop_succ D G W cut0 k s3.rest F1] at h
    cases hk : strictRepeat (strictTree G W) k s3.rest with
    | none => rw [hk] at h; cases h
    | some q =>
      obtain ⟨ts, r⟩ := q
      rw [hk] at h
      simp only [] at h
      cases ht : readTreeFromStream G W cut0 ⟨r, false⟩ with
      | none => rw [ht] at h; cases h
      | some q2 =>
        obtain ⟨s2, t⟩ := q2
        rw [ht] at h
        simp only [Option.some.injEq, Prod.mk.injEq] at h
        obtain ⟨e1, e2⟩ := h
        subst e1
        exact ⟨ts, r, t, rfl, ht, e2.symm⟩

theorem returnsForest_iff (D G W : Floating) (cut0 : Cut G) (cs : List Char) :
    (∃ s' F, readForestFromStream D G W cut0 ⟨cs, false⟩ = some (s', F)) ↔
      ReturnsForest D G W cs := by
  constructor
  · rintro ⟨s', F, h⟩
    obtain ⟨F0, r1, sh, r2, s3, n, h1, h2, h3, h4⟩ := readForest_inv D G W cut0 cs s' F h
    refine ⟨F0, r1, sh, r2, s3, n, h1, h2, h3, ?_⟩
    cases n with
    | zero => left; rfl
    | succ k =>
      right
      obtain ⟨hf, ts, r, t, g1, g2, _⟩ := forestLoop_inv D G W cut0 k s3 s' _ F h4
      exact ⟨hf, ts, r, g1, (returnsTree_iff G W cut0 r).1 ⟨s', t, g2⟩⟩
  · rintro ⟨F0, r1, sh, r2, s3, n, h1, h2, h3, h4⟩
    rw [readForest_of_head D G W cut0 cs r1 r2 F0 sh h1 h2, h3]
    simp only []
    cases n with
    | zero => exact ⟨s3, _, rfl⟩
    | succ k =>
      rcases h4 with e | ⟨hf, ts, r, g1, g2⟩
      · cases e
      · obtain ⟨s', t, ht⟩ := (returnsTree_iff G W cut0 r).2 g2
        simp only [Nat.add_sub_cancel] at g1
        rw [istream_eta s3 hf, forestLoop_succ D G W cut0 k s3.rest, g1]
        simp only []
        rw [ht]
        exact ⟨s', _, rfl⟩

theorem readers_refine_core (D G W : Floating) (cut0 : Cut G) (cs : List Char) :
    (∀ F r, strictForest D G W cs = some (F, r) →
      readForestFromStream D G W cut0 ⟨cs, false⟩ = some (⟨r, false⟩, F)) ∧
    (strictForest D G W cs = none →
      ∀ s' F, readForestFromStream D G W cut0 ⟨cs, false⟩ = some (s', F) → s'.fail = true) ∧
    (∀ t r, strictTree G W cs = some (t, r) →
      readTreeFromStream G W cut0 ⟨cs, false⟩ = some (⟨r, false⟩, t)) ∧
    (strictTree G W cs = none →
      ∀ s' t, readTreeFromStream G W cut0 ⟨cs, false⟩ = some (s', t) → s'.fail = true) := by
  have hF := readForestFromStream_refines D G W cut0 cs
  have hT := readTreeFromStream_refines G W cut0 cs
  refine ⟨?_, ?_, ?_, ?_⟩
  · intro F r h
    cases hr : readForestFromStream D G W cut0 ⟨cs, false⟩ with
    | none =>
      rw [hr] at hF
      simp only [Refines] at hF
      rw [hF] at h
      cases h
    | some p =>
      obtain ⟨s', F'⟩ := p
      rw [hr] at hF
      simp only [Refines] at hF
      rcases hF with ⟨h1, h2⟩ | ⟨_, h2⟩
      · rw [h2] at h
        have e := Option.some.inj h
        have e1 : F' = F := congrArg Prod.fst e
        have e2 : s'.rest = r := congrArg Prod.snd e
        rw [istream_eta s' h1, e1, e2]
      · rw [h2] at h
        cases h
  · intro h s' F hr
    rw [hr] at hF
    simp only [Refines] at hF
    rcases hF with ⟨_, h2⟩ | ⟨h1, _⟩
    · rw [h2] at h
      cases h
    · exact h1
  · intro t r h
    cases hr : readTreeFromStream G W cut0 ⟨cs, false⟩ with
    | none =>
      rw [hr] at hT
      simp only [Refines] at hT
      rw [hT] at h
      cases h
    | some p =>
      obtain ⟨s', t'⟩ := p
      rw [hr] at hT
      simp only [Refines] at hT
      rcases hT with ⟨h1, h2⟩ | ⟨_, h2⟩
      · rw [h2] at h
        have e := Option.some.inj h
        have e1 : t' = t := congrArg Prod.fst e
        have e2 : s'.rest = r := congrArg Prod.snd e
        rw [istream_eta s' h1, e1, e2]
      · rw [h2] at h
        cases h
  · intro h s' t hr
    rw [hr] at hT
    simp only [Refines] at hT
    rcases hT with ⟨_, h2⟩ | ⟨h1, _⟩
    · rw [h2] at h
      cases h
    · exact h1


/-- Counterexample to C3 as stated: on the stream `0.5 0.1 1 0 0 2 0.25`, whose last
sequence declares two purities and holds one, the all-or-nothing decoding fails, yet
the Forest reader returns a Forest: its Tree holds the purity that was decoded and a
zero in place of the missing one, and only the fail flag of the stream tells. The Tree
reader does the same on the Tree block `0 0 2 0.25`. On the streams `0.5 0.1`, which
ends before the tree count, and `0.5 0.1 1 1 2 7 x 1.25 0 0`, whose Cut does not
decode, and on the Tree block `0 2 0.5`, whose boost weights are cut short, a count is
never written and the readers have no defined result at all. -/
theorem decode_all_or_nothing_counterexample :
    (strictForest decFloating decFloating decFloating "0.5 0.1 1 0 0 2 0.25".toList = none ∧
      readForestFromStream decFloating decFloating decFloating zeroCut
          ⟨"0.5 0.1 1 0 0 2 0.25".toList, false⟩ =
        some (⟨[], true⟩,
          ⟨.fin false 1 1, .fin false 5 1, [⟨[], [.fin false 25 2, .fin false 0 0], []⟩]⟩) ∧
      readTreeFromStream decFloating decFloating zeroCut ⟨"0 0 2 0.25".toList, false⟩ =
        some (⟨[], true⟩, ⟨[], [.fin false 25 2, .fin false 0 0], []⟩)) ∧
    (readForestFromStream decFloating decFloating decFloating zeroCut
        ⟨"0.5 0.1".toList, false⟩ = none ∧
      readForestFromStream decFloating decFloating decFloating zeroCut
        ⟨"0.5 0.1 1 1 2 7 x 1.25 0 0".toList, false⟩ = none ∧
      readTreeFromStream decFloating decFloating zeroCut ⟨"0 2 0.5".toList, false⟩ = none) := by
  refine ⟨⟨?_, ?_, ?_⟩, ?_, ?_, ?_⟩ <;> rfl

/-- C3, amended: a decode failure is reported through the fail state of the stream and
through nothing else; neither reader tests the stream state. On every stream that the
all-or-nothing decoding of a Forest accepts, the Forest reader returns the decoded
Forest and leaves the stream good; on every stream on which the decoding of some part
fails, whenever the Forest reader returns a Forest the fail flag of the stream is set.
The same holds of the Tree reader. The Tree reader returns a Tree exactly when the cut
count, the Cuts and the boost weights decode and a non-blank character follows them;
the Tree then holds the decoded Cuts and boost weights, and its purities are what the
sequence reader makes of the rest of the stream: a sequence of the extracted length,
whether or not that many values could be read. The Forest reader returns a Forest
exactly when `F0` and `shrinkage` decode, a non-blank character follows them, and the
tree count is either stored as zero or read as a positive `n`, the first `n - 1` Tree
blocks decode and the Tree reader returns a Tree on the last one; the Forest then holds
`F0`, `shrinkage` and `n` Trees, the decoded ones and the one returned last. On every
other stream an extraction leaves a freshly declared local unwritten and the reader has
no defined result. -/
theorem decode_failure_reporting (D G W : Floating) (cut0 : Cut G) (cs : List Char) :
    (∀ F r, strictForest D G W cs = some (F, r) →
      readForestFromStream D G W cut0 ⟨cs, false⟩ = some (⟨r, false⟩, F)) ∧
    (strictForest D G W cs = none →
      ∀ s' F, readForestFromStream D G W cut0 ⟨cs, false⟩ = some (s', F) → s'.fail = true) ∧
    (∀ t r, strictTree G W cs = some (t, r) →
      readTreeFromStream G W cut0 ⟨cs, false⟩ = some (⟨r, false⟩, t)) ∧
    (strictTree G W cs = none →
      ∀ s' t, readTreeFromStream G W cut0 ⟨cs, false⟩ = some (s', t) → s'.fail = true) ∧
    ((∃ s' t, readTreeFromStream G W cut0 ⟨cs, false⟩ = some (s', t)) ↔ ReturnsTree G W cs) ∧
    (∀ s' t, readTreeFromStream G W cut0 ⟨cs, false⟩ = some (s', t) →
      ∃ n r cuts r1 bw r2 s3 m, strictExtract uintElem cs = some (n, r) ∧
        strictRepeat (strictCut G) n r = some (cuts, r1) ∧
        strictVector (floatElem W) r1 = some (bw, r2) ∧
        extractFresh uintElem ⟨r2, false⟩ = some (s3, m) ∧
        operatorIn_vector (floatElem W) ⟨r2, false⟩ [] = some (s', t.purities) ∧
        t.cuts = cuts ∧ t.boostWeights = bw ∧ t.purities.length = m) ∧
    ((∃ s' F, readForestFromStream D G W cut0 ⟨cs, false⟩ = some (s', F)) ↔
      ReturnsForest D G W cs) ∧
    (∀ s' F, readForestFromStream D G W cut0 ⟨cs, false⟩ = some (s', F) →
      ∃ F0 r1 shrinkage r2 s3 n, strictExtract (floatElem D) cs = some (F0, r1) ∧
        strictExtract (floatElem D) r1 = some (shrinkage, r2) ∧
        extractFresh uintElem ⟨r2, false⟩ = some (s3, n) ∧
        F.F0 = F0 ∧ F.shrinkage = shrinkage ∧ F.forest.length = n ∧
        (0 < n → ∃ ts r t, strictRepeat (strictTree G W) (n - 1) s3.rest = some (ts, r) ∧
          readTreeFromStream G W cut0 ⟨r, false⟩ = some (s', t) ∧ F.forest = ts ++ [t])) := by
  obtain ⟨c1, c2, c3, c4⟩ := readers_refine_core D G W cut0 cs
  refine ⟨c1, c2, c3, c4, returnsTree_iff G W cut0 cs, ?_, returnsForest_iff D G W cut0 cs, ?_⟩
  · intro s' t h
    obtain ⟨n, r, cuts, r1, bw, r2, h1, h2, h3, h4, h5, h6⟩ := readTree_inv G W cut0 cs s' t h
    obtain ⟨s3, m, g1, g2⟩ := operatorIn_vector_length (floatElem W) _ s' [] t.purities h4
    exact ⟨n, r, cuts, r1, bw, r2, s3, m, h1, h2, h3, g1, h4, h5, h6, g2⟩
  · intro s' F h
    obtain ⟨F0, r1, sh, r2, s3, n, h1, h2, h3, h4⟩ := readForest_inv D G W cut0 cs s' F h
    refine ⟨F0, r1, sh, r2, s3, n, h1, h2, h3, ?_⟩
    cases n with
    | zero =>
      simp only [forestLoop, Option.some.injEq, Prod.mk.injEq] at h4
      rw [← h4.2]
      exact ⟨rfl, rfl, rfl, fun h0 => absurd h0 (Nat.lt_irrefl 0)⟩
    | succ k =>
      obtain ⟨_, ts, r, t, g1, g2, g3⟩ := forestLoop_inv D G W cut0 k s3 s' _ F h4
      rw [g3]
      refine ⟨rfl, rfl, ?_, fun _ => ⟨ts, r, t, g1, g2, ?_⟩⟩
      · simp [Forest.new, strictRepeat_length _ _ _ _ _ g1]
      · simp [Forest.new]

/-- Witness of C3, amended: the stream `0.5 0.1 1 0 0 2 0.25` is malformed, a Forest is
returned on it and the fail flag is set; the stream `0.5 0.1 0` is well formed and is
read as the Forest without trees, the stream staying good. -/
theorem decode_failure_reporting_witness :
    (strictForest decFloating decFloating decFloating "0.5 0.1 1 0 0 2 0.25".toList = none ∧
      strictForest decFloating decFloating decFloating "0.5 0.1 0".toList =
        some (⟨.fin false 1 1, .fin false 5 1, []⟩, [])) ∧
    (∀ s' F, readForestFromStream decFloating decFloating decFloating zeroCut
        ⟨"0.5 0.1 1 0 0 2 0.25".toList, false⟩ = some (s', F) → s'.fail = true) ∧
    readForestFromStream decFloating decFloating decFloating zeroCut
        ⟨"0.5 0.1 0".toList, false⟩ = some (⟨[], false⟩, ⟨.fin false 1 1, .fin false 5 1, []⟩) ∧
    ReturnsForest decFloating decFloating decFloating "0.5 0.1 1 0 0 2 0.25".toList :=
  ⟨⟨by rfl, by rfl⟩,
    (decode_failure_reporting decFloating decFloating decFloating zeroCut
      "0.5 0.1 1 0 0 2 0.25".toList).2.1 (by rfl),
    (decode_failure_reporting decFloating decFloating decFloating zeroCut
      "0.5 0.1 0".toList).1 _ _ (by rfl),
    (decode_failure_reporting decFloating decFloating decFloating zeroCut
      "0.5 0.1 1 0 0 2 0.25".toList).2.2.2.2.2.2.1.1 ⟨_, _, by rfl⟩⟩

end FastBDT
